import Mathlib

/-!
# Verification of the changelog / release subsystem of obsidian-paste-cleaner

This file shallowly embeds the release tooling of the repository
(`tools/release-utils.ts` and the release script) in Lean 4 and proves the
specification claims about it.

Conventions of the embedding:

* JavaScript strings are Lean `String`s; all string manipulation is defined on
  the underlying `List Char` by structural recursion so every definition is
  executable and kernel-reducible.
* JavaScript numbers holding versions are `Nat` with the explicit
  `Number.MAX_SAFE_INTEGER = 2^53 - 1` bounds of the `semver` library applied
  where the library applies them.
* Functions that can `throw` are modelled with `Option`/`Except`.
* `toLowerCase` is modelled on the ASCII range (the only range relevant to the
  `"unreleased"` test); `Number(x)` coercion inside `isNaN` is modelled for
  digit-only strings, the only shape reachable from parsed version data.
-/

namespace Release

/-! ## JavaScript character classes and string primitives -/

/-- JS `\s` / `String.prototype.trim` whitespace set (WhiteSpace ∪ LineTerminator). -/
def jsWS (c : Char) : Bool :=
  c == ' ' || c == '\t' || c == '\n' || c == '\r' ||
  c.toNat == 11 || c.toNat == 12 || c.toNat == 0xa0 || c.toNat == 0x1680 ||
  (0x2000 ≤ c.toNat && c.toNat ≤ 0x200a) ||
  c.toNat == 0x2028 || c.toNat == 0x2029 || c.toNat == 0x202f ||
  c.toNat == 0x205f || c.toNat == 0x3000 || c.toNat == 0xfeff

/-- JS regexp `.` does not match these (LineTerminator set). -/
def jsLineTerm (c : Char) : Bool :=
  c == '\n' || c == '\r' || c.toNat == 0x2028 || c.toNat == 0x2029

def isDigitC (c : Char) : Bool := '0' ≤ c && c ≤ '9'

def isAlphaC (c : Char) : Bool := ('a' ≤ c && c ≤ 'z') || ('A' ≤ c && c ≤ 'Z')

/-- Character class `[0-9A-Za-z-]` of semver identifiers. -/
def idChar (c : Char) : Bool := isDigitC c || isAlphaC c || c == '-'

/-- Character class `[0-9A-Za-z.-]` (the heading version-suffix continuation). -/
def sfxChar (c : Char) : Bool := idChar c || c == '.'

/-- One of the delimiters `[-+._]` that may introduce a heading version suffix. -/
def sfxDelim (c : Char) : Bool := c == '-' || c == '+' || c == '.' || c == '_'

/-- Drop trailing whitespace. -/
def dropTrailWS (l : List Char) : List Char := (l.reverse.dropWhile jsWS).reverse

/-- JS `String.prototype.trim` on a character list. -/
def trimL (l : List Char) : List Char := dropTrailWS (l.dropWhile jsWS)

/-- JS `String.prototype.trim`. -/
def jsTrim (s : String) : String := ⟨trimL s.data⟩

/-- Split a character list at every `'\n'` (the newline is consumed). -/
def splitNL : List Char → List (List Char)
  | [] => [[]]
  | c :: rest =>
    if c = '\n' then [] :: splitNL rest
    else
      match splitNL rest with
      | [] => [[c]]
      | l :: ls => (c :: l) :: ls

/-- Remove a single trailing `'\r'`, if present. -/
def chompCR (l : List Char) : List Char :=
  if l.getLast? = some '\r' then l.dropLast else l

/-- Apply `chompCR` to every piece except the last one. -/
def fixCR : List (List Char) → List (List Char)
  | [] => []
  | [l] => [l]
  | l :: ls => chompCR l :: fixCR ls

/-- JS `content.split(/\r?\n/)`: split at `'\n'`, each separator consuming an
immediately preceding `'\r'`. -/
def splitLines (s : String) : List String := (fixCR (splitNL s.data)).map String.mk

/-- JS `String.prototype.startsWith`. -/
def sStartsWith (s p : String) : Bool := p.data.isPrefixOf s.data

/-- ASCII `String.prototype.toLowerCase`. -/
def lowerC (c : Char) : Char :=
  if 'A' ≤ c && c ≤ 'Z' then Char.ofNat (c.toNat + 32) else c

def jsToLower (s : String) : String := ⟨s.data.map lowerC⟩

/-- Boolean infix test on character lists. -/
def isInfixL (needle hay : List Char) : Bool :=
  needle.isPrefixOf hay ||
    match hay with
    | [] => false
    | _ :: t => isInfixL needle t

/-- JS `String.prototype.includes`. -/
def sIncludes (hay needle : String) : Bool := isInfixL needle.data hay.data

/-- Join with a separator (JS `Array.prototype.join`). -/
def joinSep (sep : String) : List String → String
  | [] => ""
  | [x] => x
  | x :: xs => x ++ sep ++ joinSep sep xs

/-- The pieces of `splitNL` joined by `'\n'`. -/
def joinNL : List (List Char) → List Char
  | [] => []
  | [l] => l
  | l :: ls => l ++ '\n' :: joinNL ls

/-! ## Decimal rendering and reading

JS renders the version numbers with the standard decimal `Number.toString`;
we define the canonical decimal renderer by structural recursion so that its
correctness is provable. -/

def digitChar (n : Nat) : Char := Char.ofNat (48 + n)

def digitVal (c : Char) : Nat := c.toNat - 48

def decLoop : Nat → Nat → List Char → List Char
  | 0, _, acc => acc
  | fuel + 1, n, acc =>
    if n < 10 then digitChar n :: acc
    else decLoop fuel (n / 10) (digitChar (n % 10) :: acc)

/-- Canonical decimal digits of `n` (most significant first). -/
def decRender (n : Nat) : List Char := decLoop (n + 1) n []

def decStr (n : Nat) : String := ⟨decRender n⟩

/-- Numeric value of a digit list (most significant first). -/
def decValue (l : List Char) : Nat := l.foldl (fun a c => 10 * a + digitVal c) 0

/-- A digit list in canonical form: nonempty, digits only, no leading zero. -/
def canonicalDigits (l : List Char) : Bool :=
  !l.isEmpty && l.all isDigitC && (l.head? != some '0' || l.length == 1)

/-! ## The `semver` library (`semver-ts`): strict parse, render, compare, inc

Mirrors node-semver's strict grammar: optional leading `v`, trimmed input,
`MAX_LENGTH = 256`, numeric components bounded by `MAX_SAFE_INTEGER`,
pre-release identifiers stored as numbers exactly when they are canonical
digit runs with value `< MAX_SAFE_INTEGER`, build metadata validated but
dropped from the canonical rendering (`SemVer.version`). -/

/-- `Number.MAX_SAFE_INTEGER`. -/
def MAXSAFE : Nat := 2 ^ 53 - 1

inductive PreId where
  | num (n : Nat)
  | str (s : String)
deriving DecidableEq, Repr

structure SemVer where
  major : Nat
  minor : Nat
  patch : Nat
  pre : List PreId
deriving DecidableEq, Repr

/-- Parse one dotted `MAJOR`/`MINOR`/`PATCH` component: a canonical digit run
within `MAX_SAFE_INTEGER`; returns the value and the rest of the input. -/
def parseCore (l : List Char) : Option (Nat × List Char) :=
  let d := l.takeWhile isDigitC
  let rest := l.dropWhile isDigitC
  if !canonicalDigits d then none
  else if MAXSAFE < decValue d then none
  else some (decValue d, rest)

def expectDot : List Char → Option (List Char)
  | c :: rest => if c = '.' then some rest else none
  | [] => none

/-- Split on `'.'` (keeping empty chunks). -/
def splitDot : List Char → List (List Char)
  | [] => [[]]
  | c :: rest =>
    if c = '.' then [] :: splitDot rest
    else
      match splitDot rest with
      | [] => [[c]]
      | l :: ls => (c :: l) :: ls

/-- Classify one pre-release identifier chunk per the strict grammar
`0|[1-9]\d*|\d*[a-zA-Z-][a-zA-Z0-9-]*`, storing canonical numerics below
`MAX_SAFE_INTEGER` as numbers. -/
def classifyId (chunk : List Char) : Option PreId :=
  if chunk.isEmpty then none
  else if !chunk.all idChar then none
  else if chunk.all isDigitC then
    if !canonicalDigits chunk then none
    else if decValue chunk < MAXSAFE then some (.num (decValue chunk))
    else some (.str ⟨chunk⟩)
  else some (.str ⟨chunk⟩)

/-- Characters that may occur in the dotted pre-release/build section. -/
def secChar (c : Char) : Bool := idChar c || c == '.'

def parsePre (l : List Char) : Option (List PreId) := (splitDot l).mapM classifyId

def okBuildChunk (l : List Char) : Bool := !l.isEmpty && l.all idChar

def buildOk (l : List Char) : Bool := (splitDot l).all okBuildChunk

/-- Build-metadata tail: `+` already consumed; everything left must be dotted
nonempty `[0-9A-Za-z-]` chunks. -/
def parseBuildTail (l : List Char) : Bool :=
  (l.dropWhile secChar).isEmpty && buildOk (l.takeWhile secChar)

/-- The tail after the version core: optional `-` pre-release section and
optional `+` build section. -/
def parseTail (major minor patch : Nat) : List Char → Option SemVer
  | [] => some ⟨major, minor, patch, []⟩
  | c :: r6 =>
    if c = '-' then
      let sec := r6.takeWhile secChar
      let r7 := r6.dropWhile secChar
      match parsePre sec with
      | none => none
      | some pre =>
        match r7 with
        | [] => some ⟨major, minor, patch, pre⟩
        | c2 :: r8 =>
          if c2 = '+' then
            if parseBuildTail r8 then some ⟨major, minor, patch, pre⟩ else none
          else none
    else if c = '+' then
      if parseBuildTail r6 then some ⟨major, minor, patch, []⟩ else none
    else none

/-- Strict parse of a semver string (node-semver `new SemVer(version)`),
without build metadata (which `SemVer.version` drops). -/
def parseSemVerL (cs0 : List Char) : Option SemVer :=
  let cs1 := trimL cs0
  if 256 < cs1.length then none
  else
    let cs := if cs1.head? = some 'v' then cs1.tail else cs1
    (parseCore cs).bind fun mr1 =>
      (expectDot mr1.2).bind fun r2 =>
        (parseCore r2).bind fun mr3 =>
          (expectDot mr3.2).bind fun r4 =>
            (parseCore r4).bind fun pr5 =>
              parseTail mr1.1 mr3.1 pr5.1 pr5.2

def parseSemVer (s : String) : Option SemVer := parseSemVerL s.data

def renderId : PreId → String
  | .num n => decStr n
  | .str s => s

def renderPre (pre : List PreId) : String := joinSep "." (pre.map renderId)

/-- node-semver `SemVer.version` / `format()`: canonical rendering, build
metadata excluded. -/
def renderSemVer (v : SemVer) : String :=
  decStr v.major ++ "." ++ decStr v.minor ++ "." ++ decStr v.patch ++
    (if v.pre.isEmpty then "" else "-" ++ renderPre v.pre)

/-- node-semver `valid`: the canonical rendering of a parsable version. -/
def jsValid (s : String) : Option String := (parseSemVer s).map renderSemVer

/-- Digit-only test used by `compareIdentifiers` (`/^[0-9]+$/`). -/
def numericStr (s : String) : Bool := !s.data.isEmpty && s.data.all isDigitC

def idNumVal : PreId → Option Nat
  | .num n => some n
  | .str s => if numericStr s then some (decValue s.data) else none

/-- Lexicographic order on character lists (JS string `<`). -/
def cmpCharL : List Char → List Char → Ordering
  | [], [] => .eq
  | [], _ :: _ => .lt
  | _ :: _, [] => .gt
  | a :: as, b :: bs =>
    if a < b then .lt else if b < a then .gt else cmpCharL as bs

/-- node-semver `compareIdentifiers`. -/
def cmpIds (a b : PreId) : Ordering :=
  match idNumVal a, idNumVal b with
  | some x, some y => compare x y
  | some _, none => .lt
  | none, some _ => .gt
  | none, none => cmpCharL (renderId a).data (renderId b).data

def cmpPreL : List PreId → List PreId → Ordering
  | [], [] => .eq
  | [], _ :: _ => .lt
  | _ :: _, [] => .gt
  | a :: as, b :: bs =>
    match cmpIds a b with
    | .eq => cmpPreL as bs
    | o => o

/-- node-semver `comparePre`: a version with a pre-release sorts below the
same version without one. -/
def cmpPre (a b : List PreId) : Ordering :=
  match a, b with
  | [], [] => .eq
  | [], _ :: _ => .gt
  | _ :: _, [] => .lt
  | _, _ => cmpPreL a b

/-- node-semver `compare`. -/
def cmpSemVer (a b : SemVer) : Ordering :=
  match compare a.major b.major with
  | .eq =>
    match compare a.minor b.minor with
    | .eq =>
      match compare a.patch b.patch with
      | .eq => cmpPre a.pre b.pre
      | o => o
    | o => o
  | o => o

/-- node-semver `gt(a, b)`; throws (`.error`) on an invalid version. -/
def gtJs (a b : String) : Except String Bool :=
  match parseSemVer a with
  | none => .error ("Invalid Version: " ++ a)
  | some x =>
    match parseSemVer b with
    | none => .error ("Invalid Version: " ++ b)
    | some y => .ok (cmpSemVer x y == .gt)

/-- node-semver `prerelease(version)`: the pre-release identifiers when the
version parses and has some, else `none` (JS `null`). -/
def prereleaseJs (s : String) : Option (List PreId) :=
  match parseSemVer s with
  | some v => if v.pre.isEmpty then none else some v.pre
  | none => none

/-! ### `inc` -/

inductive ReleaseType where
  | major | minor | patch | premajor | preminor | prepatch | prerelease
deriving DecidableEq, Repr

/-- Increment the rightmost numeric pre-release identifier, if any. -/
def bumpLastNum : List PreId → Option (List PreId)
  | [] => none
  | x :: xs =>
    match bumpLastNum xs with
    | some xs2 => some (x :: xs2)
    | none =>
      match x with
      | .num n => some (.num (n + 1) :: xs)
      | .str _ => none

/-- One identifier of the unanchored `PRERELEASE` pattern, with JS ordered
alternation: a `'0'`-led chunk matches the single `'0'`; other digit-led
chunks match their maximal digit run; letter/hyphen-led chunks match their
maximal `[0-9A-Za-z-]` run. -/
def greedyId (cs : List Char) : Option (List Char × List Char) :=
  match cs with
  | [] => none
  | c :: rest =>
    if c = '0' then some ([c], rest)
    else if isDigitC c then some (cs.takeWhile isDigitC, cs.dropWhile isDigitC)
    else if isAlphaC c || c = '-' then some (cs.takeWhile idChar, cs.dropWhile idChar)
    else none

def greedyLoop : Nat → List Char → List Char → List Char × List Char
  | 0, consumed, rest => (consumed, rest)
  | fuel + 1, consumed, rest =>
    match rest with
    | '.' :: r2 =>
      match greedyId r2 with
      | some (d, r3) => greedyLoop fuel (consumed ++ '.' :: d) r3
      | none => (consumed, rest)
    | _ => (consumed, rest)

/-- node-semver's `inc` identifier guard: `` `-${identifier}` `` must match the
unanchored `PRERELEASE` pattern with the whole identifier as capture. -/
def incIdentOk (ident : String) : Bool :=
  match greedyId ident.data with
  | some (d, rest) => (greedyLoop (rest.length + 1) d rest).1 == ident.data
  | none => false

/-- JS `isNaN(prerelease[1])`: `true` for a missing element or a
non-numeric string element. (`Number()` forms such as exponent or hex
notation cannot occur in parsed pre-release data and are not modelled.) -/
def elemNaN : Option PreId → Bool
  | none => true
  | some (.num _) => false
  | some (.str s) => !numericStr s

/-- node-semver `inc('pre', identifier)` with the default identifier base 0. -/
def incPre (v : SemVer) (ident : Option String) : SemVer :=
  let pre1 :=
    if v.pre.isEmpty then [PreId.num 0]
    else
      match bumpLastNum v.pre with
      | some l => l
      | none => v.pre ++ [PreId.num 0]
  match ident with
  | none => { v with pre := pre1 }
  | some id =>
    let replacement := [PreId.str id, PreId.num 0]
    match pre1 with
    | [] => { v with pre := replacement }
    | p0 :: ptail =>
      if cmpIds p0 (PreId.str id) = .eq then
        if elemNaN ptail.head? then { v with pre := replacement }
        else { v with pre := pre1 }
      else { v with pre := replacement }

/-- node-semver `SemVer.inc`, on the parsed structure. A `none` result models
a thrown error (invalid pre-release identifier). The script always passes the
identifier through for pre-release bump kinds and it is ignored otherwise. -/
def incSemVer (v : SemVer) (rt : ReleaseType) (identRaw : Option String) : Option SemVer :=
  let ident : Option String :=
    match identRaw with
    | some s => if s.isEmpty then none else some s
    | none => none
  let preOk : Bool :=
    match ident with
    | some s => incIdentOk s
    | none => true
  match rt with
  | .major =>
    some { major := (if v.minor ≠ 0 || v.patch ≠ 0 || v.pre.isEmpty then v.major + 1 else v.major),
           minor := 0,
           patch := 0,
           pre := [] }
  | .minor =>
    some { v with
           minor := (if v.patch ≠ 0 || v.pre.isEmpty then v.minor + 1 else v.minor),
           patch := 0,
           pre := [] }
  | .patch =>
    some { v with patch := (if v.pre.isEmpty then v.patch + 1 else v.patch), pre := [] }
  | .premajor =>
    if preOk then some (incPre { v with major := v.major + 1, minor := 0, patch := 0, pre := [] } ident)
    else none
  | .preminor =>
    if preOk then some (incPre { v with minor := v.minor + 1, patch := 0, pre := [] } ident)
    else none
  | .prepatch =>
    if preOk then some (incPre { v with patch := v.patch + 1, pre := [] } ident)
    else none
  | .prerelease =>
    if preOk then
      some (incPre (if v.pre.isEmpty then { v with patch := v.patch + 1, pre := [] } else v) ident)
    else none

/-- node-semver module-level `inc(version, release, {}, identifier)`: `null`
on an invalid current version or a thrown error. -/
def jsInc (current : String) (rt : ReleaseType) (ident : Option String) : Option String :=
  match parseSemVer current with
  | none => none
  | some v => (incSemVer v rt ident).map renderSemVer

/-! ## The release script's version-resolution pipeline -/

/-- `nextVersion.replace(/\.(?=\d+$)/, "")`: drop the first `'.'` that is
followed only by digits (at least one) up to the end. -/
def dotRemoveL : List Char → List Char
  | [] => []
  | c :: rest =>
    if c = '.' && !rest.isEmpty && rest.all isDigitC then rest
    else c :: dotRemoveL rest

def dotRemove (s : String) : String := ⟨dotRemoveL s.data⟩

/-- BRAT compatibility normalization: applied only when `prerelease(next)` is
non-null. -/
def bratNormalize (s : String) : String :=
  match prereleaseJs s with
  | some _ => dotRemove s
  | none => s

def releaseTypeOf (s : String) : Option ReleaseType :=
  if s = "major" then some .major
  else if s = "minor" then some .minor
  else if s = "patch" then some .patch
  else if s = "premajor" then some .premajor
  else if s = "preminor" then some .preminor
  else if s = "prepatch" then some .prepatch
  else if s = "prerelease" then some .prerelease
  else none

/-- The release script's next-version computation (part_004 lines 286–318):
keyword bumps via `inc`, explicit versions via `valid`, then the BRAT
dot-removal; `none` models the `Invalid version` abort. -/
def resolveNextVersion (current versionArg : String) (preid : Option String) : Option String :=
  let n0 :=
    match releaseTypeOf versionArg with
    | some rt => jsInc current rt preid
    | none => jsValid versionArg
  n0.map bratNormalize

/-! ## The changelog model and parser (`tools/release-utils.ts`) -/

structure ChangelogEntry where
  version : Option String
  header : String
  content : String
deriving DecidableEq, Repr

structure ParsedChangelog where
  title : String
  description : String
  entries : List ChangelogEntry
  warnings : List String
deriving DecidableEq, Repr

/-- `line.match(/^##(?!#)\s*(.*)/)` succeeds. -/
def isHeaderLine (l : String) : Bool :=
  match l.data with
  | c1 :: c2 :: rest =>
    c1 == '#' && c2 == '#' &&
      (match rest with
       | c3 :: _ => c3 != '#'
       | [] => true)
  | _ => false

/-- `match[1].trim()` of the heading regex: after `##`, greedy `\s*`, then `.*`
(which stops at a line terminator), trimmed. -/
def headerTextOf (l : String) : String :=
  ⟨trimL (((l.data.drop 2).dropWhile jsWS).takeWhile (fun c => !jsLineTerm c))⟩

/-- Attempt the version pattern
`(?:\(|\[)?\s*v?([0-9]+\.[0-9]+\.[0-9]+(?:[-+._][0-9A-Za-z.-]+)?)\s*(?:\)|\])?`
at the head of `cs`, returning the capture group. -/
def tokenAt (cs : List Char) : Option (List Char) :=
  let cs1 :=
    match cs with
    | c :: rest => if c = '(' || c = '[' then rest else cs
    | [] => cs
  let cs2 := cs1.dropWhile jsWS
  let cs3 :=
    match cs2 with
    | c :: rest =>
      if c = 'v' && (match rest with | d :: _ => isDigitC d | [] => false) then rest else cs2
    | [] => cs2
  let d1 := cs3.takeWhile isDigitC
  let r1 := cs3.dropWhile isDigitC
  if d1.isEmpty then none
  else
    match r1 with
    | '.' :: r2 =>
      let d2 := r2.takeWhile isDigitC
      let r3 := r2.dropWhile isDigitC
      if d2.isEmpty then none
      else
        match r3 with
        | '.' :: r4 =>
          let d3 := r4.takeWhile isDigitC
          let r5 := r4.dropWhile isDigitC
          if d3.isEmpty then none
          else
            let sfx : List Char :=
              match r5 with
              | c :: rest =>
                if sfxDelim c then
                  let run := rest.takeWhile sfxChar
                  if run.isEmpty then [] else c :: run
                else []
              | [] => []
            some (d1 ++ '.' :: d2 ++ '.' :: d3 ++ sfx)
        | _ => none
    | _ => none

/-- Leftmost match of the version pattern (JS `String.prototype.match`). -/
def extractTok : List Char → Option (List Char)
  | [] => none
  | c :: rest =>
    match tokenAt (c :: rest) with
    | some t => some t
    | none => extractTok rest

def extractVersionToken (s : String) : Option String := (extractTok s.data).map String.mk

def headerWarning (header : String) : String :=
  "CHANGELOG.md: Header \"" ++ header ++ "\" does not contain a valid SemVer identifier."

/-- Version classification of one heading (release-utils.ts lines 93–109):
the version pattern has priority, falling back to the case-insensitive
`"unreleased"` test; returns the version and the warnings pushed. -/
def classifyVersion (header ht : String) : Option String × List String :=
  match extractVersionToken ht with
  | some tok =>
    match jsValid (jsTrim tok) with
    | some sv => (some sv, [])
    | none => (none, [headerWarning header])
  | none =>
    if sIncludes (jsToLower ht) "unreleased" then (some "unreleased", [])
    else (none, [])

def mkEntry (l : String) : ChangelogEntry × List String :=
  let header := jsTrim l
  let cv := classifyVersion header (headerTextOf l)
  ({ version := cv.1, header := header, content := "" }, cv.2)

def flushEntry (e : ChangelogEntry) : ChangelogEntry := { e with content := jsTrim e.content }

/-- The scan loop after the first heading was found: accumulate content lines
into the current entry, flushing on each further heading. -/
def parseBody : List String → ChangelogEntry → List ChangelogEntry × List String
  | [], cur => ([flushEntry cur], [])
  | l :: rest, cur =>
    if isHeaderLine l then
      let ews := mkEntry l
      let rec2 := parseBody rest ews.1
      (flushEntry cur :: rec2.1, ews.2 ++ rec2.2)
    else parseBody rest { cur with content := cur.content ++ l ++ "\n" }

/-- The scan loop before the first heading: accumulate the description
(skipping `"# "` title lines). -/
def parsePreamble : List String → String × List ChangelogEntry × List String
  | [] => ("", [], [])
  | l :: rest =>
    if isHeaderLine l then
      let ews := mkEntry l
      let rec2 := parseBody rest ews.1
      ("", rec2.1, ews.2 ++ rec2.2)
    else
      let rec2 := parsePreamble rest
      ((if sStartsWith l "# " then "" else l ++ "\n") ++ rec2.1, rec2.2.1, rec2.2.2)

def isUnrel (e : ChangelogEntry) : Bool := e.version == some "unreleased"

def unreleasedPlaceholder : ChangelogEntry :=
  { version := some "unreleased", header := "## [Unreleased]", content := "" }

def missingUnreleasedWarning : String :=
  "CHANGELOG.md: Missing [Unreleased] section; creating an empty placeholder."

def emptyUnreleasedWarning : String := "CHANGELOG.md: Unreleased section is empty."

/-- `lines.find((line) => line.startsWith("# "))?.trim() || "Changelog"`. -/
def titleOf (lines : List String) : String :=
  match lines.find? (fun l => sStartsWith l "# ") with
  | some l => if jsTrim l = "" then "Changelog" else jsTrim l
  | none => "Changelog"

/-- `parseChangelog` of release-utils.ts, on the changelog text. -/
def parseChangelog (content : String) : ParsedChangelog :=
  let lines := splitLines content
  let title := titleOf lines
  let pre := parsePreamble lines
  let d0 := pre.1
  let es0 := pre.2.1
  let ws0 := pre.2.2
  let unreleasedContent := jsTrim d0
  let step1 : List ChangelogEntry × String :=
    if unreleasedContent ≠ "" && !es0.any isUnrel then
      ({ version := some "unreleased", header := "## [Unreleased]",
         content := unreleasedContent } :: es0, "")
    else (es0, d0)
  let es1 := step1.1
  let d1 := step1.2
  let step2 : List ChangelogEntry × List String :=
    if !es1.any isUnrel then (unreleasedPlaceholder :: es1, ws0 ++ [missingUnreleasedWarning])
    else (es1, ws0)
  let es2 := step2.1
  let ws2 := step2.2
  let ws3 :=
    match es2.find? isUnrel with
    | some u => if jsTrim u.content = "" then ws2 ++ [emptyUnreleasedWarning] else ws2
    | none => ws2
  { title := title, description := jsTrim d1, entries := es2, warnings := ws3 }

/-- `updateChangelog` of release-utils.ts: the produced replacement text and
the released content (`today` abstracts the ISO date); `.error` models the
thrown `Error`. -/
def updateChangelog (parsed : ParsedChangelog) (nextVersion today : String) :
    Except String (String × String) :=
  match parsed.entries.find? isUnrel with
  | none => .error "No unreleased changes found in CHANGELOG.md."
  | some u =>
    if u.content = "" then .error "No unreleased changes found in CHANGELOG.md."
    else
      let newHeader := "## [" ++ nextVersion ++ "] - " ++ today
      let newEntry : ChangelogEntry :=
        { version := some nextVersion, header := newHeader, content := u.content }
      let otherEntries := parsed.entries.filter (fun e => !isUnrel e)
      let newEntries := newEntry :: otherEntries
      let base :=
        parsed.title ++ "\n\n" ++
          (if parsed.description ≠ "" then parsed.description ++ "\n\n" else "") ++
          "## [Unreleased]\n\n"
      let body :=
        newEntries.foldl (fun acc e => acc ++ e.header ++ "\n\n" ++ e.content ++ "\n\n") base
      .ok (jsTrim body ++ "\n", newEntry.content)

/-! ## The release orchestrator

A deterministic model of the release script's `main` from the point where the
changelog has been parsed (line 240) through the file-mutation steps
(line 392).  Console output is modelled as events (`console.log` = `out`,
`console.error` = `err`, color codes and icons dropped as pure presentation);
file writes are `mutate` events; `process.exit(c)` is an exit code.  External
inputs (project metadata, branch names, the confirmation answer, the date) are
parameters. -/

inductive Ev where
  | out (s : String)
  | err (s : String)
  | mutate (file : String)
deriving DecidableEq, Repr

structure RunCfg where
  strict : Bool
  quiet : Bool
  autoConfirm : Bool
  isTTY : Bool
  confirmAnswer : Bool
  preid : Option String
deriving Repr

structure GitEnv where
  currentBranch : Option String
  defaultBranch : Option String
deriving Repr

structure ProjectInfo where
  id : String
  version : String
  minAppVersion : String
  pkgVersion : String
  versions : List (String × String)
deriving Repr

structure RunResult where
  events : List Ev
  exitCode : Option Nat
deriving DecidableEq, Repr

def strictAbortMsg : String := "Strict mode: aborting due to changelog warnings."

def locateMsg : String := "CHANGELOG.md: Unable to locate or create [Unreleased] section."

def emptyUseMsg : String :=
  "CHANGELOG.md: [Unreleased] section is empty; using placeholder entry for release notes."

def placeholderContent : String := "- _No changes recorded._"

def branchPolicyMsg : String := "Pre-releases must be created from a non-default branch."

def nonInteractiveMsg : String :=
  "Running in non-interactive mode without --yes flag. Use --yes to auto-confirm."

def conflictMsgOf (hv : List ChangelogEntry) : String :=
  "Changelog contains versions higher than the target version: " ++
    joinSep ", " (hv.map (fun e => e.version.getD ""))

/-- Output suppressed in quiet mode (`log.success`/`log.step`/`log.info`/`log.blank`). -/
def logq (quiet : Bool) (s : String) : List Ev := if quiet then [] else [Ev.out s]

/-- In-place mutation of the found (first) unreleased entry's content. -/
def setFirstUnrelContent : List ChangelogEntry → String → List ChangelogEntry
  | [], _ => []
  | e :: rest, c =>
    if isUnrel e then { e with content := c } :: rest
    else e :: setFirstUnrelContent rest c

/-- `parsedChangelog.entries.filter((e) => e.version && e.version !== "unreleased"
&& gt(e.version, nextVersion))`; a thrown `Invalid Version` error propagates. -/
def higherFilter (es : List ChangelogEntry) (nv : String) : Except String (List ChangelogEntry) :=
  match es with
  | [] => .ok []
  | e :: rest =>
    match e.version with
    | none => higherFilter rest nv
    | some v =>
      if v = "unreleased" then higherFilter rest nv
      else
        match gtJs v nv with
        | .error m => .error m
        | .ok b =>
          match higherFilter rest nv with
          | .error m => .error m
          | .ok l => .ok (if b then e :: l else l)

/-- `Record` lookup (`versionsJson[nextVersion]`). -/
def lookupVersions : List (String × String) → String → Option String
  | [], _ => none
  | p :: rest, k => if p.1 = k then some p.2 else lookupVersions rest k

/-- The branch-policy test
`if (defaultBranch && currentBranch && currentBranch === defaultBranch)`. -/
def branchBlocked (git : GitEnv) : Bool :=
  match git.defaultBranch, git.currentBranch with
  | some db, some cb => db ≠ "" && cb ≠ "" && cb = db
  | _, _ => false

/-- The metadata mutation steps (manifest.json, package.json, versions.json). -/
def mutateMetaEvents (cfg : RunCfg) (meta : ProjectInfo) (nextVersion : String) : List Ev :=
  logq cfg.quiet "Updating manifest.json..." ++ [Ev.mutate "manifest.json"] ++
    logq cfg.quiet ("Updated manifest.json to " ++ nextVersion) ++
  logq cfg.quiet "Updating package.json..." ++ [Ev.mutate "package.json"] ++
    logq cfg.quiet ("Updated package.json to " ++ nextVersion) ++
  logq cfg.quiet "Updating versions.json..." ++
    (match lookupVersions meta.versions nextVersion with
     | none => [Ev.mutate "versions.json"] ++ logq cfg.quiet ("Added " ++ nextVersion ++ " to versions.json")
     | some v =>
       if v = "" then
         [Ev.mutate "versions.json"] ++ logq cfg.quiet ("Added " ++ nextVersion ++ " to versions.json")
       else [Ev.out ("Version " ++ nextVersion ++ " already exists in versions.json")])

/-- The release script `main`, from after `parseChangelog()` (part_004 line
240) through the `updateChangelog` write (line 392). `exitCode = none` means
the run proceeds to the out-of-scope check/commit/tag/push steps. -/
def runRelease (meta : ProjectInfo) (parsed0 : ParsedChangelog) (versionArg : String)
    (cfg : RunCfg) (git : GitEnv) (today : String) : RunResult :=
  let evA := parsed0.warnings.map Ev.out
  if cfg.strict && !parsed0.warnings.isEmpty then
    ⟨evA ++ [Ev.err strictAbortMsg], some 1⟩
  else
    let stepB : List Ev × Option ParsedChangelog :=
      match parsed0.entries.find? isUnrel with
      | some _ => ([], some parsed0)
      | none =>
        if cfg.strict then ([Ev.err locateMsg], none)
        else ([Ev.out locateMsg],
              some { parsed0 with entries := unreleasedPlaceholder :: parsed0.entries })
    match stepB.2 with
    | none => ⟨evA ++ stepB.1, some 1⟩
    | some parsed1 =>
      let u := (parsed1.entries.find? isUnrel).getD unreleasedPlaceholder
      let stepC : List Ev × Option ParsedChangelog :=
        if jsTrim u.content = "" then
          if cfg.strict then ([Ev.err emptyUseMsg], none)
          else ([Ev.out emptyUseMsg],
                some { parsed1 with
                       entries := setFirstUnrelContent parsed1.entries placeholderContent })
        else ([], some parsed1)
      let evABC := evA ++ stepB.1 ++ stepC.1
      match stepC.2 with
      | none => ⟨evABC, some 1⟩
      | some parsed2 =>
        let current := meta.version
        let resolve : Except (List Ev) String :=
          match releaseTypeOf versionArg with
          | some rt =>
            let isPre := sStartsWith versionArg "pre" || (prereleaseJs current).isSome
            if isPre && branchBlocked git then .error [Ev.err branchPolicyMsg]
            else
              match jsInc current rt cfg.preid with
              | none => .error [Ev.err ("Invalid version: " ++ versionArg)]
              | some nv0 => .ok nv0
          | none =>
            match jsValid versionArg with
            | none => .error [Ev.err ("Invalid version: " ++ versionArg)]
            | some nv0 => .ok nv0
        match resolve with
        | .error evs => ⟨evABC ++ evs, some 1⟩
        | .ok nv0 =>
          let nextVersion := bratNormalize nv0
          match higherFilter parsed2.entries nextVersion with
          | .error m => ⟨evABC ++ [Ev.err m], some 1⟩
          | .ok hv =>
            if !hv.isEmpty then ⟨evABC ++ [Ev.err (conflictMsgOf hv)], some 1⟩
            else
              let evInfo := logq cfg.quiet "" ++
                logq cfg.quiet ("Version bump: " ++ current ++ " -> " ++ nextVersion) ++
                logq cfg.quiet ""
              let confirm : List Ev × Option Nat :=
                if cfg.autoConfirm then ([], none)
                else if !cfg.isTTY then ([Ev.err nonInteractiveMsg], some 1)
                else if cfg.confirmAnswer then ([], none)
                else (logq cfg.quiet "Cancelled.", some 0)
              match confirm.2 with
              | some c => ⟨evABC ++ evInfo ++ confirm.1, some c⟩
              | none =>
                let evMut := mutateMetaEvents cfg meta nextVersion
                let evPre := evABC ++ evInfo ++ confirm.1 ++ logq cfg.quiet "" ++ evMut ++
                  logq cfg.quiet "Updating CHANGELOG.md..."
                match updateChangelog parsed2 nextVersion today with
                | .error m => ⟨evPre ++ [Ev.err m], some 1⟩
                | .ok _ =>
                  ⟨evPre ++ [Ev.mutate "CHANGELOG.md"] ++ logq cfg.quiet "Updated CHANGELOG.md",
                   none⟩

/-- The error-stream messages of a run. -/
def errsOf (evs : List Ev) : List String :=
  evs.foldr (fun e acc => match e with | Ev.err s => s :: acc | _ => acc) []

/-- The output-stream messages of a run. -/
def outsOf (evs : List Ev) : List String :=
  evs.foldr (fun e acc => match e with | Ev.out s => s :: acc | _ => acc) []

/-- The files a run writes. -/
def mutationsOf (evs : List Ev) : List String :=
  evs.foldr (fun e acc => match e with | Ev.mutate s => s :: acc | _ => acc) []

/-! ## Verification-specific definitions -/

/-- Well-formedness of a stored pre-release identifier: exactly the shapes
`parseSemVer` can produce. -/
def wfId : PreId → Prop
  | .num n => n < MAXSAFE
  | .str s =>
    s.data ≠ [] ∧ s.data.all idChar = true ∧
      (s.data.all isDigitC = true → canonicalDigits s.data = true ∧ MAXSAFE ≤ decValue s.data)

def wfSemVer (v : SemVer) : Prop := ∀ i ∈ v.pre, wfId i

/-- The numeric bounds `parseSemVer` enforces on the version core. -/
def svBounds (v : SemVer) : Prop :=
  v.major ≤ MAXSAFE ∧ v.minor ≤ MAXSAFE ∧ v.patch ≤ MAXSAFE

instance (v : SemVer) : Decidable (svBounds v) := by
  unfold svBounds; infer_instance

/-- A stored entry content that the writer and a re-parse keep verbatim:
re-splitting it into lines reproduces it, and no line of it is a
second-level heading. -/
def contentClean (c : String) : Prop :=
  joinSep "\n" (splitLines c) = c ∧ ∀ l ∈ splitLines c, isHeaderLine l = false

/-- A pre-release identifier argument that keeps the resolved rendering a
well-formed semver: absent, empty (the script's non-pre-release default), or
a nonempty run of identifier characters that is not purely numeric. -/
def pidOk (pid : Option String) : Prop :=
  pid = none ∨ pid = some "" ∨
    ∃ t, pid = some t ∧ t.data ≠ [] ∧ t.data.all idChar = true ∧
      t.data.all isDigitC = false

/-- An entry that the writer/re-parse round trip keeps verbatim: the header
is a trimmed single-line second-level heading and the content is a trimmed,
newline-normalized, nonempty block without heading-shaped lines. -/
def entryClean (e : ChangelogEntry) : Prop :=
  isHeaderLine e.header = true ∧ jsTrim e.header = e.header ∧
    (∀ c ∈ e.header.data, c ≠ '\n') ∧
    contentClean e.content ∧ jsTrim e.content = e.content ∧ e.content ≠ ""

instance (c : String) : Decidable (contentClean c) := by
  unfold contentClean
  exact inferInstance

instance (e : ChangelogEntry) : Decidable (entryClean e) := by
  unfold entryClean
  exact inferInstance

/-- The writer's body text for an entry list, after the final right-trim
(the trailing blank separator of the last block removed). -/
def wrBlocksL : List ChangelogEntry → List Char
  | [] => []
  | [e] => e.header.data ++ '\n' :: '\n' :: e.content.data
  | e :: rest =>
    e.header.data ++ '\n' :: '\n' ::
      (e.content.data ++ '\n' :: '\n' :: wrBlocksL rest)

/-- The char-list line pieces the writer's blocks split into (with the one
final empty line contributed by the terminating newline). -/
def wrPiecesL : List ChangelogEntry → List (List Char)
  | [] => []
  | e :: rest =>
    e.header.data :: [] :: (splitNL e.content.data ++ [] :: wrPiecesL rest)

/-- The string lines the writer's blocks split into. -/
def wrBlockLines : List ChangelogEntry → List String
  | [] => []
  | e :: rest => e.header :: "" :: (splitLines e.content ++ "" :: wrBlockLines rest)

/-- The characters the writer's entry loop appends after the preamble,
including the final blank separator of the last block. -/
def blocksFullL : List ChangelogEntry → List Char
  | [] => []
  | e :: rest =>
    e.header.data ++ '\n' :: '\n' ::
      (e.content.data ++ '\n' :: '\n' :: blocksFullL rest)

/-- The conflict predicate of the release script's higher-version filter
(`e.version && e.version !== "unreleased" && gt(e.version, nextVersion)`),
as a pure boolean for the characterization of `higherFilter`. -/
def hfPred (nv : String) (e : ChangelogEntry) : Bool :=
  match e.version with
  | none => false
  | some v =>
    if v = "unreleased" then false
    else
      match gtJs v nv with
      | Except.ok true => true
      | _ => false

/-! ## Lemmas: decimal rendering -/

theorem decLoop_append : ∀ (fuel n : Nat) (acc : List Char),
    decLoop fuel n acc = decLoop fuel n [] ++ acc
  | 0, _, _ => rfl
  | fuel + 1, n, acc => by
    simp only [decLoop]
    split
    · rfl
    · rw [decLoop_append fuel (n / 10) (digitChar (n % 10) :: acc),
        decLoop_append fuel (n / 10) [digitChar (n % 10)]]
      simp

theorem decLoop_fuel (n : Nat) : ∀ (f₁ f₂ : Nat) (acc : List Char), n < f₁ → n < f₂ →
    decLoop f₁ n acc = decLoop f₂ n acc := by
  induction n using Nat.strong_induction_on with
  | _ n ih =>
    intro f₁ f₂ acc h₁ h₂
    match f₁, h₁ with
    | f₁ + 1, _ =>
      match f₂, h₂ with
      | f₂ + 1, _ =>
        simp only [decLoop]
        split
        · rfl
        · next h =>
          have hd : n / 10 < n := Nat.div_lt_self (by omega) (by omega)
          exact ih (n / 10) hd f₁ f₂ _ (by omega) (by omega)

theorem decRender_small {n : Nat} (h : n < 10) : decRender n = [digitChar n] := by
  simp [decRender, decLoop, h]

theorem decRender_step {n : Nat} (h : 10 ≤ n) :
    decRender n = decRender (n / 10) ++ [digitChar (n % 10)] := by
  have hd : n / 10 < n := Nat.div_lt_self (by omega) (by omega)
  unfold decRender
  rw [show decLoop (n + 1) n [] = decLoop n (n / 10) [digitChar (n % 10)] from by
    simp only [decLoop]; rw [if_neg (by omega : ¬ n < 10)]]
  rw [decLoop_append, decLoop_fuel (n / 10) n (n / 10 + 1) [] (by omega) (by omega)]

theorem digitVal_digitChar {n : Nat} (h : n < 10) : digitVal (digitChar n) = n := by
  interval_cases n <;> decide

theorem isDigitC_digitChar {n : Nat} (h : n < 10) : isDigitC (digitChar n) = true := by
  interval_cases n <;> decide

theorem digitChar_eq_zero_iff {n : Nat} (h : n < 10) : digitChar n = '0' ↔ n = 0 := by
  interval_cases n <;> simp <;> decide

theorem digitChar_digitVal {c : Char} (h : isDigitC c = true) :
    digitChar (digitVal c) = c := by
  simp only [isDigitC, Bool.and_eq_true, decide_eq_true_eq] at h
  have h48 : 48 ≤ c.toNat := h.1
  have h57 : c.toNat ≤ 57 := h.2
  have : 48 + digitVal c = c.toNat := by simp only [digitVal]; omega
  simp only [digitChar, this]
  exact Char.ofNat_toNat c

theorem digitVal_lt_ten {c : Char} (h : isDigitC c = true) : digitVal c < 10 := by
  simp only [isDigitC, Bool.and_eq_true, decide_eq_true_eq] at h
  have h57 : c.toNat ≤ 57 := h.2
  simp only [digitVal]; omega

theorem decValue_append (a b : List Char) :
    decValue (a ++ b) = b.foldl (fun x c => 10 * x + digitVal c) (decValue a) := by
  simp [decValue, List.foldl_append]

theorem decValue_snoc (a : List Char) (c : Char) :
    decValue (a ++ [c]) = 10 * decValue a + digitVal c := by
  simp [decValue_append]

theorem decValue_decRender (n : Nat) : decValue (decRender n) = n := by
  induction n using Nat.strong_induction_on with
  | _ n ih =>
    by_cases h : n < 10
    · rw [decRender_small h]
      simp [decValue, digitVal_digitChar h]
    · have hd : n / 10 < n := Nat.div_lt_self (by omega) (by omega)
      rw [decRender_step (by omega), decValue_snoc, ih (n / 10) hd,
        digitVal_digitChar (Nat.mod_lt n (by omega))]
      omega

theorem decRender_ne_nil (n : Nat) : decRender n ≠ [] := by
  by_cases h : n < 10
  · rw [decRender_small h]; simp
  · rw [decRender_step (by omega)]; simp

theorem decRender_all_digits (n : Nat) : (decRender n).all isDigitC = true := by
  induction n using Nat.strong_induction_on with
  | _ n ih =>
    by_cases h : n < 10
    · rw [decRender_small h]
      simp [isDigitC_digitChar h]
    · have hd : n / 10 < n := Nat.div_lt_self (by omega) (by omega)
      rw [decRender_step (by omega)]
      simp only [List.all_append, ih (n / 10) hd, List.all_cons, List.all_nil,
        isDigitC_digitChar (Nat.mod_lt n (by omega)), Bool.and_self]

theorem decRender_head_ne_zero {n : Nat} (h : n ≠ 0) :
    (decRender n).head? ≠ some '0' := by
  induction n using Nat.strong_induction_on with
  | _ n ih =>
    by_cases hs : n < 10
    · rw [decRender_small hs]
      simp only [List.head?_cons, ne_eq, Option.some.injEq]
      exact fun hc => h ((digitChar_eq_zero_iff hs).mp hc)
    · have hd : n / 10 < n := Nat.div_lt_self (by omega) (by omega)
      rw [decRender_step (by omega)]
      rw [List.head?_append_of_ne_nil _ (decRender_ne_nil (n / 10))]
      exact ih (n / 10) hd (by omega)

theorem canonicalDigits_decRender (n : Nat) : canonicalDigits (decRender n) = true := by
  simp only [canonicalDigits, Bool.and_eq_true, Bool.or_eq_true]
  refine ⟨⟨?_, decRender_all_digits n⟩, ?_⟩
  · rcases List.exists_cons_of_ne_nil (decRender_ne_nil n) with ⟨c, cs, hc⟩
    rw [hc]; rfl
  · by_cases h : n = 0
    · subst h; right; decide
    · left
      simp only [bne_iff_ne, ne_eq]
      exact decRender_head_ne_zero h

theorem decValue_foldl_ge (rest : List Char) : ∀ a : Nat,
    a ≤ rest.foldl (fun x c => 10 * x + digitVal c) a := by
  induction rest with
  | nil => intro a; simp
  | cons c cs ih =>
    intro a
    calc a ≤ 10 * a + digitVal c := by omega
    _ ≤ _ := ih _

theorem decValue_pos {l : List Char} (hne : l ≠ []) (hd : l.head? ≠ some '0')
    (hall : l.all isDigitC = true) : 0 < decValue l := by
  match l, hne with
  | c :: rest, _ =>
    simp only [List.head?_cons, ne_eq, Option.some.injEq] at hd
    simp only [List.all_cons, Bool.and_eq_true] at hall
    have hc : isDigitC c = true := hall.1
    have h1 : 1 ≤ digitVal c := by
      rcases Nat.eq_zero_or_pos (digitVal c) with h0 | h0
      · exfalso
        apply hd
        rw [← digitChar_digitVal hc, h0]
        decide
      · omega
    have : decValue (c :: rest) = rest.foldl (fun x c => 10 * x + digitVal c) (digitVal c) := by
      simp [decValue]
    rw [this]
    exact lt_of_lt_of_le (by omega) (decValue_foldl_ge rest (digitVal c))

theorem decRender_decValue {l : List Char} (h : canonicalDigits l = true) :
    decRender (decValue l) = l := by
  induction l using List.reverseRecOn with
  | nil => simp [canonicalDigits] at h
  | append_singleton l c ih =>
    simp only [canonicalDigits, Bool.and_eq_true, Bool.or_eq_true, List.all_append,
      List.all_cons, List.all_nil, Bool.and_true] at h
    have hc : isDigitC c = true := h.1.2.2
    match l with
    | [] =>
      have hv : decValue [c] = digitVal c := by simp [decValue]
      simp only [List.nil_append] at hv ⊢
      rw [hv, decRender_small (digitVal_lt_ten hc), digitChar_digitVal hc]
    | a :: l' =>
      have hall : (a :: l').all isDigitC = true := h.1.2.1
      have hhead : (a :: l').head? ≠ some '0' := by
        rcases h.2 with h2 | h2
        · simp only [List.head?_append_of_ne_nil _ (by simp : (a :: l') ≠ [])] at h2 ⊢
          simpa using h2
        · exfalso
          simp only [beq_iff_eq, List.length_append, List.length_cons] at h2
          omega
      have hpos : 0 < decValue (a :: l') := decValue_pos (by simp) hhead hall
      have hcan : canonicalDigits (a :: l') = true := by
        simp only [canonicalDigits, Bool.and_eq_true, Bool.or_eq_true]
        refine ⟨⟨by simp, hall⟩, Or.inl ?_⟩
        simpa using hhead
      rw [decValue_snoc]
      have hbig : 10 ≤ 10 * decValue (a :: l') + digitVal c := by omega
      rw [decRender_step hbig]
      have hdig : digitVal c < 10 := digitVal_lt_ten hc
      have hq : (10 * decValue (a :: l') + digitVal c) / 10 = decValue (a :: l') := by
        omega
      have hr : (10 * decValue (a :: l') + digitVal c) % 10 = digitVal c := by
        omega
      rw [hq, hr, ih hcan, digitChar_digitVal hc]

/-! ## Toolkit lemmas: whitespace trimming -/

theorem dropWhile_all_append {p : Char → Bool} {a : List Char} (h : a.all p = true)
    (b : List Char) : (a ++ b).dropWhile p = b.dropWhile p := by
  induction a with
  | nil => rfl
  | cons c cs ih =>
    simp only [List.all_cons, Bool.and_eq_true] at h
    simp only [List.cons_append, List.dropWhile_cons, h.1, if_true]
    exact ih h.2

theorem dropWhile_append_of_ne_nil {p : Char → Bool} {a : List Char}
    (h : a.dropWhile p ≠ []) (b : List Char) :
    (a ++ b).dropWhile p = a.dropWhile p ++ b := by
  induction a with
  | nil => simp at h
  | cons c cs ih =>
    by_cases hc : p c
    · simp only [List.cons_append, List.dropWhile_cons, hc, if_true] at h ⊢
      exact ih h
    · simp [List.dropWhile_cons, hc]

theorem head_dropWhile_not {p : Char → Bool} : ∀ {l : List Char} {a : Char},
    (l.dropWhile p).head? = some a → p a = false := by
  intro l
  induction l with
  | nil => intro a h; simp at h
  | cons c cs ih =>
    intro a h
    by_cases hc : p c
    · rw [List.dropWhile_cons, if_pos hc] at h
      exact ih h
    · rw [List.dropWhile_cons, if_neg hc] at h
      simp only [List.head?_cons, Option.some.injEq] at h
      rw [← h]
      exact Bool.eq_false_iff.mpr hc

theorem all_takeWhile {p : Char → Bool} (l : List Char) : (l.takeWhile p).all p = true := by
  induction l with
  | nil => rfl
  | cons c cs ih =>
    by_cases hc : p c
    · simp [List.takeWhile_cons, hc, ih]
    · simp [List.takeWhile_cons, hc]

theorem dropWhile_cons_false_self {p : Char → Bool} {c : Char} (h : p c = false)
    (l : List Char) : (c :: l).dropWhile p = c :: l := by
  simp [List.dropWhile_cons, h]

theorem dropWhile_all_nil {p : Char → Bool} {a : List Char} (h : a.all p = true) :
    a.dropWhile p = [] := by
  induction a with
  | nil => rfl
  | cons c cs ih =>
    simp only [List.all_cons, Bool.and_eq_true] at h
    simp only [List.dropWhile_cons, h.1, if_true]
    exact ih h.2

theorem dropTrailWS_decomp (l : List Char) :
    l = dropTrailWS l ++ (l.reverse.takeWhile jsWS).reverse ∧
      ((l.reverse.takeWhile jsWS).reverse).all jsWS = true := by
  constructor
  · have h := congrArg List.reverse (List.takeWhile_append_dropWhile (p := jsWS) (l := l.reverse))
    rw [List.reverse_append, List.reverse_reverse] at h
    exact h.symm
  · simp only [List.all_reverse]
    exact all_takeWhile l.reverse

theorem dropTrailWS_ws_append {b : List Char} (hb : b.all jsWS = true) (m : List Char) :
    dropTrailWS (m ++ b) = dropTrailWS m := by
  simp only [dropTrailWS, List.reverse_append]
  rw [dropWhile_all_append (by simpa using hb)]

theorem dropTrailWS_last_not_ws {l : List Char} {a : Char}
    (h : (dropTrailWS l).getLast? = some a) : jsWS a = false := by
  rw [← List.head?_reverse] at h
  simp only [dropTrailWS, List.reverse_reverse] at h
  exact head_dropWhile_not h

theorem getLast_dropTrailWS_self {l : List Char} {a : Char} (h : l.getLast? = some a)
    (ha : jsWS a = false) : dropTrailWS l = l := by
  simp only [dropTrailWS]
  rw [← List.head?_reverse] at h
  have : l.reverse.dropWhile jsWS = l.reverse := by
    match hr : l.reverse, h with
    | c :: cs, h =>
      simp only [List.head?_cons, Option.some.injEq] at h
      subst h
      exact dropWhile_cons_false_self ha cs
  rw [this, List.reverse_reverse]

theorem trimL_nil : trimL [] = [] := rfl

theorem trimL_head_not_ws {l : List Char} {a : Char} (h : (trimL l).head? = some a) :
    jsWS a = false := by
  simp only [trimL] at h
  have hdec := (dropTrailWS_decomp (l.dropWhile jsWS)).1
  have hne : trimL l ≠ [] := by
    intro he
    simp only [trimL] at he
    rw [he] at h; simp at h
  have : (l.dropWhile jsWS).head? = some a := by
    rw [hdec, List.head?_append_of_ne_nil]
    · exact h
    · intro he
      simp only [trimL] at hne
      exact hne he
  exact head_dropWhile_not this

theorem trimL_last_not_ws {l : List Char} {a : Char} (h : (trimL l).getLast? = some a) :
    jsWS a = false := dropTrailWS_last_not_ws h

theorem trimL_eq_self {l : List Char}
    (hh : ∀ a, l.head? = some a → jsWS a = false)
    (hl : ∀ a, l.getLast? = some a → jsWS a = false) : trimL l = l := by
  match l with
  | [] => rfl
  | c :: cs =>
    have h1 : jsWS c = false := hh c rfl
    simp only [trimL, List.dropWhile_cons, h1, if_false, Bool.false_eq_true]
    have hlast : (c :: cs).getLast? = some ((c :: cs).getLast (by simp)) := List.getLast?_eq_getLast _ _
    exact getLast_dropTrailWS_self hlast (hl _ hlast)

theorem trimL_idem (l : List Char) : trimL (trimL l) = trimL l :=
  trimL_eq_self (fun _ h => trimL_head_not_ws h) (fun _ h => trimL_last_not_ws h)

theorem jsTrim_idem (s : String) : jsTrim (jsTrim s) = jsTrim s := by
  simp only [jsTrim]
  exact congrArg String.mk (trimL_idem s.data)

theorem trimL_ws_pad {a b : List Char} (ha : a.all jsWS = true) (hb : b.all jsWS = true)
    (m : List Char) : trimL (a ++ m ++ b) = trimL m := by
  simp only [trimL, List.append_assoc]
  rw [dropWhile_all_append ha]
  by_cases hm : m.dropWhile jsWS = []
  · have : (m ++ b).dropWhile jsWS = b.dropWhile jsWS := by
      calc (m ++ b).dropWhile jsWS
          = (m.takeWhile jsWS ++ b).dropWhile jsWS := by
            conv_lhs => rw [← List.takeWhile_append_dropWhile (p := jsWS) (l := m), hm]
            simp
      _ = b.dropWhile jsWS := dropWhile_all_append (all_takeWhile m) b
    rw [this, hm, dropWhile_all_nil hb]
  · rw [dropWhile_append_of_ne_nil hm, dropTrailWS_ws_append hb]

theorem trimL_ws_right {b : List Char} (hb : b.all jsWS = true) (m : List Char) :
    trimL (m ++ b) = trimL m := by
  have := trimL_ws_pad (a := []) rfl hb m
  simpa using this

theorem trimL_ws_left {a : List Char} (ha : a.all jsWS = true) (m : List Char) :
    trimL (a ++ m) = trimL m := by
  have := trimL_ws_pad (b := []) ha rfl m
  simpa using this

/-! ## Lemmas: line splitting and joining -/

theorem splitNL_ne_nil (cs : List Char) : splitNL cs ≠ [] := by
  match cs with
  | [] => simp [splitNL]
  | c :: rest =>
    simp only [splitNL]
    split
    · simp
    · match h : splitNL rest with
      | [] => simp
      | l :: ls => simp

theorem splitNL_cons_not_nl {c : Char} (hc : c ≠ '\n') (rest : List Char) :
    splitNL (c :: rest) = (c :: (splitNL rest).headI) :: (splitNL rest).tail := by
  simp only [splitNL, if_neg hc]
  match h : splitNL rest, splitNL_ne_nil rest with
  | l :: ls, _ => simp

theorem splitNL_append_nl (a b : List Char) :
    splitNL (a ++ '\n' :: b) = splitNL a ++ splitNL b := by
  induction a with
  | nil =>
    show splitNL ('\n' :: b) = splitNL [] ++ splitNL b
    simp [splitNL]
  | cons c a' ih =>
    by_cases hc : c = '\n'
    · subst hc
      show splitNL ('\n' :: (a' ++ '\n' :: b)) = splitNL ('\n' :: a') ++ splitNL b
      rw [show splitNL ('\n' :: (a' ++ '\n' :: b)) = [] :: splitNL (a' ++ '\n' :: b) from by
        simp [splitNL]]
      rw [show splitNL ('\n' :: a') = [] :: splitNL a' from by simp [splitNL]]
      rw [ih]; rfl
    · show splitNL (c :: (a' ++ '\n' :: b)) = splitNL (c :: a') ++ splitNL b
      rw [splitNL_cons_not_nl hc, splitNL_cons_not_nl hc, ih]
      match h : splitNL a', splitNL_ne_nil a' with
      | l :: ls, _ => simp

theorem splitNL_no_nl {a : List Char} (h : ∀ c ∈ a, c ≠ '\n') : splitNL a = [a] := by
  induction a with
  | nil => rfl
  | cons c a' ih =>
    have hc : c ≠ '\n' := h c (by simp)
    simp only [splitNL, if_neg hc]
    rw [ih (fun x hx => h x (by simp [hx]))]

theorem splitNL_mem_no_nl : ∀ (cs : List Char), ∀ l ∈ splitNL cs, ∀ c ∈ l, c ≠ '\n' := by
  intro cs
  induction cs with
  | nil =>
    intro l hl
    simp only [splitNL, List.mem_singleton] at hl
    subst hl; simp
  | cons c rest ih =>
    intro l hl
    by_cases hc : c = '\n'
    · subst hc
      rw [show splitNL ('\n' :: rest) = [] :: splitNL rest from by simp [splitNL]] at hl
      simp only [List.mem_cons] at hl
      rcases hl with rfl | hl
      · simp
      · exact ih l hl
    · simp only [splitNL, if_neg hc] at hl
      match h : splitNL rest, splitNL_ne_nil rest with
      | g :: gs, _ =>
        rw [h] at hl
        simp only [List.mem_cons] at hl
        rcases hl with rfl | hl
        · intro x hx
          simp only [List.mem_cons] at hx
          rcases hx with rfl | hx
          · exact hc
          · exact ih g (by rw [h]; simp) x hx
        · exact ih l (by rw [h]; simp [hl])

theorem chompCR_eq_self {l : List Char} (h : l.getLast? ≠ some '\r') : chompCR l = l := by
  simp [chompCR, h]

/-! ## Lemmas: character classes -/

theorem isDigitC_toNat {c : Char} (h : isDigitC c = true) :
    48 ≤ c.toNat ∧ c.toNat ≤ 57 := by
  simp only [isDigitC, Bool.and_eq_true, decide_eq_true_eq] at h
  exact ⟨h.1, h.2⟩

theorem isAlphaC_toNat {c : Char} (h : isAlphaC c = true) :
    (97 ≤ c.toNat ∧ c.toNat ≤ 122) ∨ (65 ≤ c.toNat ∧ c.toNat ≤ 90) := by
  simp only [isAlphaC, Bool.or_eq_true, Bool.and_eq_true, decide_eq_true_eq] at h
  rcases h with ⟨h1, h2⟩ | ⟨h1, h2⟩
  · exact Or.inl ⟨h1, h2⟩
  · exact Or.inr ⟨h1, h2⟩

theorem char_eq_of_toNat {c d : Char} (h : c.toNat = d.toNat) : c = d := by
  have h1 := Char.ofNat_toNat c
  have h2 := Char.ofNat_toNat d
  rw [← h1, ← h2, h]

theorem jsWS_true_toNat {c : Char} (h : jsWS c = true) :
    c.toNat = 32 ∨ c.toNat = 9 ∨ c.toNat = 10 ∨ c.toNat = 13 ∨ c.toNat = 11 ∨
    c.toNat = 12 ∨ c.toNat = 0xa0 ∨ c.toNat = 0x1680 ∨
    (0x2000 ≤ c.toNat ∧ c.toNat ≤ 0x200a) ∨ c.toNat = 0x2028 ∨ c.toNat = 0x2029 ∨
    c.toNat = 0x202f ∨ c.toNat = 0x205f ∨ c.toNat = 0x3000 ∨ c.toNat = 0xfeff := by
  simp only [jsWS, Bool.or_eq_true, Bool.and_eq_true, beq_iff_eq, decide_eq_true_eq] at h
  rcases h with ((((((((((((((h | h) | h) | h) | h) | h) | h) | h) | h) | h) | h) | h) | h) | h) | h)
  all_goals first
    | (subst h; simp)
    | (rw [h]; simp)
    | (exact Or.inr (Or.inr (Or.inr (Or.inr (Or.inr (Or.inr (Or.inr (Or.inr
        (Or.inl h)))))))))

theorem jsWS_false_of_ascii {c : Char} (h1 : 32 < c.toNat) (h2 : c.toNat < 127) :
    jsWS c = false := by
  by_contra hb
  have hb2 : jsWS c = true := by
    revert hb; cases jsWS c <;> simp
  have := jsWS_true_toNat hb2
  omega

theorem jsWS_false_of_digit {c : Char} (h : isDigitC c = true) : jsWS c = false := by
  have := isDigitC_toNat h
  exact jsWS_false_of_ascii (by omega) (by omega)

theorem jsWS_false_of_idChar {c : Char} (h : idChar c = true) : jsWS c = false := by
  simp only [idChar, Bool.or_eq_true, beq_iff_eq] at h
  rcases h with (hd | ha) | hh
  · exact jsWS_false_of_digit hd
  · have := isAlphaC_toNat ha
    exact jsWS_false_of_ascii (by omega) (by omega)
  · subst hh; decide

theorem idChar_ne_dot {c : Char} (h : idChar c = true) : c ≠ '.' := by
  intro he
  subst he
  simp [idChar, isDigitC, isAlphaC] at h

theorem isDigitC_idChar {c : Char} (h : isDigitC c = true) : idChar c = true := by
  simp [idChar, h]

theorem isDigitC_ne_nl {c : Char} (h : isDigitC c = true) : c ≠ '\n' := by
  intro he; subst he; simp [isDigitC] at h

/-! ## Lemmas: takeWhile / dropWhile on structured inputs -/

theorem takeWhile_all {p : Char → Bool} {a : List Char} (h : a.all p = true) :
    a.takeWhile p = a := by
  induction a with
  | nil => rfl
  | cons c cs ih =>
    simp only [List.all_cons, Bool.and_eq_true] at h
    simp only [List.takeWhile_cons, h.1, if_true]
    rw [ih h.2]

theorem takeWhile_all_append_cons {p : Char → Bool} {a : List Char} (ha : a.all p = true)
    {c : Char} (hc : p c = false) (r : List Char) :
    (a ++ c :: r).takeWhile p = a ∧ (a ++ c :: r).dropWhile p = c :: r := by
  induction a with
  | nil => simp [List.takeWhile_cons, List.dropWhile_cons, hc]
  | cons x xs ih =>
    simp only [List.all_cons, Bool.and_eq_true] at ha
    have h2 := ih ha.2
    simp only [List.cons_append, List.takeWhile_cons, List.dropWhile_cons, ha.1, if_true]
    exact ⟨by rw [h2.1], h2.2⟩

/-! ## Lemmas: splitDot -/

theorem splitDot_ne_nil (cs : List Char) : splitDot cs ≠ [] := by
  match cs with
  | [] => simp [splitDot]
  | c :: rest =>
    simp only [splitDot]
    split
    · simp
    · match h : splitDot rest with
      | [] => simp
      | l :: ls => simp

theorem splitDot_cons_not_dot {c : Char} (hc : c ≠ '.') (rest : List Char) :
    splitDot (c :: rest) = (c :: (splitDot rest).headI) :: (splitDot rest).tail := by
  simp only [splitDot, if_neg hc]
  match h : splitDot rest, splitDot_ne_nil rest with
  | l :: ls, _ => simp

theorem splitDot_append_dot (a b : List Char) :
    splitDot (a ++ '.' :: b) = splitDot a ++ splitDot b := by
  induction a with
  | nil =>
    show splitDot ('.' :: b) = splitDot [] ++ splitDot b
    simp [splitDot]
  | cons c a' ih =>
    by_cases hc : c = '.'
    · subst hc
      show splitDot ('.' :: (a' ++ '.' :: b)) = splitDot ('.' :: a') ++ splitDot b
      rw [show splitDot ('.' :: (a' ++ '.' :: b)) = [] :: splitDot (a' ++ '.' :: b) from by
        simp [splitDot]]
      rw [show splitDot ('.' :: a') = [] :: splitDot a' from by simp [splitDot]]
      rw [ih]; rfl
    · show splitDot (c :: (a' ++ '.' :: b)) = splitDot (c :: a') ++ splitDot b
      rw [splitDot_cons_not_dot hc, splitDot_cons_not_dot hc, ih]
      match h : splitDot a', splitDot_ne_nil a' with
      | l :: ls, _ => simp

theorem splitDot_no_dot {a : List Char} (h : ∀ c ∈ a, c ≠ '.') : splitDot a = [a] := by
  induction a with
  | nil => rfl
  | cons c a' ih =>
    have hc : c ≠ '.' := h c (by simp)
    simp only [splitDot, if_neg hc]
    rw [ih (fun x hx => h x (by simp [hx]))]

/-! ## Lemmas: the semver renderer -/

theorem mk_data (s : String) : String.mk s.data = s := rfl

theorem renderSemVer_data (v : SemVer) :
    (renderSemVer v).data =
      decRender v.major ++ '.' :: (decRender v.minor ++ '.' :: (decRender v.patch ++
        (if v.pre.isEmpty then [] else '-' :: (renderPre v.pre).data))) := by
  cases hp : v.pre with
  | nil => simp [renderSemVer, String.data_append, decStr, hp]
  | cons i rest =>
    simp [renderSemVer, String.data_append, decStr, hp]

theorem renderPre_cons (i : PreId) (rest : List PreId) :
    renderPre (i :: rest) =
      if rest.isEmpty then renderId i else renderId i ++ "." ++ renderPre rest := by
  cases rest with
  | nil => simp [renderPre, joinSep]
  | cons j js => simp [renderPre, joinSep]

theorem wfId_renderId_chars {i : PreId} (h : wfId i) :
    (renderId i).data ≠ [] ∧ (renderId i).data.all idChar = true := by
  match i with
  | .num n =>
    refine ⟨decRender_ne_nil n, ?_⟩
    have hall := decRender_all_digits n
    rw [List.all_eq_true] at hall ⊢
    intro c hc
    exact isDigitC_idChar (hall c hc)
  | .str s => exact ⟨h.1, h.2.1⟩

theorem classifyId_renderId {i : PreId} (h : wfId i) :
    classifyId (renderId i).data = some i := by
  match i with
  | .num n =>
    have hne := decRender_ne_nil n
    have hall := decRender_all_digits n
    have hidall : (decRender n).all idChar = true := by
      rw [List.all_eq_true]
      intro c hc
      exact isDigitC_idChar (List.all_eq_true.mp hall c hc)
    simp only [renderId, decStr, classifyId]
    rw [if_neg (by simpa [List.isEmpty_iff] using hne)]
    rw [if_neg (by simp [hidall])]
    rw [if_pos hall, if_neg (by simp [canonicalDigits_decRender n]),
      if_pos (by rw [decValue_decRender]; exact h)]
    rw [decValue_decRender]
  | .str s =>
    obtain ⟨hne, hid, hnum⟩ := h
    simp only [renderId, classifyId]
    rw [if_neg (by simpa [List.isEmpty_iff] using hne)]
    rw [if_neg (by simp [hid])]
    by_cases hd : s.data.all isDigitC = true
    · obtain ⟨hcan, hge⟩ := hnum hd
      rw [if_pos hd, if_neg (by simp [hcan]), if_neg (by omega), mk_data]
    · rw [if_neg hd, mk_data]

theorem renderPre_all_secChar {pre : List PreId} (h : ∀ i ∈ pre, wfId i) :
    (renderPre pre).data.all secChar = true := by
  induction pre with
  | nil => simp [renderPre, joinSep]
  | cons i rest ih =>
    rw [renderPre_cons]
    have hid := (wfId_renderId_chars (h i (by simp))).2
    have hsec : (renderId i).data.all secChar = true := by
      rw [List.all_eq_true] at hid ⊢
      intro c hc
      simp [secChar, hid c hc]
    cases rest with
    | nil => simpa using hsec
    | cons j js =>
      have ih2 := ih (fun x hx => h x (by simp [hx]))
      simp only [List.isEmpty_cons, if_false, Bool.false_eq_true, String.data_append,
        List.all_append]
      simp only [Bool.and_eq_true]
      exact ⟨⟨hsec, by decide⟩, ih2⟩

theorem splitDot_renderPre {pre : List PreId} (hne : pre ≠ []) (h : ∀ i ∈ pre, wfId i) :
    splitDot (renderPre pre).data = pre.map (fun i => (renderId i).data) := by
  induction pre with
  | nil => exact absurd rfl hne
  | cons i rest ih =>
    rw [renderPre_cons]
    have hi := wfId_renderId_chars (h i (by simp))
    have hdotfree : ∀ c ∈ (renderId i).data, c ≠ '.' := by
      intro c hc
      have := List.all_eq_true.mp hi.2 c hc
      exact idChar_ne_dot this
    cases rest with
    | nil => simp [splitDot_no_dot hdotfree]
    | cons j js =>
      have ih2 := ih (by simp) (fun x hx => h x (by simp [hx]))
      simp only [List.isEmpty_cons, if_false, Bool.false_eq_true, String.data_append]
      rw [show (renderId i).data ++ ['.'] ++ (renderPre (j :: js)).data =
        (renderId i).data ++ '.' :: (renderPre (j :: js)).data from by simp]
      rw [splitDot_append_dot, splitDot_no_dot hdotfree, ih2]
      simp

theorem mapM_classifyId_renderPre {pre : List PreId} (h : ∀ i ∈ pre, wfId i) :
    (pre.map (fun i => (renderId i).data)).mapM classifyId = some pre := by
  induction pre with
  | nil => rfl
  | cons i rest ih =>
    have ih2 := ih (fun x hx => h x (by simp [hx]))
    rw [List.map_cons, List.mapM_cons, classifyId_renderId (h i (by simp)), ih2]
    rfl

theorem parsePre_renderPre {pre : List PreId} (hne : pre ≠ []) (h : ∀ i ∈ pre, wfId i) :
    parsePre (renderPre pre).data = some pre := by
  rw [parsePre, splitDot_renderPre hne h, mapM_classifyId_renderPre h]

/-! ## The parse/render round trip -/

theorem decRender_head_digit (n : Nat) :
    ∃ c, (decRender n).head? = some c ∧ isDigitC c = true := by
  match h : decRender n, decRender_ne_nil n with
  | c :: cs, _ =>
    refine ⟨c, rfl, ?_⟩
    have hall := decRender_all_digits n
    rw [h] at hall
    simp only [List.all_cons, Bool.and_eq_true] at hall
    exact hall.1

theorem decRender_last_digit (n : Nat) :
    ∃ c, (decRender n).getLast? = some c ∧ isDigitC c = true := by
  have hne := decRender_ne_nil n
  have hl := List.getLast?_eq_getLast (decRender n) hne
  refine ⟨(decRender n).getLast hne, hl, ?_⟩
  exact List.all_eq_true.mp (decRender_all_digits n) _ (List.getLast_mem hne)

theorem renderPre_ne_nil {pre : List PreId} (hne : pre ≠ []) (h : ∀ i ∈ pre, wfId i) :
    (renderPre pre).data ≠ [] := by
  match pre, hne with
  | i :: rest, _ =>
    rw [renderPre_cons]
    have hi := wfId_renderId_chars (h i (by simp))
    cases rest with
    | nil => simpa using hi.1
    | cons j js =>
      simp only [List.isEmpty_cons, if_false, Bool.false_eq_true, String.data_append]
      intro he
      rcases List.append_eq_nil.mp he with ⟨h1, _⟩
      rcases List.append_eq_nil.mp h1 with ⟨h2, _⟩
      exact hi.1 h2

theorem getLast?_cons_of_ne_nil {x : Char} {l : List Char} (h : l ≠ []) :
    (x :: l).getLast? = l.getLast? := by
  rw [show x :: l = [x] ++ l from rfl]
  exact List.getLast?_append_of_ne_nil _ h

theorem renderPre_last_idChar {pre : List PreId} (hne : pre ≠ []) (h : ∀ i ∈ pre, wfId i) :
    ∃ c, (renderPre pre).data.getLast? = some c ∧ idChar c = true := by
  induction pre with
  | nil => exact absurd rfl hne
  | cons i rest ih =>
    rw [renderPre_cons]
    cases rest with
    | nil =>
      simp only [List.isEmpty_nil, if_true]
      have hi := wfId_renderId_chars (h i (by simp))
      refine ⟨(renderId i).data.getLast hi.1, List.getLast?_eq_getLast _ hi.1, ?_⟩
      exact List.all_eq_true.mp hi.2 _ (List.getLast_mem hi.1)
    | cons j js =>
      obtain ⟨c, hc1, hc2⟩ := ih (by simp) (fun x hx => h x (by simp [hx]))
      refine ⟨c, ?_, hc2⟩
      simp only [List.isEmpty_cons, if_false, Bool.false_eq_true, String.data_append]
      rw [List.getLast?_append_of_ne_nil _ (renderPre_ne_nil (by simp)
        (fun x hx => h x (by simp [hx])))]
      exact hc1

theorem parseCore_render_gen (n : Nat) {T : List Char}
    (hT : ∀ c, T.head? = some c → isDigitC c = false) :
    parseCore (decRender n ++ T) = if MAXSAFE < n then none else some (n, T) := by
  match T with
  | [] =>
    simp only [List.append_nil, parseCore]
    rw [takeWhile_all (decRender_all_digits n), dropWhile_all_nil (decRender_all_digits n),
      decValue_decRender, if_neg (by simp [canonicalDigits_decRender n])]
  | c :: r =>
    have h := takeWhile_all_append_cons (decRender_all_digits n) (hT c rfl) r
    simp only [parseCore]
    rw [h.1, h.2, decValue_decRender, if_neg (by simp [canonicalDigits_decRender n])]

theorem expectDot_cons (R : List Char) : expectDot ('.' :: R) = some R := by
  simp [expectDot]

/-! ## Lemmas: the BRAT dot-removal -/

theorem all_eq_false_of_mem {p : Char → Bool} {l : List Char} {x : Char} (hx : x ∈ l)
    (hpx : p x = false) : l.all p = false := by
  rcases h : l.all p with _ | _
  · rfl
  · rw [List.all_eq_true] at h
    rw [h x hx] at hpx
    cases hpx

theorem dotRemoveL_append_digits {ys : List Char} (hne : ys ≠ [])
    (hys : ys.all isDigitC = true) (xs : List Char) :
    dotRemoveL (xs ++ '.' :: ys) = xs ++ ys := by
  induction xs with
  | nil =>
    simp only [List.nil_append, dotRemoveL]
    rw [if_pos (by simp [List.isEmpty_iff, hne, hys])]
  | cons c xs' ih =>
    have hcond : ¬((c = '.' && !(xs' ++ '.' :: ys).isEmpty &&
        (xs' ++ '.' :: ys).all isDigitC) = true) := by
      intro hcond
      simp only [Bool.and_eq_true, decide_eq_true_eq] at hcond
      have hdot : ('.' : Char) ∈ xs' ++ '.' :: ys := by simp
      have hfalse := all_eq_false_of_mem hdot (by decide : isDigitC '.' = false)
      rw [hcond.2] at hfalse
      cases hfalse
    rw [show (c :: xs') ++ '.' :: ys = c :: (xs' ++ '.' :: ys) from rfl]
    rw [show dotRemoveL (c :: (xs' ++ '.' :: ys)) =
      (if c = '.' && !(xs' ++ '.' :: ys).isEmpty && (xs' ++ '.' :: ys).all isDigitC
       then xs' ++ '.' :: ys else c :: dotRemoveL (xs' ++ '.' :: ys)) from rfl]
    rw [if_neg hcond, ih]
    simp

theorem dotRemoveL_dotfree {B : List Char} (hB : ∀ c ∈ B, c ≠ '.') :
    dotRemoveL B = B := by
  induction B with
  | nil => rfl
  | cons c B' ih =>
    simp only [dotRemoveL]
    rw [if_neg, ih (fun x hx => hB x (by simp [hx]))]
    intro hcond
    simp only [Bool.and_eq_true, decide_eq_true_eq] at hcond
    exact hB c (by simp) hcond.1.1

theorem strExt {s t : String} (h : s.data = t.data) : s = t := by
  cases s; cases t; exact congrArg String.mk h

theorem dotRemove_append_digits {ys : List Char} (hne : ys ≠ [])
    (hys : ys.all isDigitC = true) (a : String) :
    dotRemove (a ++ "." ++ String.mk ys) = a ++ String.mk ys := by
  apply strExt
  simp only [dotRemove, String.data_append]
  rw [show a.data ++ (".").data ++ ys = a.data ++ '.' :: ys from by simp]
  rw [dotRemoveL_append_digits hne hys]

theorem dotRemoveL_dash {B : List Char} (hB : ∀ c ∈ B, c ≠ '.') (A : List Char) :
    dotRemoveL (A ++ '-' :: B) = A ++ '-' :: B := by
  induction A with
  | nil =>
    simp only [List.nil_append, dotRemoveL]
    rw [if_neg (by simp), dotRemoveL_dotfree hB]
  | cons c A' ih =>
    have hcond : ¬((c = '.' && !(A' ++ '-' :: B).isEmpty &&
        (A' ++ '-' :: B).all isDigitC) = true) := by
      intro hcond
      simp only [Bool.and_eq_true, decide_eq_true_eq] at hcond
      have hdash : ('-' : Char) ∈ A' ++ '-' :: B := by simp
      have hfalse := all_eq_false_of_mem hdash (by decide : isDigitC '-' = false)
      rw [hcond.2] at hfalse
      cases hfalse
    rw [show (c :: A') ++ '-' :: B = c :: (A' ++ '-' :: B) from rfl]
    rw [show dotRemoveL (c :: (A' ++ '-' :: B)) =
      (if c = '.' && !(A' ++ '-' :: B).isEmpty && (A' ++ '-' :: B).all isDigitC
       then A' ++ '-' :: B else c :: dotRemoveL (A' ++ '-' :: B)) from rfl]
    rw [if_neg hcond, ih]

theorem parse_render (v : SemVer) (hwf : wfSemVer v) :
    parseSemVer (renderSemVer v) =
      if svBounds v ∧ (renderSemVer v).length ≤ 256 then some v else none := by
  obtain ⟨M, m, p, pre⟩ := v
  have hwfpre : ∀ i ∈ pre, wfId i := hwf
  have hdata := renderSemVer_data ⟨M, m, p, pre⟩
  simp only at hdata
  have hhead : ∀ a, (renderSemVer ⟨M, m, p, pre⟩).data.head? = some a → jsWS a = false := by
    intro a ha
    rw [hdata] at ha
    obtain ⟨c, hc1, hc2⟩ := decRender_head_digit M
    rw [List.head?_append_of_ne_nil _ (decRender_ne_nil M), hc1] at ha
    cases ha
    exact jsWS_false_of_digit hc2
  have hlast : ∀ a, (renderSemVer ⟨M, m, p, pre⟩).data.getLast? = some a → jsWS a = false := by
    intro a ha
    rw [hdata] at ha
    cases pre with
    | nil =>
      simp only [List.isEmpty_nil, if_true, List.append_nil] at ha
      obtain ⟨c, hc1, hc2⟩ := decRender_last_digit p
      rw [List.getLast?_append_of_ne_nil _ (by simp),
        getLast?_cons_of_ne_nil (by simp [decRender_ne_nil p]),
        List.getLast?_append_of_ne_nil _ (by simp),
        getLast?_cons_of_ne_nil (decRender_ne_nil p), hc1] at ha
      cases ha
      exact jsWS_false_of_digit hc2
    | cons i rest =>
      have hpn : (i :: rest : List PreId) ≠ [] := by simp
      have hrn := renderPre_ne_nil hpn hwfpre
      obtain ⟨c, hc1, hc2⟩ := renderPre_last_idChar hpn hwfpre
      simp only [List.isEmpty_cons, if_false, Bool.false_eq_true] at ha
      rw [List.getLast?_append_of_ne_nil _ (by simp),
        getLast?_cons_of_ne_nil (by simp),
        List.getLast?_append_of_ne_nil _ (by simp),
        getLast?_cons_of_ne_nil (by simp [hrn]),
        List.getLast?_append_of_ne_nil _ (by simp),
        getLast?_cons_of_ne_nil hrn, hc1] at ha
      cases ha
      exact jsWS_false_of_idChar hc2
  have htrim : trimL (renderSemVer ⟨M, m, p, pre⟩).data = (renderSemVer ⟨M, m, p, pre⟩).data :=
    trimL_eq_self hhead hlast
  simp only [parseSemVer, parseSemVerL, htrim]
  by_cases hlen : 256 < (renderSemVer ⟨M, m, p, pre⟩).data.length
  · rw [if_pos hlen, if_neg]
    intro hc
    have h2 : (renderSemVer ⟨M, m, p, pre⟩).length ≤ 256 := hc.2
    rw [String.length] at h2
    omega
  · rw [if_neg hlen]
    have hnv : ¬ (renderSemVer ⟨M, m, p, pre⟩).data.head? = some 'v' := by
      obtain ⟨c, hc1, hc2⟩ := decRender_head_digit M
      rw [hdata, List.head?_append_of_ne_nil _ (decRender_ne_nil M), hc1]
      intro he
      rw [Option.some.injEq] at he
      subst he
      simp [isDigitC] at hc2
    rw [if_neg hnv, hdata]
    rw [parseCore_render_gen M (fun c hc => by cases hc; decide)]
    by_cases hM : MAXSAFE < M
    · rw [if_pos hM]
      simp only [Option.none_bind]
      rw [if_neg (fun hc => by have h2 := hc.1.1; simp only [svBounds] at h2; omega)]
    · rw [if_neg hM]
      simp only [Option.some_bind]
      rw [expectDot_cons]
      simp only [Option.some_bind]
      rw [parseCore_render_gen m (fun c hc => by cases hc; decide)]
      by_cases hm : MAXSAFE < m
      · rw [if_pos hm]
        simp only [Option.none_bind]
        rw [if_neg (fun hc => by have h2 := hc.1.2.1; simp only [svBounds] at h2; omega)]
      · rw [if_neg hm]
        simp only [Option.some_bind]
        rw [expectDot_cons]
        simp only [Option.some_bind]
        cases pre with
        | nil =>
          simp only [List.isEmpty_nil, if_true]
          rw [parseCore_render_gen p (fun c hc => by simp at hc)]
          by_cases hpp : MAXSAFE < p
          · rw [if_pos hpp]
            simp only [Option.none_bind]
            rw [if_neg (fun hc => by have h2 := hc.1.2.2; simp only [svBounds] at h2; omega)]
          · rw [if_neg hpp]
            simp only [Option.some_bind]
            rw [show parseTail M m p [] = some ⟨M, m, p, []⟩ from rfl]
            have hcond : svBounds ⟨M, m, p, []⟩ ∧
                (renderSemVer ⟨M, m, p, []⟩).length ≤ 256 := by
              refine ⟨⟨?_, ?_, ?_⟩, ?_⟩
              · change M ≤ MAXSAFE; omega
              · change m ≤ MAXSAFE; omega
              · change p ≤ MAXSAFE; omega
              · change (renderSemVer ⟨M, m, p, []⟩).data.length ≤ 256; omega
            rw [if_pos hcond]
        | cons i rest =>
          have hpn : (i :: rest : List PreId) ≠ [] := by simp
          simp only [List.isEmpty_cons, if_false, Bool.false_eq_true]
          rw [parseCore_render_gen p (fun c hc => by cases hc; decide)]
          by_cases hpp : MAXSAFE < p
          · rw [if_pos hpp]
            simp only [Option.none_bind]
            rw [if_neg (fun hc => by have h2 := hc.1.2.2; simp only [svBounds] at h2; omega)]
          · rw [if_neg hpp]
            simp only [Option.some_bind]
            have hsec : (renderPre (i :: rest)).data.all secChar = true :=
              renderPre_all_secChar hwfpre
            rw [show parseTail M m p ('-' :: (renderPre (i :: rest)).data) =
                (match parsePre ((renderPre (i :: rest)).data.takeWhile secChar) with
                | none => none
                | some pr =>
                  match (renderPre (i :: rest)).data.dropWhile secChar with
                  | [] => some ⟨M, m, p, pr⟩
                  | c2 :: r8 =>
                    if c2 = '+' then
                      if parseBuildTail r8 then some ⟨M, m, p, pr⟩ else none
                    else none) from by simp [parseTail]]
            rw [takeWhile_all hsec, dropWhile_all_nil hsec, parsePre_renderPre hpn hwfpre]
            have hcond : svBounds ⟨M, m, p, i :: rest⟩ ∧
                (renderSemVer ⟨M, m, p, i :: rest⟩).length ≤ 256 := by
              refine ⟨⟨?_, ?_, ?_⟩, ?_⟩
              · change M ≤ MAXSAFE; omega
              · change m ≤ MAXSAFE; omega
              · change p ≤ MAXSAFE; omega
              · change (renderSemVer ⟨M, m, p, i :: rest⟩).data.length ≤ 256; omega
            rw [if_pos hcond]

/-! ## Lemmas: version resolution from a current version without pre-release -/

theorem cmpSemVer_lt_core {v w : SemVer}
    (h : v.major < w.major ∨ (v.major = w.major ∧ (v.minor < w.minor ∨
      (v.minor = w.minor ∧ v.patch < w.patch)))) :
    cmpSemVer v w = Ordering.lt := by
  rcases h with h1 | ⟨h1, h2 | ⟨h2, h3⟩⟩
  · simp [cmpSemVer, Nat.compare_eq_lt.mpr h1]
  · simp [cmpSemVer, Nat.compare_eq_eq.mpr h1, Nat.compare_eq_lt.mpr h2]
  · simp [cmpSemVer, Nat.compare_eq_eq.mpr h1, Nat.compare_eq_eq.mpr h2,
      Nat.compare_eq_lt.mpr h3]

theorem cmp_of_parse_render_core {v w₂ w : SemVer} (hwf : wfSemVer w₂)
    (hw : parseSemVer (renderSemVer w₂) = some w)
    (hcore : v.major < w₂.major ∨ (v.major = w₂.major ∧ (v.minor < w₂.minor ∨
      (v.minor = w₂.minor ∧ v.patch < w₂.patch)))) :
    cmpSemVer v w = Ordering.lt := by
  rw [parse_render w₂ hwf] at hw
  split at hw
  · rw [Option.some.injEq] at hw
    subst hw
    exact cmpSemVer_lt_core hcore
  · cases hw

theorem numericStr_false_of_nondigit {t : String} (h : ¬ t.data.all isDigitC = true) :
    numericStr t = false := by
  simp only [numericStr]
  rcases hd : t.data.all isDigitC with _ | _
  · simp
  · exact absurd hd h

theorem incPre_nopre_none {v : SemVer} (h : v.pre = []) :
    incPre v none = { v with pre := [PreId.num 0] } := by
  simp [incPre, h]

theorem incPre_nopre_some {v : SemVer} (h : v.pre = []) (t : String) :
    incPre v (some t) = { v with pre := [PreId.str t, PreId.num 0] } := by
  by_cases hcm : cmpIds (.num 0) (.str t) = .eq
  · simp [incPre, h, hcm, elemNaN]
  · simp [incPre, h, hcm]

theorem all_of_takeWhile_eq_self {p : Char → Bool} : ∀ {l : List Char},
    l.takeWhile p = l → l.all p = true := by
  intro l
  induction l with
  | nil => intro _; rfl
  | cons c cs ih =>
    intro h
    rw [List.takeWhile_cons] at h
    by_cases hc : p c
    · rw [if_pos hc] at h
      rw [List.cons.injEq] at h
      simp [hc, ih h.2]
    · rw [if_neg hc] at h
      exfalso
      have := congrArg List.length h
      simp at this

theorem greedyLoop_stop {rest : List Char} (h : ∀ r2, rest ≠ '.' :: r2) :
    ∀ (fuel : Nat) (consumed : List Char), greedyLoop fuel consumed rest = (consumed, rest) := by
  intro fuel consumed
  cases fuel with
  | zero => rfl
  | succ f =>
    simp only [greedyLoop]

theorem no_dot_of_all_idChar {l : List Char} (h : l.all idChar = true) :
    ∀ r2, l ≠ '.' :: r2 := by
  intro r2 he
  rw [he] at h
  simp only [List.all_cons, Bool.and_eq_true] at h
  exact idChar_ne_dot h.1 rfl

theorem incIdentOk_alpha_led {t : String} {c : Char} {rest : List Char}
    (hd : t.data = c :: rest) (hall : t.data.all idChar = true)
    (hc : isDigitC c = false) : incIdentOk t = true := by
  have hcid : idChar c = true := by
    rw [hd] at hall
    simp only [List.all_cons, Bool.and_eq_true] at hall
    exact hall.1
  have hao : isAlphaC c = true ∨ c = '-' := by
    simp only [idChar, Bool.or_eq_true, beq_iff_eq] at hcid
    rcases hcid with (h1 | h1) | h1
    · rw [h1] at hc; cases hc
    · exact Or.inl h1
    · exact Or.inr h1
  have hc0 : ¬ c = '0' := by
    intro he; rw [he] at hc; simp [isDigitC] at hc
  rw [hd] at hall
  simp only [incIdentOk, hd, greedyId]
  rw [if_neg hc0, if_neg (by simp [hc]), if_pos (by rcases hao with h | h <;> simp [h])]
  rw [takeWhile_all hall, dropWhile_all_nil hall]
  show ((greedyLoop (List.length ([] : List Char) + 1) (c :: rest) []).1 == c :: rest) = true
  rw [greedyLoop_stop (by intro r2 h2; cases h2) _ _]
  simp

theorem incIdentOk_digit_led {t : String} {c : Char} {rest : List Char}
    (hd : t.data = c :: rest) (hall : t.data.all idChar = true)
    (hc : isDigitC c = true) (hnd : ¬ t.data.all isDigitC = true) :
    incIdentOk t = false := by
  have hrest_all : rest.all idChar = true := by
    rw [hd] at hall
    simp only [List.all_cons, Bool.and_eq_true] at hall
    exact hall.2
  simp only [incIdentOk, hd, greedyId]
  by_cases hc0 : c = '0'
  · rw [if_pos hc0]
    show ((greedyLoop (rest.length + 1) [c] rest).1 == c :: rest) = false
    rw [greedyLoop_stop (no_dot_of_all_idChar hrest_all) _ _]
    have hne : rest ≠ [] := by
      intro he
      apply hnd
      rw [hd, he]
      simp [hc]
    simp only [beq_eq_false_iff_ne, ne_eq]
    rcases hr : rest with _ | ⟨x, xs⟩
    · exact absurd hr hne
    · simp
  · rw [if_neg hc0, if_pos (by simp [hc])]
    have hdw_ne : (c :: rest).dropWhile isDigitC ≠ [] := by
      intro he
      apply hnd
      rw [hd]
      have := List.takeWhile_append_dropWhile (p := isDigitC) (l := c :: rest)
      rw [he, List.append_nil] at this
      rw [← this]
      exact all_takeWhile _
    have hdw_head : ∀ r2, (c :: rest).dropWhile isDigitC ≠ '.' :: r2 := by
      have hsub : ((c :: rest).dropWhile isDigitC).all idChar = true := by
        have hall2 : (c :: rest).all idChar = true := by rw [hd] at hall; exact hall
        have hsubl := List.dropWhile_sublist (p := isDigitC) (l := c :: rest)
        rw [List.all_eq_true] at hall2 ⊢
        intro x hx
        exact hall2 x (hsubl.mem hx)
      exact no_dot_of_all_idChar hsub
    show ((greedyLoop ((List.dropWhile isDigitC (c :: rest)).length + 1)
        (List.takeWhile isDigitC (c :: rest)) (List.dropWhile isDigitC (c :: rest))).1
        == c :: rest) = false
    rw [greedyLoop_stop hdw_head _ _]
    simp only [beq_eq_false_iff_ne, ne_eq]
    intro he
    apply hnd
    rw [hd]
    exact all_of_takeWhile_eq_self he

/-- With an empty pre-release list the resolver never applies dot removal:
`prerelease(rendering)` is null. -/
theorem bratNormalize_render_nopre {w : SemVer} (h : w.pre = []) :
    bratNormalize (renderSemVer w) = renderSemVer w := by
  have hwf : wfSemVer w := by intro i hi; rw [h] at hi; cases hi
  have hp := parse_render w hwf
  simp only [bratNormalize, prereleaseJs]
  split at hp
  · rw [hp]; simp [h]
  · rw [hp]

theorem bratNormalize_of_dotRemove_id {s : String} (h : dotRemove s = s) :
    bratNormalize s = s := by
  unfold bratNormalize
  cases prereleaseJs s <;> simp [h]

theorem renderSemVer_data_pre (a b c : Nat) (i : PreId) (rest : List PreId) :
    (renderSemVer ⟨a, b, c, i :: rest⟩).data =
      decRender a ++ '.' :: (decRender b ++ '.' :: (decRender c ++
        '-' :: (renderPre (i :: rest)).data)) := by
  rw [renderSemVer_data]
  simp

/-- A pre-release consisting of the single identifier `0` renders dot-free
after the `-`, so the BRAT normalization leaves it unchanged. -/
theorem bratNormalize_render_prezero (a b c : Nat) :
    bratNormalize (renderSemVer ⟨a, b, c, [PreId.num 0]⟩) =
      renderSemVer ⟨a, b, c, [PreId.num 0]⟩ := by
  apply bratNormalize_of_dotRemove_id
  apply strExt
  show dotRemoveL (renderSemVer _).data = _
  rw [renderSemVer_data_pre]
  rw [show renderPre [PreId.num 0] = "0" from rfl,
    show (("0") : String).data = ['0'] from rfl]
  rw [show decRender a ++ '.' :: (decRender b ++ '.' ::
        (decRender c ++ '-' :: ['0'])) =
      (decRender a ++ '.' :: (decRender b ++ '.' :: decRender c)) ++
        '-' :: ['0'] from by simp]
  rw [dotRemoveL_dash (by intro x hx; simp at hx; rw [hx]; decide) _]

/-- The BRAT dot removal on the rendering of a pre-release
`[str t, num 0]` merges the two identifiers into `str (t ++ "0")`. -/
theorem dotRemove_render_strzero (a b c : Nat) (t : String) :
    dotRemove (renderSemVer ⟨a, b, c, [PreId.str t, PreId.num 0]⟩) =
      renderSemVer ⟨a, b, c, [PreId.str (t ++ "0")]⟩ := by
  apply strExt
  show dotRemoveL (renderSemVer _).data = _
  rw [renderSemVer_data_pre, renderSemVer_data_pre]
  rw [show renderPre [PreId.str t, PreId.num 0] = t ++ "." ++ "0" from rfl]
  rw [show renderPre [PreId.str (t ++ "0")] = t ++ "0" from rfl]
  simp only [String.data_append]
  rw [show decRender a ++ '.' :: (decRender b ++ '.' ::
        (decRender c ++ '-' :: (t.data ++ ['.'] ++ ['0']))) =
      (decRender a ++ '.' :: (decRender b ++ '.' ::
        (decRender c ++ '-' :: t.data))) ++ '.' :: ['0'] from by simp]
  rw [dotRemoveL_append_digits (by simp) (by decide) _]
  simp

/-- A resolved version with empty pre-release that survives reparsing is
above any current version with a strictly smaller core. -/
theorem resolved_cmp_nopre {v w : SemVer} {r : String} (a b c : Nat)
    (hcore : v.major < a ∨ (v.major = a ∧ (v.minor < b ∨ (v.minor = b ∧ v.patch < c))))
    (hr : bratNormalize (renderSemVer ⟨a, b, c, []⟩) = r)
    (hw : parseSemVer r = some w) : cmpSemVer v w = Ordering.lt := by
  rw [bratNormalize_render_nopre (w := ⟨a, b, c, []⟩) rfl] at hr
  subst hr
  exact cmp_of_parse_render_core (fun i hi => absurd hi (List.not_mem_nil i)) hw hcore

/-- Same, for a resolved version with the pre-release `[0]`. -/
theorem resolved_cmp_prezero {v w : SemVer} {r : String} (a b c : Nat)
    (hcore : v.major < a ∨ (v.major = a ∧ (v.minor < b ∨ (v.minor = b ∧ v.patch < c))))
    (hr : bratNormalize (renderSemVer ⟨a, b, c, [PreId.num 0]⟩) = r)
    (hw : parseSemVer r = some w) : cmpSemVer v w = Ordering.lt := by
  rw [bratNormalize_render_prezero] at hr
  subst hr
  refine cmp_of_parse_render_core ?_ hw hcore
  intro i hi
  simp only [List.mem_cons, List.not_mem_nil, or_false] at hi
  subst hi
  show (0 : Nat) < MAXSAFE
  decide

/-- Same, for a resolved version with pre-release `[str t, num 0]`: the BRAT
step merges the two identifiers, and the merged rendering, when it reparses,
still carries the strictly larger core. -/
theorem resolved_cmp_strzero {v w : SemVer} {r : String} (a b c : Nat) {t : String}
    (htne : t.data ≠ []) (htid : t.data.all idChar = true)
    (htnd : t.data.all isDigitC = false)
    (hcore : v.major < a ∨ (v.major = a ∧ (v.minor < b ∨ (v.minor = b ∧ v.patch < c))))
    (hr : bratNormalize (renderSemVer ⟨a, b, c, [PreId.str t, PreId.num 0]⟩) = r)
    (hw : parseSemVer r = some w) : cmpSemVer v w = Ordering.lt := by
  have hwf : wfSemVer ⟨a, b, c, [PreId.str t, PreId.num 0]⟩ := by
    intro i hi
    simp only [List.mem_cons, List.not_mem_nil, or_false] at hi
    rcases hi with rfl | rfl
    · exact ⟨htne, htid, fun hdig => by rw [htnd] at hdig; cases hdig⟩
    · show (0 : Nat) < MAXSAFE
      decide
  rcases hps : parseSemVer (renderSemVer ⟨a, b, c, [PreId.str t, PreId.num 0]⟩) with _ | u
  · rw [show bratNormalize (renderSemVer ⟨a, b, c, [PreId.str t, PreId.num 0]⟩) =
        renderSemVer ⟨a, b, c, [PreId.str t, PreId.num 0]⟩ from by
      simp [bratNormalize, prereleaseJs, hps]] at hr
    subst hr
    rw [hps] at hw
    cases hw
  · have hpr := parse_render ⟨a, b, c, [PreId.str t, PreId.num 0]⟩ hwf
    rw [hps] at hpr
    split at hpr
    · injection hpr with h2
      subst h2
      rw [show bratNormalize (renderSemVer ⟨a, b, c, [PreId.str t, PreId.num 0]⟩) =
          dotRemove (renderSemVer ⟨a, b, c, [PreId.str t, PreId.num 0]⟩) from by
        simp [bratNormalize, prereleaseJs, hps]] at hr
      rw [dotRemove_render_strzero] at hr
      subst hr
      refine cmp_of_parse_render_core ?_ hw hcore
      intro i hi
      simp only [List.mem_cons, List.not_mem_nil, or_false] at hi
      subst hi
      refine ⟨?_, ?_, ?_⟩
      · simp [htne]
      · simp only [String.data_append, List.all_append, htid, Bool.true_and]
        decide
      · intro hdig
        simp only [String.data_append, List.all_append, Bool.and_eq_true] at hdig
        rw [htnd] at hdig
        simp at hdig
    · exact Option.noConfusion hpr

/-- From a base with a strictly larger core and no pre-release, `incPre`
with a well-behaved identifier resolves, after BRAT normalization, to a
string that is above the current version whenever it reparses. -/
theorem resolved_cmp_incPre {v w : SemVer} {r : String} (a b c : Nat)
    {id2 : Option String}
    (hid : id2 = none ∨ ∃ t, id2 = some t ∧ t.data ≠ [] ∧
      t.data.all idChar = true ∧ t.data.all isDigitC = false)
    (hcore : v.major < a ∨ (v.major = a ∧ (v.minor < b ∨ (v.minor = b ∧ v.patch < c))))
    (hr : bratNormalize (renderSemVer (incPre ⟨a, b, c, []⟩ id2)) = r)
    (hw : parseSemVer r = some w) : cmpSemVer v w = Ordering.lt := by
  rcases hid with rfl | ⟨t, rfl, htne, htid, htnd⟩
  · rw [incPre_nopre_none (v := ⟨a, b, c, []⟩) rfl] at hr
    exact resolved_cmp_prezero a b c hcore hr hw
  · rw [incPre_nopre_some (v := ⟨a, b, c, []⟩) rfl t] at hr
    exact resolved_cmp_strzero a b c htne htid htnd hcore hr hw

/-! ## Lemmas: the changelog parser -/

theorem mkEntry_warnings (l : String) :
    (mkEntry l).2 = [] ∨ (mkEntry l).2 = [headerWarning (jsTrim l)] := by
  cases hx : extractVersionToken (headerTextOf l) with
  | none =>
    cases hinc : sIncludes (jsToLower (headerTextOf l)) "unreleased" <;>
      simp [mkEntry, classifyVersion, hx, hinc]
  | some tok =>
    cases hv : jsValid (jsTrim tok) with
    | none => simp [mkEntry, classifyVersion, hx, hv]
    | some sv => simp [mkEntry, classifyVersion, hx, hv]

theorem parseBody_warnings : ∀ (ls : List String) (cur : ChangelogEntry) (w : String),
    w ∈ (parseBody ls cur).2 → ∃ h, w = headerWarning h := by
  intro ls
  induction ls with
  | nil =>
    intro cur w hw
    simp [parseBody] at hw
  | cons l rest ih =>
    intro cur w hw
    by_cases hh : isHeaderLine l = true
    · simp only [parseBody, if_pos hh, List.mem_append] at hw
      rcases hw with hw | hw
      · rcases mkEntry_warnings l with h0 | h0
        · rw [h0] at hw; cases hw
        · rw [h0] at hw
          simp at hw
          exact ⟨jsTrim l, hw⟩
      · exact ih _ _ hw
    · simp only [parseBody, if_neg hh] at hw
      exact ih _ _ hw

theorem parsePreamble_warnings : ∀ (ls : List String) (w : String),
    w ∈ (parsePreamble ls).2.2 → ∃ h, w = headerWarning h := by
  intro ls
  induction ls with
  | nil =>
    intro w hw
    simp [parsePreamble] at hw
  | cons l rest ih =>
    intro w hw
    by_cases hh : isHeaderLine l = true
    · simp only [parsePreamble, if_pos hh, List.mem_append] at hw
      rcases hw with hw | hw
      · rcases mkEntry_warnings l with h0 | h0
        · rw [h0] at hw; cases hw
        · rw [h0] at hw
          simp at hw
          exact ⟨jsTrim l, hw⟩
      · exact parseBody_warnings _ _ _ hw
    · simp only [parsePreamble, if_neg hh] at hw
      exact ih _ hw

theorem takeWhile_append_all {p : Char → Bool} {a : List Char} (h : a.all p = true)
    (b : List Char) : (a ++ b).takeWhile p = a ++ b.takeWhile p := by
  induction a with
  | nil => rfl
  | cons c cs ih => simp_all [List.takeWhile_cons]

theorem digit_not_markers {c : Char} (h : isDigitC c = true) :
    c ≠ '(' ∧ c ≠ '[' ∧ c ≠ 'v' ∧ c ≠ '.' ∧ sfxDelim c = false ∧
      jsLineTerm c = false := by
  have hb := isDigitC_toNat h
  refine ⟨?_, ?_, ?_, ?_, ?_, ?_⟩
  · intro he; subst he; exact absurd hb (by decide)
  · intro he; subst he; exact absurd hb (by decide)
  · intro he; subst he; exact absurd hb (by decide)
  · intro he; subst he; exact absurd hb (by decide)
  · cases hs : sfxDelim c
    · rfl
    · exfalso
      simp only [sfxDelim, Bool.or_eq_true, beq_iff_eq] at hs
      rcases hs with ((h1 | h1) | h1) | h1 <;> (subst h1; exact absurd hb (by decide))
  · cases hs : jsLineTerm c
    · rfl
    · exfalso
      simp only [jsLineTerm, Bool.or_eq_true, beq_iff_eq] at hs
      rcases hs with ((h1 | h1) | h1) | h1
      · subst h1; exact absurd hb (by decide)
      · subst h1; exact absurd hb (by decide)
      · omega
      · omega

/-- Right-trimming a list whose left part ends in a non-whitespace character
only shortens the right part; the remainder is a prefix of it. -/
theorem dropTrailWS_append_keep {A : List Char} (hne : A ≠ [])
    (hA : ∀ x, A.getLast? = some x → jsWS x = false) (B : List Char) :
    ∃ t2, dropTrailWS (A ++ B) = A ++ t2 ∧ t2 <+: B := by
  obtain ⟨x, r, hxr⟩ : ∃ x r, A.reverse = x :: r := by
    cases hrev : A.reverse with
    | nil => exact absurd (List.reverse_eq_nil_iff.mp hrev) hne
    | cons x r => exact ⟨x, r, rfl⟩
  have hx : A.getLast? = some x := by
    rw [← List.head?_reverse, hxr]
    rfl
  have hwsx := hA x hx
  simp only [dropTrailWS]
  rw [List.reverse_append, List.dropWhile_append]
  split
  · refine ⟨[], ?_, List.nil_prefix⟩
    rw [hxr, List.dropWhile_cons, hwsx, if_neg (by simp)]
    rw [← hxr, List.reverse_reverse, List.append_nil]
  · refine ⟨(B.reverse.dropWhile jsWS).reverse, ?_, ?_⟩
    · rw [List.reverse_append, List.reverse_reverse]
    · have h1 : B.reverse.dropWhile jsWS <:+ B.reverse := List.dropWhile_suffix jsWS
      have h2 := (List.reverse_prefix).mpr h1
      rwa [List.reverse_reverse] at h2

theorem decRender_isEmptyF (n : Nat) : (decRender n).isEmpty = false := by
  cases h : decRender n with
  | nil => exact absurd h (decRender_ne_nil n)
  | cons a b => rfl

/-- The heading version pattern anchored at a canonical `X.Y.Z` core matches
it exactly, when what follows cannot extend the match. -/
theorem tokenAt_cores (X Y Z : Nat) {rest : List Char}
    (hrest : rest = [] ∨ ∃ c r2, rest = c :: r2 ∧ isDigitC c = false ∧
      sfxDelim c = false) :
    tokenAt (decRender X ++ '.' :: (decRender Y ++ '.' :: (decRender Z ++ rest))) =
      some (decRender X ++ '.' :: (decRender Y ++ '.' :: decRender Z)) := by
  cases hmX : decRender X with
  | nil => exact absurd hmX (decRender_ne_nil X)
  | cons c0 dX =>
    have hdX := decRender_all_digits X
    rw [hmX] at hdX
    have hd0 : isDigitC c0 = true := by
      simp only [List.all_cons, Bool.and_eq_true] at hdX
      exact hdX.1
    have hm := digit_not_markers hd0
    have hws : jsWS c0 = false := jsWS_false_of_digit hd0
    rw [List.cons_append]
    rcases hrest with rfl | ⟨c, r2, rfl, hcd, hcs⟩
    · have hTW1 : List.takeWhile isDigitC
          (c0 :: (dX ++ '.' :: (decRender Y ++ '.' :: (decRender Z ++ [])))) =
            c0 :: dX := by
        rw [← List.cons_append]
        exact (takeWhile_all_append_cons hdX (by decide) _).1
      have hDW1 : List.dropWhile isDigitC
          (c0 :: (dX ++ '.' :: (decRender Y ++ '.' :: (decRender Z ++ [])))) =
            '.' :: (decRender Y ++ '.' :: (decRender Z ++ [])) := by
        rw [← List.cons_append]
        exact (takeWhile_all_append_cons hdX (by decide) _).2
      have hTW2 := (takeWhile_all_append_cons (decRender_all_digits Y)
        (by decide : isDigitC '.' = false) (decRender Z ++ [])).1
      have hDW2 := (takeWhile_all_append_cons (decRender_all_digits Y)
        (by decide : isDigitC '.' = false) (decRender Z ++ [])).2
      have hTW3 : List.takeWhile isDigitC (decRender Z ++ []) = decRender Z := by
        rw [List.append_nil]
        exact takeWhile_all (decRender_all_digits Z)
      have hDW3 : List.dropWhile isDigitC (decRender Z ++ []) = [] := by
        rw [List.append_nil]
        exact dropWhile_all_nil (decRender_all_digits Z)
      simp only [tokenAt, hm.1, hm.2.1, hm.2.2.1, decide_False, Bool.or_self,
        Bool.false_eq_true, if_false, List.dropWhile_cons, hws, Bool.false_and,
        hTW1, hDW1, hTW2, hDW2, hTW3, hDW3, decRender_isEmptyF, List.isEmpty_cons]
      simp
    · have hTW1 : List.takeWhile isDigitC
          (c0 :: (dX ++ '.' :: (decRender Y ++ '.' :: (decRender Z ++ c :: r2)))) =
            c0 :: dX := by
        rw [← List.cons_append]
        exact (takeWhile_all_append_cons hdX (by decide) _).1
      have hDW1 : List.dropWhile isDigitC
          (c0 :: (dX ++ '.' :: (decRender Y ++ '.' :: (decRender Z ++ c :: r2)))) =
            '.' :: (decRender Y ++ '.' :: (decRender Z ++ c :: r2)) := by
        rw [← List.cons_append]
        exact (takeWhile_all_append_cons hdX (by decide) _).2
      have hTW2 := (takeWhile_all_append_cons (decRender_all_digits Y)
        (by decide : isDigitC '.' = false) (decRender Z ++ c :: r2)).1
      have hDW2 := (takeWhile_all_append_cons (decRender_all_digits Y)
        (by decide : isDigitC '.' = false) (decRender Z ++ c :: r2)).2
      have hTW3 := (takeWhile_all_append_cons (decRender_all_digits Z) hcd r2).1
      have hDW3 := (takeWhile_all_append_cons (decRender_all_digits Z) hcd r2).2
      simp only [tokenAt, hm.1, hm.2.1, hm.2.2.1, decide_False, Bool.or_self,
        Bool.false_eq_true, if_false, List.dropWhile_cons, hws, Bool.false_and,
        hTW1, hDW1, hTW2, hDW2, hTW3, hDW3, decRender_isEmptyF, List.isEmpty_cons,
        hcs]
      simp

/-- The version pattern skips one leading `(` or `[` before a digit. -/
theorem tokenAt_skip_bracket {b : Char} (hb : b = '(' ∨ b = '[') {c : Char}
    (hc : isDigitC c = true) (R : List Char) :
    tokenAt (b :: c :: R) = tokenAt (c :: R) := by
  have hm := digit_not_markers hc
  have hws : jsWS c = false := jsWS_false_of_digit hc
  rcases hb with rfl | rfl <;>
    simp [tokenAt, hm.1, hm.2.1, hm.2.2.1, hws, List.dropWhile_cons]

/-- The version pattern skips one leading `v` directly followed by a digit. -/
theorem tokenAt_skip_v {c : Char} (hc : isDigitC c = true) (R : List Char) :
    tokenAt ('v' :: c :: R) = tokenAt (c :: R) := by
  have hm := digit_not_markers hc
  have hws : jsWS c = false := jsWS_false_of_digit hc
  simp [tokenAt, hm.1, hm.2.1, hm.2.2.1, hws, hc, List.dropWhile_cons,
    show jsWS ('v' : Char) = false from by decide]

theorem strMkData (s : String) : String.mk s.data = s := by
  cases s
  rfl

theorem jsTrim_render_core (X Y Z : Nat) :
    jsTrim (renderSemVer ⟨X, Y, Z, []⟩) = renderSemVer ⟨X, Y, Z, []⟩ := by
  apply strExt
  show trimL _ = _
  apply trimL_eq_self
  · intro a ha
    rw [renderSemVer_data] at ha
    cases hmX : decRender X with
    | nil => exact absurd hmX (decRender_ne_nil X)
    | cons c0 dX =>
      rw [hmX] at ha
      simp only [List.cons_append, List.head?_cons, Option.some.injEq] at ha
      subst ha
      have hdX := decRender_all_digits X
      rw [hmX] at hdX
      simp only [List.all_cons, Bool.and_eq_true] at hdX
      exact jsWS_false_of_digit hdX.1
  · intro a ha
    rw [renderSemVer_data] at ha
    simp only [List.isEmpty_nil, if_true, List.append_nil] at ha
    obtain ⟨c, hc1, hc2⟩ := decRender_last_digit Z
    rw [List.getLast?_append_of_ne_nil _ (by simp),
      getLast?_cons_of_ne_nil (by simp [decRender_ne_nil Z]),
      List.getLast?_append_of_ne_nil _ (by simp),
      getLast?_cons_of_ne_nil (decRender_ne_nil Z), hc1] at ha
    cases ha
    exact jsWS_false_of_digit hc2

theorem jsValid_render_core (X Y Z : Nat) (hX : X ≤ MAXSAFE) (hY : Y ≤ MAXSAFE)
    (hZ : Z ≤ MAXSAFE) (hlen : (renderSemVer ⟨X, Y, Z, []⟩).length ≤ 256) :
    jsValid (renderSemVer ⟨X, Y, Z, []⟩) = some (renderSemVer ⟨X, Y, Z, []⟩) := by
  have hp := parse_render ⟨X, Y, Z, []⟩ (fun i hi => absurd hi (List.not_mem_nil i))
  rw [if_pos ⟨show svBounds ⟨X, Y, Z, []⟩ from ⟨hX, hY, hZ⟩, hlen⟩] at hp
  simp [jsValid, hp]

/-- Shape of `headerTextOf` on a heading `## F…`: the front `F` (no
whitespace at either end, no line terminators) survives intact and only the
tail may be truncated or right-trimmed. -/
theorem headerTextOf_front {F : List Char} (hFne : F ≠ [])
    (hFh : ∀ x, F.head? = some x → jsWS x = false)
    (hFall : F.all (fun c => !jsLineTerm c) = true)
    (hFl : ∀ x, F.getLast? = some x → jsWS x = false) (tl : List Char) :
    ∃ t2, (headerTextOf ⟨'#' :: '#' :: ' ' :: (F ++ tl)⟩).data = F ++ t2 ∧
      t2 <+: tl.takeWhile (fun c => !jsLineTerm c) := by
  obtain ⟨f0, F2, hF⟩ : ∃ f0 F2, F = f0 :: F2 := by
    cases F with
    | nil => exact absurd rfl hFne
    | cons a b => exact ⟨a, b, rfl⟩
  have hf0 : jsWS f0 = false := hFh f0 (by rw [hF]; rfl)
  simp only [headerTextOf]
  rw [show List.drop 2 ('#' :: '#' :: ' ' :: (F ++ tl)) = ' ' :: (F ++ tl) from rfl]
  rw [List.dropWhile_cons, if_pos (by decide)]
  rw [hF, List.cons_append, List.dropWhile_cons, hf0, if_neg (by simp),
    ← List.cons_append, ← hF]
  rw [takeWhile_append_all hFall]
  simp only [trimL]
  rw [hF, List.cons_append, List.dropWhile_cons, hf0, if_neg (by simp),
    ← List.cons_append, ← hF]
  exact dropTrailWS_append_keep hFne hFl _

/-- A canonical rendering starts with a decimal digit (or a dot when the
major rendering were empty, which it never is), hence is never the word
`unreleased`. -/
theorem renderSemVer_ne_unreleased (v : SemVer) : renderSemVer v ≠ "unreleased" := by
  intro he
  have hh : (renderSemVer v).data.head? = some 'u' := by rw [he]; decide
  rw [renderSemVer_data] at hh
  have hdig := decRender_all_digits v.major
  cases hm : decRender v.major with
  | nil => rw [hm] at hh; simp at hh
  | cons c cs =>
    rw [hm] at hh hdig
    simp only [List.cons_append, List.head?_cons, Option.some.injEq] at hh
    subst hh
    simp [isDigitC] at hdig

theorem jsValid_ne_unreleased {s u : String} (h : jsValid s = some u) :
    u ≠ "unreleased" := by
  simp only [jsValid] at h
  cases hp : parseSemVer s with
  | none => rw [hp] at h; cases h
  | some v =>
    rw [hp] at h
    simp at h
    rw [← h]
    exact renderSemVer_ne_unreleased v

theorem cmpCharL_self : ∀ l : List Char, cmpCharL l l = .eq
  | [] => rfl
  | a :: as => by simp [cmpCharL, lt_irrefl, cmpCharL_self as]

theorem cmpIds_self (i : PreId) : cmpIds i i = .eq := by
  cases hn : idNumVal i with
  | some n =>
    simp [cmpIds, hn, show compare n n = Ordering.eq from Nat.compare_eq_eq.mpr rfl]
  | none => simp [cmpIds, hn, cmpCharL_self]

theorem cmpPreL_self : ∀ l : List PreId, cmpPreL l l = .eq
  | [] => rfl
  | i :: rest => by simp [cmpPreL, cmpIds_self, cmpPreL_self rest]

theorem cmpPre_self (l : List PreId) : cmpPre l l = .eq := by
  cases l with
  | nil => rfl
  | cons i rest => simp [cmpPre, cmpPreL_self]

theorem cmpSemVer_self (x : SemVer) : cmpSemVer x x = .eq := by
  simp [cmpSemVer, cmpPre_self,
    show ∀ m : Nat, compare m m = Ordering.eq from fun m => Nat.compare_eq_eq.mpr rfl]

/-- node-semver `gt` is irreflexive on valid versions. -/
theorem gtJs_self {v : String} {x : SemVer} (h : parseSemVer v = some x) :
    gtJs v v = Except.ok false := by
  simp [gtJs, h, cmpSemVer_self]
  decide

/-- The throwing filter, when it succeeds, computes exactly the pure
higher-version filter. -/
theorem higherFilter_eq_filter : ∀ (es : List ChangelogEntry) (nv : String)
    (hv : List ChangelogEntry), higherFilter es nv = .ok hv →
    hv = es.filter (hfPred nv) := by
  intro es nv
  induction es with
  | nil =>
    intro hv h
    simp only [higherFilter] at h
    injection h with h
    rw [← h]
    rfl
  | cons e rest ih =>
    intro hv h
    simp only [higherFilter] at h
    cases hve : e.version with
    | none =>
      simp only [hve] at h
      rw [List.filter_cons, show hfPred nv e = false from by simp [hfPred, hve]]
      simp only [Bool.false_eq_true, if_false]
      exact ih hv h
    | some v =>
      simp only [hve] at h
      by_cases hvu : v = "unreleased"
      · rw [if_pos hvu] at h
        rw [List.filter_cons, show hfPred nv e = false from by simp [hfPred, hve, hvu]]
        simp only [Bool.false_eq_true, if_false]
        exact ih hv h
      · rw [if_neg hvu] at h
        cases hg : gtJs v nv with
        | error m =>
          simp only [hg] at h
          exact Except.noConfusion h
        | ok b =>
          simp only [hg] at h
          cases hrec : higherFilter rest nv with
          | error m =>
            simp only [hrec] at h
            exact Except.noConfusion h
          | ok l =>
            simp only [hrec, Except.ok.injEq] at h
            rw [← h, List.filter_cons]
            have hl := ih l hrec
            cases b with
            | true =>
              rw [show hfPred nv e = true from by simp [hfPred, hve, hvu, hg]]
              simp only [if_true]
              rw [← hl]
            | false =>
              rw [show hfPred nv e = false from by simp [hfPred, hve, hvu, hg]]
              simp only [Bool.false_eq_true, if_false]
              rw [← hl]

/-- Stream decomposition of the strict-mode abort event list. -/
theorem streamsOf_warn (ws : List String) (m : String) :
    mutationsOf (ws.map Ev.out ++ [Ev.err m]) = [] ∧
    errsOf (ws.map Ev.out ++ [Ev.err m]) = [m] ∧
    outsOf (ws.map Ev.out ++ [Ev.err m]) = ws := by
  induction ws with
  | nil => exact ⟨rfl, rfl, rfl⟩
  | cons w ws ih =>
    simp only [mutationsOf, errsOf, outsOf, List.map_cons, List.cons_append,
      List.foldr_cons] at ih ⊢
    exact ⟨ih.1, ih.2.1, by rw [ih.2.2]⟩

/-! ## Lemmas: the writer / re-parse round trip -/

theorem strApp_assoc (a b c : String) : a ++ b ++ c = a ++ (b ++ c) :=
  strExt (by simp [String.data_append])

theorem joinSepNL_data : ∀ P : List (List Char),
    (joinSep "\n" (P.map String.mk)).data = joinNL P
  | [] => rfl
  | [l] => by simp [joinSep, joinNL]
  | l :: g :: ls => by
    show (String.mk l ++ "\n" ++ joinSep "\n" ((g :: ls).map String.mk)).data =
      l ++ '\n' :: joinNL (g :: ls)
    rw [String.data_append, String.data_append, joinSepNL_data (g :: ls)]
    simp

theorem joinNL_splitNL : ∀ l : List Char, joinNL (splitNL l) = l := by
  intro l
  induction l with
  | nil => rfl
  | cons c rest ih =>
    by_cases hc : c = '\n'
    · subst hc
      rw [show splitNL ('\n' :: rest) = [] :: splitNL rest from by simp [splitNL]]
      match h : splitNL rest, splitNL_ne_nil rest with
      | g :: gs, _ =>
        rw [h] at ih
        show joinNL ([] :: g :: gs) = '\n' :: rest
        rw [show joinNL ([] :: g :: gs) = [] ++ '\n' :: joinNL (g :: gs) from rfl, ih]
        rfl
    · rw [splitNL_cons_not_nl hc]
      match h : splitNL rest, splitNL_ne_nil rest with
      | g :: gs, _ =>
        rw [h] at ih
        simp only [List.headI_cons, List.tail_cons]
        cases gs with
        | nil =>
          show c :: g = c :: rest
          rw [show g = rest from ih]
        | cons g2 gs2 =>
          show (c :: g) ++ '\n' :: joinNL (g2 :: gs2) = c :: rest
          rw [← ih]
          rfl

theorem chompCR_id_imp {l : List Char} (h : chompCR l = l) :
    l.getLast? ≠ some '\r' := by
  intro hl
  rw [chompCR, if_pos hl] at h
  have hlen := congrArg List.length h
  simp only [List.length_dropLast] at hlen
  have hne : l ≠ [] := by
    intro he
    rw [he] at hl
    cases hl
  have := List.length_pos.mpr hne
  omega

theorem fixCR_eq_self : ∀ {P : List (List Char)},
    (∀ l ∈ P, l.getLast? ≠ some '\r') → fixCR P = P := by
  intro P
  induction P with
  | nil => intro _; rfl
  | cons l ls ih =>
    intro h
    cases ls with
    | nil => rfl
    | cons g gs =>
      show chompCR l :: fixCR (g :: gs) = l :: g :: gs
      rw [chompCR_eq_self (h l (by simp)), ih (fun x hx => h x (by simp [hx]))]

theorem fixCR_append (P Q : List (List Char)) (hQ : Q ≠ []) :
    fixCR (P ++ Q) = P.map chompCR ++ fixCR Q := by
  induction P with
  | nil => rfl
  | cons l P2 ih =>
    have hne : P2 ++ Q ≠ [] := by
      intro he
      rcases List.append_eq_nil.mp he with ⟨_, h2⟩
      exact hQ h2
    cases hpq : P2 ++ Q with
    | nil => exact absurd hpq hne
    | cons q qs =>
      show fixCR (l :: (P2 ++ Q)) = chompCR l :: (P2.map chompCR ++ fixCR Q)
      rw [hpq]
      show chompCR l :: fixCR (q :: qs) = chompCR l :: (P2.map chompCR ++ fixCR Q)
      rw [← hpq, ih]

theorem fixCR_join_eq : ∀ {P : List (List Char)},
    joinNL (fixCR P) = joinNL P → fixCR P = P := by
  intro P
  induction P with
  | nil => intro _; rfl
  | cons l ls ih =>
    intro h
    cases ls with
    | nil => rfl
    | cons g gs =>
      obtain ⟨x, xs, hx⟩ : ∃ x xs, fixCR (g :: gs) = x :: xs := by
        cases gs <;> exact ⟨_, _, rfl⟩
      rw [show fixCR (l :: g :: gs) = chompCR l :: fixCR (g :: gs) from rfl, hx] at h
      rw [show joinNL (chompCR l :: x :: xs) = chompCR l ++ '\n' :: joinNL (x :: xs)
          from rfl,
        show joinNL (l :: g :: gs) = l ++ '\n' :: joinNL (g :: gs) from rfl] at h
      by_cases hcr : l.getLast? = some '\r'
      · exfalso
        rw [show chompCR l = l.dropLast from by simp [chompCR, hcr]] at h
        have hne : l ≠ [] := by
          intro he
          rw [he] at hcr
          cases hcr
        have hgl : l.getLast hne = '\r' := by
          have := List.getLast?_eq_getLast l hne
          rw [hcr] at this
          exact (Option.some.injEq _ _).mp this.symm
        have hl : l = l.dropLast ++ ['\r'] := by
          rw [← hgl]
          exact (List.dropLast_append_getLast hne).symm
        rw [show l ++ '\n' :: joinNL (g :: gs) =
            l.dropLast ++ '\r' :: '\n' :: joinNL (g :: gs) from by
          conv_lhs => rw [hl]
          simp] at h
        have h2 := List.append_cancel_left h
        cases h2
      · rw [show chompCR l = l from chompCR_eq_self hcr] at h
        have h2 : joinNL (x :: xs) = joinNL (g :: gs) := by
          have h3 := List.append_cancel_left h
          injection h3
        show chompCR l :: fixCR (g :: gs) = l :: g :: gs
        rw [chompCR_eq_self hcr, ih (by rw [hx]; exact h2)]

theorem contentClean_fixCR {c : String} (h : contentClean c) :
    fixCR (splitNL c.data) = splitNL c.data := by
  apply fixCR_join_eq
  have h2 := congrArg String.data h.1
  rw [show splitLines c = (fixCR (splitNL c.data)).map String.mk from rfl] at h2
  rw [joinSepNL_data] at h2
  rw [h2, joinNL_splitNL]

theorem splitNL_last_piece : ∀ (l : List Char) (p : List Char),
    (splitNL l).getLast? = some p → p = [] ∨ p.getLast? = l.getLast? := by
  intro l
  induction l with
  | nil =>
    intro p hp
    rw [show splitNL [] = [[]] from rfl] at hp
    cases hp
    exact Or.inl rfl
  | cons c rest ih =>
    intro p hp
    by_cases hc : c = '\n'
    · subst hc
      rw [show splitNL ('\n' :: rest) = [] :: splitNL rest from by simp [splitNL]] at hp
      cases hrest : rest with
      | nil =>
        rw [hrest] at hp
        rw [show splitNL ([] : List Char) = [[]] from rfl] at hp
        cases hp
        exact Or.inl rfl
      | cons r rs =>
        match hsp : splitNL rest, splitNL_ne_nil rest with
        | g :: gs, _ =>
          rw [hsp, List.getLast?_cons_cons] at hp
          rcases ih p (by rw [hsp]; exact hp) with h1 | h1
          · exact Or.inl h1
          · refine Or.inr ?_
            rw [h1, hrest, List.getLast?_cons_cons]
    · rw [splitNL_cons_not_nl hc] at hp
      match hsp : splitNL rest, splitNL_ne_nil rest with
      | g :: gs, _ =>
        rw [hsp] at hp
        simp only [List.headI_cons, List.tail_cons] at hp
        cases gs with
        | nil =>
          rw [show ((c :: g) :: ([] : List (List Char))).getLast? = some (c :: g)
              from rfl] at hp
          cases hp
          refine Or.inr ?_
          have hj := joinNL_splitNL rest
          rw [hsp] at hj
          rw [show joinNL [g] = g from rfl] at hj
          rw [hj]
        | cons g2 gs2 =>
          rw [List.getLast?_cons_cons] at hp
          have hrne : rest ≠ [] := by
            intro he
            rw [he] at hsp
            rw [show splitNL ([] : List Char) = [[]] from rfl] at hsp
            cases hsp
          rcases ih p (by rw [hsp, List.getLast?_cons_cons]; exact hp) with h1 | h1
          · exact Or.inl h1
          · refine Or.inr ?_
            rw [h1]
            cases hrest : rest with
            | nil => exact absurd hrest hrne
            | cons r rs => rw [List.getLast?_cons_cons]

theorem noCR_of_fixCR : ∀ {P : List (List Char)}, fixCR P = P →
    (∀ p, P.getLast? = some p → p.getLast? ≠ some '\r') →
    ∀ l ∈ P, l.getLast? ≠ some '\r' := by
  intro P
  induction P with
  | nil => intro _ _ l hl; cases hl
  | cons l ls ih =>
    intro hfix hlast x hx
    cases ls with
    | nil =>
      simp only [List.mem_singleton] at hx
      subst hx
      exact hlast x rfl
    | cons g gs =>
      rw [show fixCR (l :: g :: gs) = chompCR l :: fixCR (g :: gs) from rfl,
        List.cons.injEq] at hfix
      simp only [List.mem_cons] at hx
      rcases hx with rfl | hx
      · exact chompCR_id_imp hfix.1
      · exact ih hfix.2 (fun p hp => hlast p (by rw [List.getLast?_cons_cons]; exact hp))
          x (by simp [hx])

theorem content_pieces_noCR {c : String} (hcc : contentClean c)
    (hct : jsTrim c = c) : ∀ l ∈ splitNL c.data, l.getLast? ≠ some '\r' := by
  refine noCR_of_fixCR (contentClean_fixCR hcc) ?_
  intro p hp
  rcases splitNL_last_piece c.data p hp with rfl | h1
  · intro he; cases he
  · rw [h1]
    intro he
    have hW : jsWS '\r' = false := by
      have h3 := congrArg String.data hct
      rw [show (jsTrim c).data = trimL c.data from rfl] at h3
      have := trimL_last_not_ws (a := '\r') (by rw [h3]; exact he)
      exact this
    exact absurd hW (by decide)

theorem splitNL_wrBlocks : ∀ es, es ≠ [] →
    (∀ e ∈ es, ∀ ch ∈ e.header.data, ch ≠ '\n') →
    splitNL (wrBlocksL es ++ ['\n']) = wrPiecesL es := by
  intro es
  induction es with
  | nil => intro h _; exact absurd rfl h
  | cons e rest ih =>
    intro _ hh
    cases rest with
    | nil =>
      show splitNL ((e.header.data ++ '\n' :: '\n' :: e.content.data) ++ ['\n']) = _
      rw [show (e.header.data ++ '\n' :: '\n' :: e.content.data) ++ ['\n'] =
          e.header.data ++ '\n' :: ('\n' :: (e.content.data ++ ['\n'])) from by simp]
      rw [splitNL_append_nl, splitNL_no_nl (hh e (by simp))]
      rw [show splitNL ('\n' :: (e.content.data ++ ['\n'])) =
          [] :: splitNL (e.content.data ++ ['\n']) from by simp [splitNL]]
      rw [show e.content.data ++ ['\n'] = e.content.data ++ '\n' :: [] from rfl,
        splitNL_append_nl]
      show _ = e.header.data :: [] :: (splitNL e.content.data ++ [] :: wrPiecesL [])
      simp [splitNL, wrPiecesL]
    | cons e2 rest2 =>
      show splitNL ((e.header.data ++ '\n' :: '\n' ::
          (e.content.data ++ '\n' :: '\n' :: wrBlocksL (e2 :: rest2))) ++ ['\n']) = _
      rw [show (e.header.data ++ '\n' :: '\n' ::
          (e.content.data ++ '\n' :: '\n' :: wrBlocksL (e2 :: rest2))) ++ ['\n'] =
        e.header.data ++ '\n' :: ('\n' :: (e.content.data ++ '\n' ::
          ('\n' :: (wrBlocksL (e2 :: rest2) ++ ['\n'])))) from by simp]
      rw [splitNL_append_nl, splitNL_no_nl (hh e (by simp))]
      rw [show splitNL ('\n' :: (e.content.data ++ '\n' ::
          ('\n' :: (wrBlocksL (e2 :: rest2) ++ ['\n'])))) =
        [] :: splitNL (e.content.data ++ '\n' ::
          ('\n' :: (wrBlocksL (e2 :: rest2) ++ ['\n']))) from by simp [splitNL]]
      rw [splitNL_append_nl]
      rw [show splitNL ('\n' :: (wrBlocksL (e2 :: rest2) ++ ['\n'])) =
        [] :: splitNL (wrBlocksL (e2 :: rest2) ++ ['\n']) from by simp [splitNL]]
      rw [ih (by simp) (fun x hx c hc => hh x (by simp [hx]) c hc)]
      show _ = e.header.data :: [] ::
        (splitNL e.content.data ++ [] :: wrPiecesL (e2 :: rest2))
      simp

theorem wrPieces_noCR : ∀ es, (∀ e ∈ es, entryClean e) →
    ∀ l ∈ wrPiecesL es, l.getLast? ≠ some '\r' := by
  intro es
  induction es with
  | nil => intro _ l hl; cases hl
  | cons e rest ih =>
    intro hcl l hl
    have hce := hcl e (by simp)
    simp only [wrPiecesL, List.mem_cons, List.mem_append] at hl
    rcases hl with rfl | rfl | (hl | rfl | hl)
    · intro he
      have h3 := congrArg String.data hce.2.1
      rw [show (jsTrim e.header).data = trimL e.header.data from rfl] at h3
      have hW := trimL_last_not_ws (a := '\r') (by rw [h3]; exact he)
      exact absurd hW (by decide)
    · intro he; cases he
    · exact content_pieces_noCR hce.2.2.2.1 hce.2.2.2.2.1 l hl
    · intro he; cases he
    · exact ih (fun x hx => hcl x (by simp [hx])) l hl

theorem wrPieces_mk : ∀ es, (∀ e ∈ es, contentClean e.content) →
    (wrPiecesL es).map String.mk = wrBlockLines es := by
  intro es
  induction es with
  | nil => intro _; rfl
  | cons e rest ih =>
    intro hcl
    show (e.header.data :: [] ::
        (splitNL e.content.data ++ [] :: wrPiecesL rest)).map String.mk = _
    rw [show wrBlockLines (e :: rest) =
        e.header :: "" :: (splitLines e.content ++ "" :: wrBlockLines rest) from rfl]
    simp only [List.map_cons, List.map_append, strMkData]
    rw [ih (fun x hx => hcl x (by simp [hx]))]
    rw [show splitLines e.content =
        (fixCR (splitNL e.content.data)).map String.mk from rfl,
      contentClean_fixCR (hcl e (by simp))]

theorem data_ne_nil {s : String} (h : s ≠ "") : s.data ≠ [] :=
  fun hd => h (strExt (t := "") hd)

theorem fixCR_ne_nil : ∀ {P : List (List Char)}, P ≠ [] → fixCR P ≠ [] := by
  intro P h
  match P, h with
  | [l], _ => show ([l] : List (List Char)) ≠ []; simp
  | l :: l2 :: ls, _ =>
    show chompCR l :: fixCR (l2 :: ls) ≠ []
    simp

theorem splitLines_ne_nil (s : String) : splitLines s ≠ [] := by
  show (fixCR (splitNL s.data)).map String.mk ≠ []
  intro h
  simp only [List.map_eq_nil_iff] at h
  exact fixCR_ne_nil (splitNL_ne_nil s.data) h

theorem foldl_blocks : ∀ (es : List ChangelogEntry) (acc : String),
    (es.foldl (fun acc e => acc ++ e.header ++ "\n\n" ++ e.content ++ "\n\n") acc).data =
      acc.data ++ blocksFullL es := by
  intro es
  induction es with
  | nil => intro acc; simp [blocksFullL]
  | cons e rest ih =>
    intro acc
    simp only [List.foldl_cons]
    rw [ih]
    simp [String.data_append, blocksFullL,
      show ("\n\n" : String).data = ['\n', '\n'] from rfl]

theorem blocksFull_eq_wr : ∀ es, es ≠ [] →
    blocksFullL es = wrBlocksL es ++ ['\n', '\n'] := by
  intro es
  induction es with
  | nil => intro h; exact absurd rfl h
  | cons e rest ih =>
    intro _
    cases rest with
    | nil => simp [blocksFullL, wrBlocksL]
    | cons e2 r2 =>
      show e.header.data ++ '\n' :: '\n' ::
          (e.content.data ++ '\n' :: '\n' :: blocksFullL (e2 :: r2)) = _
      rw [ih (by simp)]
      show _ = (e.header.data ++ '\n' :: '\n' ::
          (e.content.data ++ '\n' :: '\n' :: wrBlocksL (e2 :: r2))) ++ ['\n', '\n']
      simp

theorem wrBlocks_last : ∀ es, es ≠ [] → (∀ e ∈ es, entryClean e) →
    ∃ a, (wrBlocksL es).getLast? = some a ∧ jsWS a = false := by
  intro es
  induction es with
  | nil => intro h _; exact absurd rfl h
  | cons e rest ih =>
    intro _ hcl
    have hce := hcl e (by simp)
    cases rest with
    | nil =>
      have hcd : e.content.data ≠ [] := data_ne_nil hce.2.2.2.2.2
      refine ⟨e.content.data.getLast hcd, ?_, ?_⟩
      · show (e.header.data ++ '\n' :: '\n' :: e.content.data).getLast? = _
        rw [List.getLast?_append_of_ne_nil _ (by simp),
          getLast?_cons_of_ne_nil (by simp [hcd]),
          getLast?_cons_of_ne_nil hcd]
        exact List.getLast?_eq_getLast _ hcd
      · have h3 := congrArg String.data hce.2.2.2.2.1
        rw [show (jsTrim e.content).data = trimL e.content.data from rfl] at h3
        exact trimL_last_not_ws
          (show (trimL e.content.data).getLast? = _ from by
            rw [h3]; exact List.getLast?_eq_getLast _ hcd)
    | cons e2 r2 =>
      obtain ⟨a, ha, hws⟩ := ih (by simp) (fun x hx => hcl x (by simp [hx]))
      have hne : wrBlocksL (e2 :: r2) ≠ [] := by intro h0; rw [h0] at ha; cases ha
      refine ⟨a, ?_, hws⟩
      show (e.header.data ++ '\n' :: '\n' ::
          (e.content.data ++ '\n' :: '\n' :: wrBlocksL (e2 :: r2))).getLast? = some a
      rw [List.getLast?_append_of_ne_nil _ (by simp),
        getLast?_cons_of_ne_nil (by simp),
        getLast?_cons_of_ne_nil (by simp),
        List.getLast?_append_of_ne_nil _ (by simp),
        getLast?_cons_of_ne_nil (by simp [hne]),
        getLast?_cons_of_ne_nil hne]
      exact ha

theorem trim_body_decomp (base : String) (es : List ChangelogEntry) (hes : es ≠ [])
    (hcl : ∀ e ∈ es, entryClean e) (hb1 : '#' ∈ base.data)
    (hb2 : base.data.getLast? = some '\n') :
    ∃ D2, (jsTrim (es.foldl
        (fun acc e => acc ++ e.header ++ "\n\n" ++ e.content ++ "\n\n") base) ++
          "\n").data =
      D2 ++ '\n' :: (wrBlocksL es ++ ['\n']) := by
  obtain ⟨a, ha, haws⟩ := wrBlocks_last es hes hcl
  have hWne : wrBlocksL es ≠ [] := by intro h0; rw [h0] at ha; cases ha
  have hDne : base.data.dropWhile jsWS ≠ [] := by
    intro h0
    have hall := List.dropWhile_eq_nil_iff.mp h0 '#' hb1
    exact absurd hall (by decide)
  have htk : base.data.takeWhile jsWS ++ base.data.dropWhile jsWS = base.data := by
    simp
  have hDlast : (base.data.dropWhile jsWS).getLast? = some '\n' := by
    rw [← htk] at hb2
    rwa [List.getLast?_append_of_ne_nil _ hDne] at hb2
  have h6 : (base.data.dropWhile jsWS).getLast hDne = '\n' := by
    have h7 := List.getLast?_eq_getLast (base.data.dropWhile jsWS) hDne
    rw [h7] at hDlast
    exact Option.some.inj hDlast
  have h5 := List.dropLast_append_getLast hDne
  rw [h6] at h5
  have key : trimL (es.foldl
      (fun acc e => acc ++ e.header ++ "\n\n" ++ e.content ++ "\n\n") base).data =
      ((base.data.dropWhile jsWS).dropLast ++ ['\n']) ++ wrBlocksL es := by
    rw [foldl_blocks, blocksFull_eq_wr es hes, ← List.append_assoc]
    rw [trimL_ws_right (by decide) (base.data ++ wrBlocksL es)]
    show dropTrailWS ((base.data ++ wrBlocksL es).dropWhile jsWS) = _
    rw [dropWhile_append_of_ne_nil hDne]
    rw [getLast_dropTrailWS_self
      (show (base.data.dropWhile jsWS ++ wrBlocksL es).getLast? = some a from by
        rw [List.getLast?_append_of_ne_nil _ hWne]; exact ha) haws]
    rw [h5]
  refine ⟨(base.data.dropWhile jsWS).dropLast, ?_⟩
  rw [String.data_append,
    show ("\n" : String).data = ['\n'] from rfl,
    show (jsTrim (es.foldl
      (fun acc e => acc ++ e.header ++ "\n\n" ++ e.content ++ "\n\n") base)).data =
        trimL (es.foldl
          (fun acc e => acc ++ e.header ++ "\n\n" ++ e.content ++ "\n\n") base).data
      from rfl,
    key]
  simp

theorem joinSep_append_one : ∀ (ls : List String) (x : String), ls ≠ [] →
    joinSep "\n" (ls ++ [x]) = joinSep "\n" ls ++ "\n" ++ x := by
  intro ls
  induction ls with
  | nil => intro x h; exact absurd rfl h
  | cons l rest ih =>
    intro x _
    cases rest with
    | nil => rfl
    | cons l2 r2 =>
      show l ++ "\n" ++ joinSep "\n" ((l2 :: r2) ++ [x]) =
        (l ++ "\n" ++ joinSep "\n" (l2 :: r2)) ++ "\n" ++ x
      rw [ih x (by simp)]
      simp [strApp_assoc]

theorem foldl_lines : ∀ (ls : List String), ls ≠ [] → ∀ (init : String),
    ls.foldl (fun a l => a ++ l ++ "\n") init = init ++ joinSep "\n" ls ++ "\n" := by
  intro ls
  induction ls with
  | nil => intro h; exact absurd rfl h
  | cons l rest ih =>
    intro _ init
    cases rest with
    | nil => rfl
    | cons l2 r2 =>
      show List.foldl _ (init ++ l ++ "\n") (l2 :: r2) = _
      rw [ih (by simp) (init ++ l ++ "\n")]
      show _ = init ++ (l ++ "\n" ++ joinSep "\n" (l2 :: r2)) ++ "\n"
      simp [strApp_assoc]

theorem accum_content {c : String} (hcc : contentClean c) (hct : jsTrim c = c)
    (hcne : c ≠ "") :
    jsTrim (("" :: (splitLines c ++ [""])).foldl (fun a l => a ++ l ++ "\n") "") = c := by
  rw [foldl_lines _ (by simp) ""]
  have h1 : joinSep "\n" ("" :: (splitLines c ++ [""])) =
      "" ++ "\n" ++ joinSep "\n" (splitLines c ++ [""]) := by
    cases hL : splitLines c ++ [""] with
    | nil => simp at hL
    | cons a as => rfl
  rw [h1, joinSep_append_one _ "" (splitLines_ne_nil c), hcc.1]
  apply strExt
  have h2 : ("" ++ ("" ++ "\n" ++ (c ++ "\n" ++ "")) ++ "\n").data =
      ['\n'] ++ c.data ++ ['\n', '\n'] := by
    simp [String.data_append, show ("\n" : String).data = ['\n'] from rfl,
      show ("" : String).data = ([] : List Char) from rfl]
  show trimL ("" ++ ("" ++ "\n" ++ (c ++ "\n" ++ "")) ++ "\n").data = c.data
  rw [h2, trimL_ws_pad (by decide) (by decide)]
  exact congrArg String.data hct

theorem lines_noheader {c : String} (hcc : contentClean c) :
    ∀ l ∈ ("" :: (splitLines c ++ [""])), isHeaderLine l = false := by
  intro l hl
  rcases List.mem_cons.mp hl with rfl | hl2
  · rfl
  · rcases List.mem_append.mp hl2 with h3 | h3
    · exact hcc.2 l h3
    · rw [List.mem_singleton.mp h3]; rfl

theorem parseBody_cons_header {l : String} (h : isHeaderLine l = true)
    (rest : List String) (cur : ChangelogEntry) :
    parseBody (l :: rest) cur =
      (flushEntry cur :: (parseBody rest (mkEntry l).1).1,
        (mkEntry l).2 ++ (parseBody rest (mkEntry l).1).2) := by
  simp only [parseBody]
  rw [if_pos h]

theorem parseBody_cons_nonheader {l : String} (h : isHeaderLine l = false)
    (rest : List String) (cur : ChangelogEntry) :
    parseBody (l :: rest) cur =
      parseBody rest { cur with content := cur.content ++ l ++ "\n" } := by
  simp only [parseBody]
  rw [if_neg (by simp [h])]

theorem parsePreamble_cons_header {l : String} (h : isHeaderLine l = true)
    (rest : List String) :
    parsePreamble (l :: rest) =
      ("", (parseBody rest (mkEntry l).1).1,
        (mkEntry l).2 ++ (parseBody rest (mkEntry l).1).2) := by
  simp only [parsePreamble]
  rw [if_pos h]

theorem parsePreamble_cons_nonheader {l : String} (h : isHeaderLine l = false)
    (rest : List String) :
    parsePreamble (l :: rest) =
      ((if sStartsWith l "# " then "" else l ++ "\n") ++ (parsePreamble rest).1,
        (parsePreamble rest).2.1, (parsePreamble rest).2.2) := by
  simp only [parsePreamble]
  rw [if_neg (by simp [h])]

theorem parseBody_noheader : ∀ (ls : List String),
    (∀ l ∈ ls, isHeaderLine l = false) →
    ∀ (cur : ChangelogEntry) (t2 : List String),
    parseBody (ls ++ t2) cur =
      parseBody t2
        { cur with content := ls.foldl (fun a l => a ++ l ++ "\n") cur.content } := by
  intro ls
  induction ls with
  | nil => intro _ cur t2; rfl
  | cons l rest ih =>
    intro h cur t2
    have hl : isHeaderLine l = false := h l (by simp)
    show parseBody (l :: (rest ++ t2)) cur = _
    rw [parseBody_cons_nonheader hl]
    rw [ih (fun x hx => h x (by simp [hx])) { cur with content := cur.content ++ l ++ "\n" } t2]
    rfl

theorem parseBody_blocks : ∀ (es : List ChangelogEntry), (∀ e ∈ es, entryClean e) →
    ∀ (e0c : String), contentClean e0c → jsTrim e0c = e0c → e0c ≠ "" →
    ∀ (cur : ChangelogEntry), cur.content = "" →
    (parseBody ("" :: (splitLines e0c ++ "" :: wrBlockLines es)) cur).1.map
        (fun e => (e.header, e.content)) =
      (cur.header, e0c) :: es.map (fun e => (e.header, e.content)) := by
  intro es
  induction es with
  | nil =>
    intro _ e0c hcc hct hcne cur hcur
    show (parseBody ("" :: (splitLines e0c ++ [""])) cur).1.map _ = _
    rw [show ("" : String) :: (splitLines e0c ++ [""]) =
        ("" :: (splitLines e0c ++ [""])) ++ ([] : List String) from by simp]
    rw [parseBody_noheader _ (lines_noheader hcc) cur []]
    simp only [parseBody, flushEntry, List.map_cons, List.map_nil]
    rw [hcur, accum_content hcc hct hcne]
  | cons e2 rest ih =>
    intro hcl e0c hcc hct hcne cur hcur
    have hce2 := hcl e2 (by simp)
    show (parseBody ("" :: (splitLines e0c ++ "" ::
        (e2.header :: "" :: (splitLines e2.content ++ "" :: wrBlockLines rest))))
          cur).1.map _ = _
    rw [show ("" : String) :: (splitLines e0c ++ "" ::
        (e2.header :: "" :: (splitLines e2.content ++ "" :: wrBlockLines rest))) =
      ("" :: (splitLines e0c ++ [""])) ++
        (e2.header :: "" :: (splitLines e2.content ++ "" :: wrBlockLines rest))
      from by simp]
    rw [parseBody_noheader _ (lines_noheader hcc) cur _]
    rw [parseBody_cons_header hce2.1]
    simp only [List.map_cons]
    rw [ih (fun x hx => hcl x (by simp [hx])) e2.content hce2.2.2.2.1
      hce2.2.2.2.2.1 hce2.2.2.2.2.2 (mkEntry e2.header).1 rfl]
    rw [show (mkEntry e2.header).1.header = e2.header from hce2.2.1]
    simp only [flushEntry]
    rw [hcur, accum_content hcc hct hcne]

theorem parseBody_append_header : ∀ (L1 : List String) (cur : ChangelogEntry)
    (l0 : String) (L2 : List String), isHeaderLine l0 = true →
    ∃ F, (parseBody (L1 ++ l0 :: L2) cur).1 =
      F ++ (parseBody L2 (mkEntry l0).1).1 := by
  intro L1
  induction L1 with
  | nil =>
    intro cur l0 L2 h0
    refine ⟨[flushEntry cur], ?_⟩
    show (parseBody (l0 :: L2) cur).1 = _
    rw [parseBody_cons_header h0]
    rfl
  | cons l L1x ih =>
    intro cur l0 L2 h0
    cases hl : isHeaderLine l with
    | true =>
      obtain ⟨F, hF⟩ := ih (mkEntry l).1 l0 L2 h0
      refine ⟨flushEntry cur :: F, ?_⟩
      show (parseBody (l :: (L1x ++ l0 :: L2)) cur).1 = _
      rw [parseBody_cons_header hl]
      show flushEntry cur :: (parseBody (L1x ++ l0 :: L2) (mkEntry l).1).1 = _
      rw [hF]
      simp
    | false =>
      obtain ⟨F, hF⟩ := ih { cur with content := cur.content ++ l ++ "\n" } l0 L2 h0
      refine ⟨F, ?_⟩
      show (parseBody (l :: (L1x ++ l0 :: L2)) cur).1 = _
      rw [parseBody_cons_nonheader hl]
      exact hF

theorem parsePreamble_append_header : ∀ (L1 : List String) (l0 : String)
    (L2 : List String), isHeaderLine l0 = true →
    ∃ F, (parsePreamble (L1 ++ l0 :: L2)).2.1 =
      F ++ (parseBody L2 (mkEntry l0).1).1 := by
  intro L1
  induction L1 with
  | nil =>
    intro l0 L2 h0
    refine ⟨[], ?_⟩
    show (parsePreamble (l0 :: L2)).2.1 = _
    rw [parsePreamble_cons_header h0]
    rfl
  | cons l L1x ih =>
    intro l0 L2 h0
    cases hl : isHeaderLine l with
    | true =>
      obtain ⟨F, hF⟩ := parseBody_append_header L1x (mkEntry l).1 l0 L2 h0
      refine ⟨F, ?_⟩
      show (parsePreamble (l :: (L1x ++ l0 :: L2))).2.1 = _
      rw [parsePreamble_cons_header hl]
      exact hF
    | false =>
      obtain ⟨F, hF⟩ := ih l0 L2 h0
      refine ⟨F, ?_⟩
      show (parsePreamble (l :: (L1x ++ l0 :: L2))).2.1 = _
      rw [parsePreamble_cons_nonheader hl]
      exact hF

theorem parseChangelog_entries_shape (content : String) :
    ∃ G, (parseChangelog content).entries =
      G ++ (parsePreamble (splitLines content)).2.1 := by
  have hcons : ∀ (x : ChangelogEntry) (l1 l2 : List ChangelogEntry),
      (∃ G, l1 = G ++ l2) → ∃ G, x :: l1 = G ++ l2 := by
    rintro x l1 l2 ⟨G, hG⟩
    exact ⟨x :: G, by rw [hG]; rfl⟩
  simp only [parseChangelog]
  split
  · split
    · exact hcons _ _ _ (hcons _ _ _ ⟨[], rfl⟩)
    · exact hcons _ _ _ ⟨[], rfl⟩
  · split
    · exact hcons _ _ _ ⟨[], rfl⟩
    · exact ⟨[], rfl⟩

theorem newHeader_clean (nv today : String) (hnv : ∀ c ∈ nv.data, c ≠ '\n')
    (htd1 : ∀ c ∈ today.data, c ≠ '\n') (htd2 : jsTrim today = today)
    (htd3 : today ≠ "") :
    isHeaderLine ("## [" ++ nv ++ "] - " ++ today) = true ∧
      jsTrim ("## [" ++ nv ++ "] - " ++ today) = "## [" ++ nv ++ "] - " ++ today ∧
      ∀ c ∈ ("## [" ++ nv ++ "] - " ++ today).data, c ≠ '\n' := by
  have hdata : ("## [" ++ nv ++ "] - " ++ today).data =
      '#' :: '#' :: ' ' :: '[' ::
        (nv.data ++ (']' :: ' ' :: '-' :: ' ' :: today.data)) := by
    simp [String.data_append, show ("## [" : String).data = ['#', '#', ' ', '['] from rfl,
      show ("] - " : String).data = [']', ' ', '-', ' '] from rfl]
  refine ⟨?_, ?_, ?_⟩
  · simp [isHeaderLine, hdata]
  · apply strExt
    show trimL ("## [" ++ nv ++ "] - " ++ today).data =
      ("## [" ++ nv ++ "] - " ++ today).data
    apply trimL_eq_self
    · intro a ha
      rw [hdata] at ha
      simp only [List.head?_cons, Option.some.injEq] at ha
      rw [← ha]
      decide
    · intro a ha
      rw [hdata] at ha
      rw [getLast?_cons_of_ne_nil (by simp), getLast?_cons_of_ne_nil (by simp),
        getLast?_cons_of_ne_nil (by simp), getLast?_cons_of_ne_nil (by simp),
        List.getLast?_append_of_ne_nil _ (by simp),
        getLast?_cons_of_ne_nil (by simp [data_ne_nil htd3]),
        getLast?_cons_of_ne_nil (by simp [data_ne_nil htd3]),
        getLast?_cons_of_ne_nil (by simp [data_ne_nil htd3]),
        getLast?_cons_of_ne_nil (data_ne_nil htd3)] at ha
      have h3 := congrArg String.data htd2
      rw [show (jsTrim today).data = trimL today.data from rfl] at h3
      exact trimL_last_not_ws (by rw [h3]; exact ha)
  · intro c hc he
    subst he
    rw [hdata] at hc
    simp only [List.mem_cons, List.mem_append] at hc
    rcases hc with h | h | h | h | h | h | h | h | h | h
    · exact absurd h (by decide)
    · exact absurd h (by decide)
    · exact absurd h (by decide)
    · exact absurd h (by decide)
    · exact hnv _ h rfl
    · exact absurd h (by decide)
    · exact absurd h (by decide)
    · exact absurd h (by decide)
    · exact absurd h (by decide)
    · exact htd1 _ h rfl

/-! ## Claims -/

/-- **C7**: If the resolved version carries a pre-release component whose
trailing numeric suffix is separated by a dot, the dot is removed in the
final resolved string (for any string of the form `a.ds` with `ds` a nonempty
digit run, provided the string is a valid semver with a pre-release
component); in particular, resolving bump keyword `prerelease` with
identifier `beta` from current version `1.0.0` yields exactly `1.0.1-beta0`. -/
theorem c7_prerelease_dot_removal :
    (∀ (a : String) (ds : List Char) (v : SemVer), ds ≠ [] → ds.all isDigitC = true →
      parseSemVer (a ++ "." ++ String.mk ds) = some v → v.pre ≠ [] →
      bratNormalize (a ++ "." ++ String.mk ds) = a ++ String.mk ds) ∧
    resolveNextVersion "1.0.0" "prerelease" (some "beta") = some "1.0.1-beta0" := by
  constructor
  · intro a ds v hne hds hparse hpre
    have hpr : prereleaseJs (a ++ "." ++ String.mk ds) = some v.pre := by
      simp only [prereleaseJs, hparse]
      rw [if_neg (by simp [List.isEmpty_iff, hpre])]
    simp only [bratNormalize, hpr]
    exact dotRemove_append_digits hne hds a
  · decide

/-- **C10**: heading classification gives the version token priority over
the word `unreleased`: the parser records an entry as the unreleased entry
exactly when no version-shaped token occurs in the heading text and the text
contains `unreleased` case-insensitively; when a token is found, the entry
is classified by that token — its validated canonical form, or `none` plus
the invalid-SemVer warning.  In particular a heading containing both a valid
version and the word `unreleased` is recorded as a released entry. -/
theorem c10_priority (header ht : String) :
    ((classifyVersion header ht).1 = some "unreleased" ↔
      extractVersionToken ht = none ∧
        sIncludes (jsToLower ht) "unreleased" = true) ∧
    (∀ tok, extractVersionToken ht = some tok →
      (classifyVersion header ht).1 = jsValid (jsTrim tok) ∧
      (classifyVersion header ht).2 =
        (if jsValid (jsTrim tok) = none then [headerWarning header] else [])) := by
  constructor
  · constructor
    · intro h1
      cases hx : extractVersionToken ht with
      | some tok =>
        cases hv : jsValid (jsTrim tok) with
        | some sv =>
          simp [classifyVersion, hx, hv] at h1
          exact absurd h1 (jsValid_ne_unreleased hv)
        | none => simp [classifyVersion, hx, hv] at h1
      | none =>
        cases hinc : sIncludes (jsToLower ht) "unreleased" with
        | false => simp [classifyVersion, hx, hinc] at h1
        | true => exact ⟨rfl, rfl⟩
    · rintro ⟨hx, hinc⟩
      simp [classifyVersion, hx, hinc]
  · intro tok hx
    cases hv : jsValid (jsTrim tok) with
    | some sv => simp [classifyVersion, hx, hv]
    | none => simp [classifyVersion, hx, hv]

/-- Witness for C10 at a heading containing both the word `Unreleased` and a
valid version: the entry is classified by the version. -/
theorem c10_witness :
    (classifyVersion "## [Unreleased] 1.2.3"
        (headerTextOf "## [Unreleased] 1.2.3")).1 = jsValid (jsTrim "1.2.3") ∧
    (classifyVersion "## [Unreleased] 1.2.3"
        (headerTextOf "## [Unreleased] 1.2.3")).2 =
      (if jsValid (jsTrim "1.2.3") = none
        then [headerWarning "## [Unreleased] 1.2.3"] else []) :=
  (c10_priority "## [Unreleased] 1.2.3"
      (headerTextOf "## [Unreleased] 1.2.3")).2 "1.2.3" (by decide)

/-- **C3**: the conflict check aborts exactly on already-recorded entries
whose version is non-null, not `unreleased`, and strictly greater than the
resolved next version: the surviving filter output is characterized by that
predicate, a nonempty filter output makes the run abort with precisely the
conflict error, and an entry whose version equals the resolved next version
is never in the filter output (strict `gt` is irreflexive). -/
theorem c3_conflict_check (meta : ProjectInfo) (parsed0 : ParsedChangelog)
    (versionArg : String) (cfg : RunCfg) (git : GitEnv) (today : String)
    (u : ChangelogEntry) (nv0 : String) (hv : List ChangelogEntry)
    (hw : parsed0.warnings = [])
    (hu : parsed0.entries.find? isUnrel = some u)
    (hc : ¬ jsTrim u.content = "")
    (hrt : releaseTypeOf versionArg = none)
    (hvalid : jsValid versionArg = some nv0)
    (hhf : higherFilter parsed0.entries (bratNormalize nv0) = Except.ok hv) :
    hv = parsed0.entries.filter (hfPred (bratNormalize nv0)) ∧
    (hv ≠ [] → runRelease meta parsed0 versionArg cfg git today =
      ⟨[Ev.err (conflictMsgOf hv)], some 1⟩) ∧
    (∀ e ∈ parsed0.entries, e.version = some (bratNormalize nv0) →
      ∀ x, parseSemVer (bratNormalize nv0) = some x → e ∉ hv) := by
  have hfil := higherFilter_eq_filter parsed0.entries (bratNormalize nv0) hv hhf
  refine ⟨hfil, ?_, ?_⟩
  · intro hne
    have hnemp : hv.isEmpty = false := by
      cases hvv : hv with
      | nil => exact absurd hvv hne
      | cons a b => rfl
    simp [runRelease, hw, hu, hrt, hvalid, hhf, hnemp]
    rw [if_neg hc]
    simp [hhf, hne]
  · intro e he hev x hx hin
    rw [hfil] at hin
    have hpe := List.of_mem_filter hin
    by_cases hbu : bratNormalize nv0 = "unreleased"
    · simp [hfPred, hev, hbu] at hpe
    · simp [hfPred, hev, hbu, gtJs_self hx] at hpe

/-- Witness instantiating C3 concretely: with a recorded `2.0.0` entry and
target version `1.5.0`, the run aborts with the conflict error. -/
theorem c3_witness :
    runRelease ⟨"id", "1.0.0", "1.0.0", "1.0.0", []⟩
        ⟨"# T", "", [⟨some "unreleased", "## [Unreleased]", "- x"⟩,
          ⟨some "2.0.0", "## [2.0.0]", "y"⟩], []⟩ "1.5.0"
        ⟨false, false, true, true, true, none⟩ ⟨none, none⟩ "2024-01-01" =
      ⟨[Ev.err (conflictMsgOf [⟨some "2.0.0", "## [2.0.0]", "y"⟩])], some 1⟩ :=
  (c3_conflict_check ⟨"id", "1.0.0", "1.0.0", "1.0.0", []⟩
    ⟨"# T", "", [⟨some "unreleased", "## [Unreleased]", "- x"⟩,
      ⟨some "2.0.0", "## [2.0.0]", "y"⟩], []⟩ "1.5.0"
    ⟨false, false, true, true, true, none⟩ ⟨none, none⟩ "2024-01-01"
    ⟨some "unreleased", "## [Unreleased]", "- x"⟩ "1.5.0"
    [⟨some "2.0.0", "## [2.0.0]", "y"⟩]
    rfl (by decide) (by decide) (by decide) (by decide) rfl).2.1
    (by decide)

/-- **C8** is false as stated: with strict mode and a changelog lacking an
unreleased section, the run aborts before any mutation, but the error
stream carries only the generic strict-mode message; the warning naming the
missing `[Unreleased]` section goes to the output stream instead. -/
theorem c8_counterexample :
    (runRelease ⟨"id", "1.0.0", "1.0.0", "1.0.0", [("1.0.0", "1.0.0")]⟩
        (parseChangelog "## [1.0.0]\nstuff") "patch"
        ⟨true, false, true, true, true, none⟩ ⟨none, none⟩ "2024-01-01").exitCode =
      some 1 ∧
    errsOf (runRelease ⟨"id", "1.0.0", "1.0.0", "1.0.0", [("1.0.0", "1.0.0")]⟩
        (parseChangelog "## [1.0.0]\nstuff") "patch"
        ⟨true, false, true, true, true, none⟩ ⟨none, none⟩ "2024-01-01").events =
      [strictAbortMsg] ∧
    (∀ m ∈ errsOf (runRelease ⟨"id", "1.0.0", "1.0.0", "1.0.0", [("1.0.0", "1.0.0")]⟩
        (parseChangelog "## [1.0.0]\nstuff") "patch"
        ⟨true, false, true, true, true, none⟩ ⟨none, none⟩ "2024-01-01").events,
      sIncludes m "Unreleased" = false) ∧
    mutationsOf (runRelease ⟨"id", "1.0.0", "1.0.0", "1.0.0", [("1.0.0", "1.0.0")]⟩
        (parseChangelog "## [1.0.0]\nstuff") "patch"
        ⟨true, false, true, true, true, none⟩ ⟨none, none⟩ "2024-01-01").events = [] ∧
    missingUnreleasedWarning ∈
      outsOf (runRelease ⟨"id", "1.0.0", "1.0.0", "1.0.0", [("1.0.0", "1.0.0")]⟩
        (parseChangelog "## [1.0.0]\nstuff") "patch"
        ⟨true, false, true, true, true, none⟩ ⟨none, none⟩ "2024-01-01").events := by
  refine ⟨by decide, by decide, by decide, by decide, by decide⟩

/-- **C8** (amended): in strict mode with any parser warning the run stops
at the strict gate: the result is exactly the warnings echoed on the output
stream followed by the generic strict-mode message on the error stream,
exit code 1, and no file is mutated. -/
theorem c8_amended (meta : ProjectInfo) (parsed0 : ParsedChangelog)
    (versionArg : String) (cfg : RunCfg) (git : GitEnv) (today : String)
    (hstrict : cfg.strict = true) (hw : parsed0.warnings ≠ []) :
    runRelease meta parsed0 versionArg cfg git today =
      ⟨parsed0.warnings.map Ev.out ++ [Ev.err strictAbortMsg], some 1⟩ ∧
    mutationsOf (runRelease meta parsed0 versionArg cfg git today).events = [] ∧
    errsOf (runRelease meta parsed0 versionArg cfg git today).events =
      [strictAbortMsg] ∧
    outsOf (runRelease meta parsed0 versionArg cfg git today).events =
      parsed0.warnings := by
  have hrun : runRelease meta parsed0 versionArg cfg git today =
      ⟨parsed0.warnings.map Ev.out ++ [Ev.err strictAbortMsg], some 1⟩ := by
    simp only [runRelease, hstrict, Bool.true_and]
    rw [if_pos]
    simp [List.isEmpty_iff, hw]
  refine ⟨hrun, ?_, ?_, ?_⟩
  · rw [hrun]
    exact (streamsOf_warn parsed0.warnings strictAbortMsg).1
  · rw [hrun]
    exact (streamsOf_warn parsed0.warnings strictAbortMsg).2.1
  · rw [hrun]
    exact (streamsOf_warn parsed0.warnings strictAbortMsg).2.2

/-- Witness instantiating the amended C8 theorem concretely. -/
theorem c8_witness :
    runRelease ⟨"id", "1.0.0", "1.0.0", "1.0.0", []⟩
        ⟨"# T", "", [unreleasedPlaceholder], [missingUnreleasedWarning]⟩ "patch"
        ⟨true, false, true, true, true, none⟩ ⟨none, none⟩ "2024-01-01" =
      ⟨[missingUnreleasedWarning].map Ev.out ++ [Ev.err strictAbortMsg], some 1⟩ :=
  (c8_amended ⟨"id", "1.0.0", "1.0.0", "1.0.0", []⟩
    ⟨"# T", "", [unreleasedPlaceholder], [missingUnreleasedWarning]⟩ "patch"
    ⟨true, false, true, true, true, none⟩ ⟨none, none⟩ "2024-01-01"
    rfl (by decide)).1

/-- **C9**: a pre-release bump (pre-kind keyword, or the current version
already carrying a pre-release component) on the resolved default branch
aborts with exactly the branch-policy error and performs no file mutation;
when either branch name is unavailable the blocked test is false, so the
check is skipped. -/
theorem c9_branch_policy (meta : ProjectInfo) (parsed0 : ParsedChangelog)
    (versionArg : String) (cfg : RunCfg) (git : GitEnv) (today : String)
    (u : ChangelogEntry) (rt : ReleaseType)
    (hw : parsed0.warnings = [])
    (hu : parsed0.entries.find? isUnrel = some u)
    (hc : ¬ jsTrim u.content = "")
    (hrt : releaseTypeOf versionArg = some rt)
    (hpre : sStartsWith versionArg "pre" = true ∨
      (prereleaseJs meta.version).isSome = true)
    (hblocked : branchBlocked git = true) :
    (runRelease meta parsed0 versionArg cfg git today =
      ⟨[Ev.err branchPolicyMsg], some 1⟩) ∧
    mutationsOf (runRelease meta parsed0 versionArg cfg git today).events = [] ∧
    (∀ g2 : GitEnv, g2.currentBranch = none ∨ g2.defaultBranch = none →
      branchBlocked g2 = false) := by
  have hpreb : (sStartsWith versionArg "pre" || (prereleaseJs meta.version).isSome)
      = true := by
    rcases hpre with h | h <;> simp [h]
  have hrun : runRelease meta parsed0 versionArg cfg git today =
      ⟨[Ev.err branchPolicyMsg], some 1⟩ := by
    simp [runRelease, hw, hu, hrt, hpreb, hblocked]
    rw [if_neg hc]
    rfl
  refine ⟨hrun, by rw [hrun]; rfl, ?_⟩
  intro g2 hg2
  cases hdb : g2.defaultBranch with
  | none => rcases hg2 with h | h <;> simp [branchBlocked, hdb]
  | some db =>
    rcases hg2 with h | h
    · simp [branchBlocked, hdb, h]
    · rw [h] at hdb
      cases hdb

/-- Witness instantiating C9 concretely: a `prerelease` bump on the default
branch `main` aborts with the branch-policy error. -/
theorem c9_witness :
    runRelease ⟨"id", "1.0.0", "1.0.0", "1.0.0", []⟩
        ⟨"# T", "", [⟨some "unreleased", "## [Unreleased]", "- x"⟩], []⟩ "prerelease"
        ⟨false, false, true, true, true, none⟩ ⟨some "main", some "main"⟩ "2024-01-01" =
      ⟨[Ev.err branchPolicyMsg], some 1⟩ :=
  (c9_branch_policy ⟨"id", "1.0.0", "1.0.0", "1.0.0", []⟩
    ⟨"# T", "", [⟨some "unreleased", "## [Unreleased]", "- x"⟩], []⟩ "prerelease"
    ⟨false, false, true, true, true, none⟩ ⟨some "main", some "main"⟩ "2024-01-01"
    ⟨some "unreleased", "## [Unreleased]", "- x"⟩ ReleaseType.prerelease
    rfl (by decide) (by decide) (by decide) (Or.inl (by decide)) (by decide)).1

/-- **C6**: a second-level heading carrying a canonical version core
`X.Y.Z` — wrapped in square brackets, wrapped in parentheses, bare, or
`v`-prefixed, with an arbitrary bracketed tail or a space-led tail such as a
trailing date — is assigned exactly that version by the per-heading parser
step; and when the extracted token fails semver validation the entry gets a
null version plus the invalid-SemVer warning. -/
theorem c6_heading_versions (X Y Z : Nat)
    (hX : X ≤ MAXSAFE) (hY : Y ≤ MAXSAFE) (hZ : Z ≤ MAXSAFE)
    (hlen : (renderSemVer ⟨X, Y, Z, []⟩).length ≤ 256) :
    (∀ tl : List Char,
      (mkEntry ⟨'#' :: '#' :: ' ' :: '[' ::
          ((renderSemVer ⟨X, Y, Z, []⟩).data ++ ']' :: tl)⟩).1.version =
        some (renderSemVer ⟨X, Y, Z, []⟩) ∧
      (mkEntry ⟨'#' :: '#' :: ' ' :: '(' ::
          ((renderSemVer ⟨X, Y, Z, []⟩).data ++ ')' :: tl)⟩).1.version =
        some (renderSemVer ⟨X, Y, Z, []⟩)) ∧
    (∀ tl : List Char, tl = [] ∨ tl.head? = some ' ' →
      (mkEntry ⟨'#' :: '#' :: ' ' ::
          ((renderSemVer ⟨X, Y, Z, []⟩).data ++ tl)⟩).1.version =
        some (renderSemVer ⟨X, Y, Z, []⟩) ∧
      (mkEntry ⟨'#' :: '#' :: ' ' :: 'v' ::
          ((renderSemVer ⟨X, Y, Z, []⟩).data ++ tl)⟩).1.version =
        some (renderSemVer ⟨X, Y, Z, []⟩)) ∧
    (∀ (l tok : String), extractVersionToken (headerTextOf l) = some tok →
      jsValid (jsTrim tok) = none →
      (mkEntry l).1.version = none ∧ (mkEntry l).2 = [headerWarning (jsTrim l)]) := by
  have hrd : (renderSemVer ⟨X, Y, Z, []⟩).data =
      decRender X ++ '.' :: (decRender Y ++ '.' :: decRender Z) := by
    rw [renderSemVer_data]
    simp
  cases hmX : decRender X with
  | nil => exact absurd hmX (decRender_ne_nil X)
  | cons c0 dX =>
  have hc0d : isDigitC c0 = true := by
    have h := decRender_all_digits X
    rw [hmX] at h
    simp only [List.all_cons, Bool.and_eq_true] at h
    exact h.1
  have hC0 : (renderSemVer ⟨X, Y, Z, []⟩).data =
      c0 :: (dX ++ '.' :: (decRender Y ++ '.' :: decRender Z)) := by
    rw [hrd, hmX]
    simp
  have hCne : (renderSemVer ⟨X, Y, Z, []⟩).data ≠ [] := by
    rw [hC0]
    simp
  have hCd : ((renderSemVer ⟨X, Y, Z, []⟩).data).all
      (fun c => isDigitC c || c == '.') = true := by
    have hdd : ∀ n : Nat, (decRender n).all (fun c => isDigitC c || c == '.') = true := by
      intro n
      have h := decRender_all_digits n
      rw [List.all_eq_true] at h ⊢
      intro x hx
      simp [h x hx]
    rw [hrd]
    simp [List.all_append, hdd X, hdd Y, hdd Z]
  have hCnonlt : ((renderSemVer ⟨X, Y, Z, []⟩).data).all (fun c => !jsLineTerm c) = true := by
    rw [List.all_eq_true] at hCd ⊢
    intro x hx
    have h := hCd x hx
    simp only [Bool.or_eq_true, beq_iff_eq] at h
    rcases h with hd | rfl
    · simp [(digit_not_markers hd).2.2.2.2.2]
    · decide
  have hClast : ∀ x, ((renderSemVer ⟨X, Y, Z, []⟩).data).getLast? = some x →
      jsWS x = false := by
    intro x hx
    obtain ⟨cz, hcz1, hcz2⟩ := decRender_last_digit Z
    rw [hrd, List.getLast?_append_of_ne_nil _ (by simp),
      getLast?_cons_of_ne_nil (by simp [decRender_ne_nil Z]),
      List.getLast?_append_of_ne_nil _ (by simp),
      getLast?_cons_of_ne_nil (decRender_ne_nil Z), hcz1] at hx
    cases hx
    exact jsWS_false_of_digit hcz2
  have hCr : ∀ rest : List Char, (renderSemVer ⟨X, Y, Z, []⟩).data ++ rest =
      decRender X ++ '.' :: (decRender Y ++ '.' :: (decRender Z ++ rest)) := by
    intro rest
    rw [hrd]
    simp
  have htokC : ∀ rest : List Char,
      (rest = [] ∨ ∃ c r2, rest = c :: r2 ∧ isDigitC c = false ∧ sfxDelim c = false) →
      tokenAt ((renderSemVer ⟨X, Y, Z, []⟩).data ++ rest) =
        some (renderSemVer ⟨X, Y, Z, []⟩).data := by
    intro rest hr
    rw [hCr, tokenAt_cores X Y Z hr, hrd]
  have hclass : ∀ (hdr hts : String), extractVersionToken hts =
      some (renderSemVer ⟨X, Y, Z, []⟩) →
      (classifyVersion hdr hts).1 = some (renderSemVer ⟨X, Y, Z, []⟩) := by
    intro hdr hts hx
    simp [classifyVersion, hx, jsTrim_render_core,
      jsValid_render_core X Y Z hX hY hZ hlen]
  refine ⟨?_, ?_, ?_⟩
  · intro tl
    constructor
    · obtain ⟨t2, ht2, _⟩ := headerTextOf_front
        (F := '[' :: ((renderSemVer ⟨X, Y, Z, []⟩).data ++ [']'])) (by simp)
        (fun x hx => by rw [List.head?_cons] at hx; cases hx; decide)
        (by simp [List.all_append, hCnonlt]; decide)
        (by
          intro x hx
          rw [getLast?_cons_of_ne_nil (by simp), List.getLast?_concat] at hx
          cases hx
          decide)
        tl
      rw [show '[' :: ((renderSemVer ⟨X, Y, Z, []⟩).data ++ [']']) ++ t2 =
          '[' :: ((renderSemVer ⟨X, Y, Z, []⟩).data ++ ']' :: t2) from by simp] at ht2
      have htok : extractVersionToken (headerTextOf ⟨'#' :: '#' :: ' ' :: '[' ::
          ((renderSemVer ⟨X, Y, Z, []⟩).data ++ ']' :: tl)⟩) =
            some (renderSemVer ⟨X, Y, Z, []⟩) := by
        rw [show ('#' :: '#' :: ' ' :: '[' ::
            ((renderSemVer ⟨X, Y, Z, []⟩).data ++ ']' :: tl) : List Char) =
          '#' :: '#' :: ' ' :: (('[' :: ((renderSemVer ⟨X, Y, Z, []⟩).data ++ [']'])) ++ tl)
          from by simp]
        simp only [extractVersionToken, ht2]
        rw [hC0, List.cons_append]
        show (extractTok _).map String.mk = _
        rw [extractTok]
        rw [tokenAt_skip_bracket (Or.inr rfl) hc0d]
        rw [show (c0 :: ((dX ++ '.' :: (decRender Y ++ '.' :: decRender Z)) ++ ']' :: t2)
            : List Char) =
          (renderSemVer ⟨X, Y, Z, []⟩).data ++ ']' :: t2 from by rw [hC0]; simp]
        rw [htokC (']' :: t2) (Or.inr ⟨']', t2, rfl, by decide, by decide⟩)]
        simp [strMkData]
      simp only [mkEntry]
      exact hclass _ _ htok
    · obtain ⟨t2, ht2, _⟩ := headerTextOf_front
        (F := '(' :: ((renderSemVer ⟨X, Y, Z, []⟩).data ++ [')'])) (by simp)
        (fun x hx => by rw [List.head?_cons] at hx; cases hx; decide)
        (by simp [List.all_append, hCnonlt]; decide)
        (by
          intro x hx
          rw [getLast?_cons_of_ne_nil (by simp), List.getLast?_concat] at hx
          cases hx
          decide)
        tl
      rw [show '(' :: ((renderSemVer ⟨X, Y, Z, []⟩).data ++ [')']) ++ t2 =
          '(' :: ((renderSemVer ⟨X, Y, Z, []⟩).data ++ ')' :: t2) from by simp] at ht2
      have htok : extractVersionToken (headerTextOf ⟨'#' :: '#' :: ' ' :: '(' ::
          ((renderSemVer ⟨X, Y, Z, []⟩).data ++ ')' :: tl)⟩) =
            some (renderSemVer ⟨X, Y, Z, []⟩) := by
        rw [show ('#' :: '#' :: ' ' :: '(' ::
            ((renderSemVer ⟨X, Y, Z, []⟩).data ++ ')' :: tl) : List Char) =
          '#' :: '#' :: ' ' :: (('(' :: ((renderSemVer ⟨X, Y, Z, []⟩).data ++ [')'])) ++ tl)
          from by simp]
        simp only [extractVersionToken, ht2]
        rw [hC0, List.cons_append]
        show (extractTok _).map String.mk = _
        rw [extractTok]
        rw [tokenAt_skip_bracket (Or.inl rfl) hc0d]
        rw [show (c0 :: ((dX ++ '.' :: (decRender Y ++ '.' :: decRender Z)) ++ ')' :: t2)
            : List Char) =
          (renderSemVer ⟨X, Y, Z, []⟩).data ++ ')' :: t2 from by rw [hC0]; simp]
        rw [htokC (')' :: t2) (Or.inr ⟨')', t2, rfl, by decide, by decide⟩)]
        simp [strMkData]
      simp only [mkEntry]
      exact hclass _ _ htok
  · intro tl htl
    have hrest : ∀ t2 : List Char, t2 <+: tl.takeWhile (fun c => !jsLineTerm c) →
        t2 = [] ∨ ∃ r2, t2 = ' ' :: r2 := by
      intro t2 hpre
      rcases htl with rfl | hh
      · left
        simpa using List.prefix_nil.mp (by simpa using hpre)
      · cases tl with
        | nil => cases hh
        | cons a d =>
          rw [List.head?_cons] at hh
          cases hh
          rw [List.takeWhile_cons, if_pos (by decide)] at hpre
          obtain ⟨r, hr⟩ := hpre
          cases t2 with
          | nil => exact Or.inl rfl
          | cons b t3 =>
            right
            rw [List.cons_append] at hr
            injection hr with h1 _
            exact ⟨t3, by rw [h1]⟩
    constructor
    · obtain ⟨t2, ht2, hpre⟩ := headerTextOf_front
        (F := (renderSemVer ⟨X, Y, Z, []⟩).data) hCne
        (fun x hx => by
          rw [hC0, List.head?_cons] at hx
          cases hx
          exact jsWS_false_of_digit hc0d)
        hCnonlt hClast tl
      have htok : extractVersionToken (headerTextOf ⟨'#' :: '#' :: ' ' ::
          ((renderSemVer ⟨X, Y, Z, []⟩).data ++ tl)⟩) =
            some (renderSemVer ⟨X, Y, Z, []⟩) := by
        simp only [extractVersionToken, ht2]
        rw [hC0, List.cons_append]
        show (extractTok _).map String.mk = _
        rw [extractTok]
        rw [show (c0 :: ((dX ++ '.' :: (decRender Y ++ '.' :: decRender Z)) ++ t2)
            : List Char) =
          (renderSemVer ⟨X, Y, Z, []⟩).data ++ t2 from by rw [hC0]; simp]
        rw [htokC t2 (by
          rcases hrest t2 hpre with rfl | ⟨r2, rfl⟩
          · exact Or.inl rfl
          · exact Or.inr ⟨' ', r2, rfl, by decide, by decide⟩)]
        simp [strMkData]
      simp only [mkEntry]
      exact hclass _ _ htok
    · obtain ⟨t2, ht2, hpre⟩ := headerTextOf_front
        (F := 'v' :: (renderSemVer ⟨X, Y, Z, []⟩).data) (by simp)
        (fun x hx => by rw [List.head?_cons] at hx; cases hx; decide)
        (by simp [hCnonlt]; decide)
        (by
          intro x hx
          rw [getLast?_cons_of_ne_nil hCne] at hx
          exact hClast x hx)
        tl
      have htok : extractVersionToken (headerTextOf ⟨'#' :: '#' :: ' ' :: 'v' ::
          ((renderSemVer ⟨X, Y, Z, []⟩).data ++ tl)⟩) =
            some (renderSemVer ⟨X, Y, Z, []⟩) := by
        rw [show ('#' :: '#' :: ' ' :: 'v' ::
            ((renderSemVer ⟨X, Y, Z, []⟩).data ++ tl) : List Char) =
          '#' :: '#' :: ' ' :: (('v' :: (renderSemVer ⟨X, Y, Z, []⟩).data) ++ tl)
          from by simp]
        simp only [extractVersionToken, ht2]
        rw [hC0, List.cons_append, List.cons_append]
        show (extractTok _).map String.mk = _
        rw [extractTok]
        rw [tokenAt_skip_v hc0d]
        rw [show (c0 :: ((dX ++ '.' :: (decRender Y ++ '.' :: decRender Z)) ++ t2)
            : List Char) =
          (renderSemVer ⟨X, Y, Z, []⟩).data ++ t2 from by rw [hC0]; simp]
        rw [htokC t2 (by
          rcases hrest t2 hpre with rfl | ⟨r2, rfl⟩
          · exact Or.inl rfl
          · exact Or.inr ⟨' ', r2, rfl, by decide, by decide⟩)]
        simp [strMkData]
      simp only [mkEntry]
      exact hclass _ _ htok
  · intro l tok hx hv
    constructor <;> simp [mkEntry, classifyVersion, hx, hv]

/-- Witness for C6: the heading `## [1.20.3] - 2024-01-01` gets version
`1.20.3`; the heading `## [1.2.3.4]` gets a null version and the
invalid-SemVer warning. -/
theorem c6_witness :
    (mkEntry ⟨'#' :: '#' :: ' ' :: '[' ::
        ((renderSemVer ⟨1, 20, 3, []⟩).data ++ ']' :: (" - 2024-01-01".data))⟩).1.version =
      some (renderSemVer ⟨1, 20, 3, []⟩) ∧
    (mkEntry "## [1.2.3.4]").1.version = none ∧
    (mkEntry "## [1.2.3.4]").2 = [headerWarning (jsTrim "## [1.2.3.4]")] := by
  refine ⟨((c6_heading_versions 1 20 3 (by decide) (by decide) (by decide)
    (by decide)).1 (" - 2024-01-01".data)).1, ?_⟩
  exact (c6_heading_versions 1 20 3 (by decide) (by decide) (by decide)
    (by decide)).2.2 "## [1.2.3.4]" "1.2.3.4" (by decide) (by decide)

/-- **C2** is false as stated: a changelog with two `## [Unreleased]`
headings parses to two unreleased entries (no self-healing merges them), and
with a released heading before the unreleased one the unreleased entry is
not first. -/
theorem c2_counterexample :
    ((parseChangelog "## [Unreleased]\na\n## [Unreleased]\nb").entries.countP
        (fun e => isUnrel e)) = 2 ∧
    ((parseChangelog "## 1.0.0\nx\n## [Unreleased]\ny").entries.map
        (fun e => e.version)) = [some "1.0.0", some "unreleased"] := by
  constructor
  · decide
  · decide

/-- **C2** (amended): after parsing, at least one entry carries the
unreleased version (a placeholder or promoted-preamble entry is synthesized
when none is scanned), and the parsed entries are exactly the scanned
entries, possibly with that one synthesized unreleased entry prepended —
scanned entries keep their original relative order and the unreleased entry
is not moved. -/
theorem c2_amended (content : String) :
    (parseChangelog content).entries.any isUnrel = true ∧
    ((parseChangelog content).entries = (parsePreamble (splitLines content)).2.1 ∨
      ∃ u, isUnrel u = true ∧
        (parseChangelog content).entries =
          u :: (parsePreamble (splitLines content)).2.1) := by
  refine ⟨?_, ?_⟩ <;> simp only [parseChangelog] <;> repeat' split
  all_goals simp_all [isUnrel, unreleasedPlaceholder]

/-- **C5**: the changelog parser is modelled by the total function
`parseChangelog` (each JS operation it performs is total, so the model is
translation-faithful and never throws), and on every input — malformed or
not — anything it appends to the warnings sequence is one of the three
degradation messages: a per-heading invalid-SemVer warning, the missing
`[Unreleased]`-section warning, or the empty-`[Unreleased]`-section
warning. -/
theorem c5_parser_totality (content : String) (w : String)
    (hw : w ∈ (parseChangelog content).warnings) :
    (∃ h, w = headerWarning h) ∨ w = missingUnreleasedWarning ∨
      w = emptyUnreleasedWarning := by
  simp only [parseChangelog] at hw
  repeat' split at hw
  all_goals
    try simp only [List.mem_append, List.mem_singleton, or_assoc] at hw
  all_goals
    first
    | exact Or.inl (parsePreamble_warnings _ _ hw)
    | (rcases hw with hw | hw
       · exact Or.inl (parsePreamble_warnings _ _ hw)
       · first
         | exact Or.inr (Or.inl hw)
         | exact Or.inr (Or.inr hw)
         | (rcases hw with hw | hw
            · exact Or.inr (Or.inl hw)
            · exact Or.inr (Or.inr hw)))

/-- Witness for C5 at the malformed input `## v1.2.3.4` (version-shaped
token that is not a valid semver, no unreleased section). -/
theorem c5_witness :
    (∃ h, missingUnreleasedWarning = headerWarning h) ∨
      missingUnreleasedWarning = missingUnreleasedWarning ∨
      missingUnreleasedWarning = emptyUnreleasedWarning :=
  c5_parser_totality "## v1.2.3.4" missingUnreleasedWarning (by decide)

/-- **C4** is false as stated: `1.0.0-beta.1` is a valid current version and
`prerelease` is a bump keyword, yet (with the identifier `alpha`, as the
script passes it) resolution yields `1.0.0-alpha0`, which is *not* strictly
greater than the current version under semver ordering. -/
theorem c4_counterexample :
    resolveNextVersion "1.0.0-beta.1" "prerelease" (some "alpha") =
        some "1.0.0-alpha0" ∧
    gtJs "1.0.0-alpha0" "1.0.0-beta.1" = Except.ok false := by
  constructor
  · decide
  · rfl

/-- **C4** (amended): for a current version *without a pre-release
component*, every bump keyword, and an absent, empty, or well-behaved
pre-release identifier, if resolution produces a string and that string is a
valid semver, then it is strictly greater than the current version under
semver ordering. -/
theorem c4_amended {s arg : String} {v : SemVer} {rt : ReleaseType}
    {pid : Option String} {r : String} {w : SemVer}
    (hparse : parseSemVer s = some v) (hpre : v.pre = [])
    (hrt : releaseTypeOf arg = some rt) (hpid : pidOk pid)
    (hr : resolveNextVersion s arg pid = some r)
    (hw : parseSemVer r = some w) :
    cmpSemVer v w = Ordering.lt := by
  rcases hpid with rfl | rfl | ⟨t, rfl, htne, htid, htnd⟩
  · cases rt with
    | major =>
      simp [resolveNextVersion, hrt, jsInc, hparse, incSemVer, hpre] at hr
      exact resolved_cmp_nopre _ _ _ (Or.inl (Nat.lt_succ_self _)) hr hw
    | minor =>
      simp [resolveNextVersion, hrt, jsInc, hparse, incSemVer, hpre] at hr
      exact resolved_cmp_nopre _ _ _
        (Or.inr ⟨rfl, Or.inl (Nat.lt_succ_self _)⟩) hr hw
    | patch =>
      simp [resolveNextVersion, hrt, jsInc, hparse, incSemVer, hpre] at hr
      exact resolved_cmp_nopre _ _ _
        (Or.inr ⟨rfl, Or.inr ⟨rfl, Nat.lt_succ_self _⟩⟩) hr hw
    | premajor =>
      simp [resolveNextVersion, hrt, jsInc, hparse, incSemVer, hpre] at hr
      exact resolved_cmp_incPre _ _ _ (Or.inl rfl)
        (Or.inl (Nat.lt_succ_self _)) hr hw
    | preminor =>
      simp [resolveNextVersion, hrt, jsInc, hparse, incSemVer, hpre] at hr
      exact resolved_cmp_incPre _ _ _ (Or.inl rfl)
        (Or.inr ⟨rfl, Or.inl (Nat.lt_succ_self _)⟩) hr hw
    | prepatch =>
      simp [resolveNextVersion, hrt, jsInc, hparse, incSemVer, hpre] at hr
      exact resolved_cmp_incPre _ _ _ (Or.inl rfl)
        (Or.inr ⟨rfl, Or.inr ⟨rfl, Nat.lt_succ_self _⟩⟩) hr hw
    | prerelease =>
      simp [resolveNextVersion, hrt, jsInc, hparse, incSemVer, hpre] at hr
      exact resolved_cmp_incPre _ _ _ (Or.inl rfl)
        (Or.inr ⟨rfl, Or.inr ⟨rfl, Nat.lt_succ_self _⟩⟩) hr hw
  · cases rt with
    | major =>
      simp [resolveNextVersion, hrt, jsInc, hparse, incSemVer, hpre,
        show ("" : String).isEmpty = true from rfl] at hr
      exact resolved_cmp_nopre _ _ _ (Or.inl (Nat.lt_succ_self _)) hr hw
    | minor =>
      simp [resolveNextVersion, hrt, jsInc, hparse, incSemVer, hpre,
        show ("" : String).isEmpty = true from rfl] at hr
      exact resolved_cmp_nopre _ _ _
        (Or.inr ⟨rfl, Or.inl (Nat.lt_succ_self _)⟩) hr hw
    | patch =>
      simp [resolveNextVersion, hrt, jsInc, hparse, incSemVer, hpre,
        show ("" : String).isEmpty = true from rfl] at hr
      exact resolved_cmp_nopre _ _ _
        (Or.inr ⟨rfl, Or.inr ⟨rfl, Nat.lt_succ_self _⟩⟩) hr hw
    | premajor =>
      simp [resolveNextVersion, hrt, jsInc, hparse, incSemVer, hpre,
        show ("" : String).isEmpty = true from rfl] at hr
      exact resolved_cmp_incPre _ _ _ (Or.inl rfl)
        (Or.inl (Nat.lt_succ_self _)) hr hw
    | preminor =>
      simp [resolveNextVersion, hrt, jsInc, hparse, incSemVer, hpre,
        show ("" : String).isEmpty = true from rfl] at hr
      exact resolved_cmp_incPre _ _ _ (Or.inl rfl)
        (Or.inr ⟨rfl, Or.inl (Nat.lt_succ_self _)⟩) hr hw
    | prepatch =>
      simp [resolveNextVersion, hrt, jsInc, hparse, incSemVer, hpre,
        show ("" : String).isEmpty = true from rfl] at hr
      exact resolved_cmp_incPre _ _ _ (Or.inl rfl)
        (Or.inr ⟨rfl, Or.inr ⟨rfl, Nat.lt_succ_self _⟩⟩) hr hw
    | prerelease =>
      simp [resolveNextVersion, hrt, jsInc, hparse, incSemVer, hpre,
        show ("" : String).isEmpty = true from rfl] at hr
      exact resolved_cmp_incPre _ _ _ (Or.inl rfl)
        (Or.inr ⟨rfl, Or.inr ⟨rfl, Nat.lt_succ_self _⟩⟩) hr hw
  · have hte : t.isEmpty = false := by
      cases hie : t.isEmpty
      · rfl
      · exact absurd (congrArg String.data ((String.isEmpty_iff t).mp hie)) htne
    cases rt with
    | major =>
      simp [resolveNextVersion, hrt, jsInc, hparse, incSemVer, hpre, hte] at hr
      exact resolved_cmp_nopre _ _ _ (Or.inl (Nat.lt_succ_self _)) hr hw
    | minor =>
      simp [resolveNextVersion, hrt, jsInc, hparse, incSemVer, hpre, hte] at hr
      exact resolved_cmp_nopre _ _ _
        (Or.inr ⟨rfl, Or.inl (Nat.lt_succ_self _)⟩) hr hw
    | patch =>
      simp [resolveNextVersion, hrt, jsInc, hparse, incSemVer, hpre, hte] at hr
      exact resolved_cmp_nopre _ _ _
        (Or.inr ⟨rfl, Or.inr ⟨rfl, Nat.lt_succ_self _⟩⟩) hr hw
    | premajor =>
      by_cases hok : incIdentOk t = true
      · simp [resolveNextVersion, hrt, jsInc, hparse, incSemVer, hpre, hte, hok] at hr
        exact resolved_cmp_incPre _ _ _ (Or.inr ⟨t, rfl, htne, htid, htnd⟩)
          (Or.inl (Nat.lt_succ_self _)) hr hw
      · simp [resolveNextVersion, hrt, jsInc, hparse, incSemVer, hte, hok] at hr
    | preminor =>
      by_cases hok : incIdentOk t = true
      · simp [resolveNextVersion, hrt, jsInc, hparse, incSemVer, hpre, hte, hok] at hr
        exact resolved_cmp_incPre _ _ _ (Or.inr ⟨t, rfl, htne, htid, htnd⟩)
          (Or.inr ⟨rfl, Or.inl (Nat.lt_succ_self _)⟩) hr hw
      · simp [resolveNextVersion, hrt, jsInc, hparse, incSemVer, hte, hok] at hr
    | prepatch =>
      by_cases hok : incIdentOk t = true
      · simp [resolveNextVersion, hrt, jsInc, hparse, incSemVer, hpre, hte, hok] at hr
        exact resolved_cmp_incPre _ _ _ (Or.inr ⟨t, rfl, htne, htid, htnd⟩)
          (Or.inr ⟨rfl, Or.inr ⟨rfl, Nat.lt_succ_self _⟩⟩) hr hw
      · simp [resolveNextVersion, hrt, jsInc, hparse, incSemVer, hte, hok] at hr
    | prerelease =>
      by_cases hok : incIdentOk t = true
      · simp [resolveNextVersion, hrt, jsInc, hparse, incSemVer, hpre, hte, hok] at hr
        exact resolved_cmp_incPre _ _ _ (Or.inr ⟨t, rfl, htne, htid, htnd⟩)
          (Or.inr ⟨rfl, Or.inr ⟨rfl, Nat.lt_succ_self _⟩⟩) hr hw
      · simp [resolveNextVersion, hrt, jsInc, hparse, incSemVer, hte, hok] at hr

/-- Witness instantiating the amended C4 theorem concretely: bumping `1.0.0`
with keyword `prerelease` and identifier `beta` resolves to `1.0.1-beta0`,
which is strictly greater than `1.0.0`. -/
theorem c4_witness :
    cmpSemVer ⟨1, 0, 0, []⟩ ⟨1, 0, 1, [PreId.str "beta0"]⟩ = Ordering.lt :=
  @c4_amended "1.0.0" "prerelease" ⟨1, 0, 0, []⟩ .prerelease (some "beta")
    "1.0.1-beta0" ⟨1, 0, 1, [PreId.str "beta0"]⟩
    (by decide) rfl (by decide)
    (Or.inr (Or.inr ⟨"beta", rfl, by decide, by decide, by decide⟩))
    (by decide) (by decide)

/-- **C1** counterexample: the claimed writer round trip fails verbatim.  In
the changelog `"stuff\n## [1.0.0]\n  ## x\nbody"` the `1.0.0` entry's content
is the (trimmed) block `"## x\nbody"`: its first line was indented in the
source, so the parser treated it as content, but the writer emits it at
column zero, where it re-parses as a second-level heading.  The entry
`("## [1.0.0]", "## x\nbody")` is present in the original parse and absent
from the re-parse of the writer's output. -/
theorem c1_counterexample :
    ((parseChangelog "stuff\n## [1.0.0]\n  ## x\nbody").entries.map
        (fun e => (e.header, e.content))).contains
          ("## [1.0.0]", "## x\nbody") = true ∧
    (match updateChangelog (parseChangelog "stuff\n## [1.0.0]\n  ## x\nbody")
        "1.1.0" "2026-01-01" with
     | Except.ok p =>
        ((parseChangelog p.1).entries.map
          (fun e => (e.header, e.content))).contains ("## [1.0.0]", "## x\nbody")
     | Except.error _ => true) = false :=
  ⟨rfl, rfl⟩

/-- **C1** (amended): the writer/re-parse round trip preserves every prior
non-unreleased entry verbatim and in order, provided the entries are clean:
each header is a trimmed, newline-free second-level heading, and each content
block (and the unreleased content) is trimmed, newline-normalized, nonempty
and contains no heading-shaped lines.  Re-parsing the text produced by
`updateChangelog` then yields, after some prefix of entries, the new release
entry followed by exactly the prior non-unreleased entries with their headers
and contents unchanged. -/
theorem c1_amended (parsed : ParsedChangelog) (nv today : String)
    (u : ChangelogEntry) (txt ret : String)
    (hu : parsed.entries.find? isUnrel = some u)
    (hucc : contentClean u.content) (huct : jsTrim u.content = u.content)
    (hclean : ∀ e ∈ parsed.entries.filter (fun e => !isUnrel e), entryClean e)
    (hnv : ∀ c ∈ nv.data, c ≠ '\n')
    (htd1 : ∀ c ∈ today.data, c ≠ '\n') (htd2 : jsTrim today = today)
    (htd3 : today ≠ "")
    (hw : updateChangelog parsed nv today = Except.ok (txt, ret)) :
    ∃ front, (parseChangelog txt).entries.map (fun e => (e.header, e.content)) =
      front ++ ("## [" ++ nv ++ "] - " ++ today, u.content) ::
        (parsed.entries.filter (fun e => !isUnrel e)).map
          (fun e => (e.header, e.content)) := by
  simp only [updateChangelog, hu] at hw
  by_cases hc : u.content = ""
  · rw [if_pos hc] at hw
    exact Except.noConfusion hw
  · rw [if_neg hc] at hw
    injection hw with hpair
    rw [Prod.mk.injEq] at hpair
    obtain ⟨hA, hB⟩ := hpair
    obtain ⟨hh1, hh2, hh3⟩ := newHeader_clean nv today hnv htd1 htd2 htd3
    have hNclean : entryClean
        { version := some nv, header := "## [" ++ nv ++ "] - " ++ today,
          content := u.content } :=
      ⟨hh1, hh2, hh3, hucc, huct, hc⟩
    have hallclean : ∀ e ∈ ((⟨some nv, "## [" ++ nv ++ "] - " ++ today,
        u.content⟩ : ChangelogEntry) ::
          parsed.entries.filter (fun e => !isUnrel e)), entryClean e := by
      intro e he
      rcases List.mem_cons.mp he with rfl | he2
      · exact hNclean
      · exact hclean e he2
    have hb1 : '#' ∈ (parsed.title ++ "\n\n" ++
        (if parsed.description ≠ "" then parsed.description ++ "\n\n" else "") ++
        "## [Unreleased]\n\n").data := by
      rw [String.data_append]
      exact List.mem_append.mpr (Or.inr (by decide))
    have hb2 : (parsed.title ++ "\n\n" ++
        (if parsed.description ≠ "" then parsed.description ++ "\n\n" else "") ++
        "## [Unreleased]\n\n").data.getLast? = some '\n' := by
      rw [String.data_append, List.getLast?_append_of_ne_nil _ (by decide)]
      decide
    obtain ⟨D2, hD2⟩ := trim_body_decomp
      (parsed.title ++ "\n\n" ++
        (if parsed.description ≠ "" then parsed.description ++ "\n\n" else "") ++
        "## [Unreleased]\n\n")
      ({ version := some nv, header := "## [" ++ nv ++ "] - " ++ today,
         content := u.content } :: parsed.entries.filter (fun e => !isUnrel e))
      (by simp) hallclean hb1 hb2
    have htdata : txt.data = D2 ++ '\n' ::
        (wrBlocksL ((⟨some nv, "## [" ++ nv ++ "] - " ++ today,
          u.content⟩ : ChangelogEntry) ::
            parsed.entries.filter (fun e => !isUnrel e)) ++ ['\n']) := by
      rw [← hA]
      exact hD2
    have hsplitNL : splitNL txt.data = splitNL D2 ++
        wrPiecesL ((⟨some nv, "## [" ++ nv ++ "] - " ++ today,
          u.content⟩ : ChangelogEntry) ::
            parsed.entries.filter (fun e => !isUnrel e)) := by
      rw [htdata, splitNL_append_nl]
      rw [splitNL_wrBlocks _ (by simp) (fun e he => (hallclean e he).2.2.1)]
    have hlines2 : splitLines txt =
        ((splitNL D2).map chompCR).map String.mk ++
          (("## [" ++ nv ++ "] - " ++ today) ::
            ("" :: (splitLines u.content ++ "" :: wrBlockLines
              (parsed.entries.filter (fun e => !isUnrel e))))) := by
      show (fixCR (splitNL txt.data)).map String.mk = _
      rw [hsplitNL, fixCR_append _ _ (by simp [wrPiecesL]),
        fixCR_eq_self (wrPieces_noCR _ hallclean), List.map_append,
        wrPieces_mk _ (fun e he => (hallclean e he).2.2.2.1)]
      rfl
    obtain ⟨F, hF⟩ : ∃ F, (parsePreamble (splitLines txt)).2.1 =
        F ++ (parseBody ("" :: (splitLines u.content ++ "" :: wrBlockLines
            (parsed.entries.filter (fun e => !isUnrel e))))
          (mkEntry ("## [" ++ nv ++ "] - " ++ today)).1).1 := by
      rw [hlines2]
      exact parsePreamble_append_header _ _ _ hh1
    have hblocks := parseBody_blocks (parsed.entries.filter (fun e => !isUnrel e))
      hclean u.content hucc huct hc
      (mkEntry ("## [" ++ nv ++ "] - " ++ today)).1 rfl
    obtain ⟨G, hG⟩ := parseChangelog_entries_shape txt
    refine ⟨G.map (fun e => (e.header, e.content)) ++
      F.map (fun e => (e.header, e.content)), ?_⟩
    rw [hG, List.map_append, hF, List.map_append, hblocks,
      show (mkEntry ("## [" ++ nv ++ "] - " ++ today)).1.header =
        "## [" ++ nv ++ "] - " ++ today from hh2]
    simp

/-- Witness instantiating the amended C1 theorem on a concrete clean
changelog: releasing `1.1.0` on `2026-01-01` re-parses to the new entry
followed by the preserved `1.0.0` entry. -/
theorem c1_witness :
    ∃ front,
      (parseChangelog
          "# Changelog\n\n## [Unreleased]\n\n## [1.1.0] - 2026-01-01\n\nstuff\n\n## [1.0.0]\n\nbody\n").entries.map
        (fun e => (e.header, e.content)) =
      front ++ ("## [" ++ "1.1.0" ++ "] - " ++ "2026-01-01", "stuff") ::
        ((parseChangelog
            "# Changelog\n\n## [Unreleased]\n\nstuff\n\n## [1.0.0]\n\nbody").entries.filter
          (fun e => !isUnrel e)).map (fun e => (e.header, e.content)) :=
  c1_amended
    (parseChangelog "# Changelog\n\n## [Unreleased]\n\nstuff\n\n## [1.0.0]\n\nbody")
    "1.1.0" "2026-01-01"
    { version := some "unreleased", header := "## [Unreleased]", content := "stuff" }
    "# Changelog\n\n## [Unreleased]\n\n## [1.1.0] - 2026-01-01\n\nstuff\n\n## [1.0.0]\n\nbody\n"
    "stuff"
    rfl (by decide) (by decide) (by decide) (by decide) (by decide) (by decide)
    (by decide) rfl

/-- Witness for C7 at the concrete input `1.0.1-beta.0`. -/
theorem c7_witness : bratNormalize "1.0.1-beta.0" = "1.0.1-beta0" := by
  have heq : ("1.0.1-beta" : String) ++ "." ++ String.mk ['0'] = "1.0.1-beta.0" := by decide
  have h := c7_prerelease_dot_removal.1 "1.0.1-beta" ['0']
    ⟨1, 0, 1, [PreId.str "beta", PreId.num 0]⟩
    (by decide) (by decide) (by rw [heq]; decide) (by decide)
  rw [heq] at h
  rw [h]
  decide

end Release
